import Mathlib

/-!
# stringproc: the command matcher and the string operations

A shallow embedding of `src/stringproc.cpp` and `src/stringproc.h`.

* A C string (`const char*`) is the list of its bytes without the terminating NUL;
  reading at the length yields the terminator (`cstr_at`).  Every `Char` stands for
  one byte.
* `std::string` is a list of bytes as well; `find`/`rfind` return `none` for
  `std::string::npos`, `substr` takes `none` for a count of `npos`.
* The `while` loops of `ClArgs::match` and the `for` loop of `tokenize` carry a fuel argument
  and return `none` when it runs out; the counted loops of the trim functions are total.
* The parser `dsaext::parse_unsigned_int64_c_str` belongs to a library outside the sources;
  `to_size` and all that calls it take it as the parameter `parse`.
* Safety is stated on copies of the functions in which the step in question is checked
  (`match_checked`, `last_part_checked`, `substring_checked`, `char_at_checked`): they fail
  where the function would read out of bounds or underflow, and are proved never to fail.
* `match_rest` gives the result of `ClArgs::match` by what is left of the template and of the
  tokens; `match_eq_rest` proves it for every template.
* The standard streams are the two fields of `Streams`; exceptions are values of `Exn`.
-/

namespace stringproc

/-! ## C strings -/

/-- The terminating byte of a C string. -/
def NUL : Char := Char.ofNat 0

/-- The byte `s[i]` of a C string: a byte of the string, or the terminator behind it. -/
def cstr_at (s : List Char) (i : Nat) : Char := s.getD i NUL

/-- The function `strlen`. -/
def strlen (s : List Char) : Nat := s.length

/-- The function `strcmp(a, b) == 0`. -/
def strcmp_eq (a b : List Char) : Bool := a == b

/-! ## Exceptions and streams -/

/-- The exceptions the program can raise: `stringproc::ArgsException`, `std::bad_alloc`
and the `std::out_of_range` of `std::string::substr`. -/
inductive Exn where
  | ArgsException
  | bad_alloc
  | out_of_range
  deriving DecidableEq, Repr

/-- What has been written to `std::cout` and to `std::cerr`. -/
structure Streams where
  out : List Char
  err : List Char
  deriving DecidableEq, Repr

/-- Write to `std::cout`. -/
def cout (io : Streams) (s : List Char) : Streams := ⟨io.out ++ s, io.err⟩

/-- Write to `std::cerr`. -/
def cerr (io : Streams) (s : List Char) : Streams := ⟨io.out, io.err ++ s⟩

/-! ## ClArgs -/

/-- The class `ClArgs` of `stringproc.h`: `arg_count` and `arg_values`. -/
structure ClArgs where
  arg_count : Nat
  arg_values : List (List Char)
  deriving DecidableEq, Repr

/-- The inner `while` of `ClArgs::match` (lines 481-486): advances `spec_idx` and `cmp_idx`
together while the token byte and the template byte are equal, neither is the terminator and
the template byte is not a space.  Returns the final `(spec_idx, cmp_idx)`. -/
def ClArgs.match_cmp (arg arg_spec : List Char) : Nat → Nat → Nat → Option (Nat × Nat)
  | 0, _, _ => none
  | fuel + 1, spec_idx, cmp_idx =>
    if cstr_at arg cmp_idx ≠ NUL ∧ cstr_at arg_spec spec_idx ≠ NUL ∧
        cstr_at arg_spec spec_idx ≠ ' ' ∧ cstr_at arg cmp_idx = cstr_at arg_spec spec_idx then
      ClArgs.match_cmp arg arg_spec fuel (spec_idx + 1) (cmp_idx + 1)
    else
      some (spec_idx, cmp_idx)

/-- The outer `while` of `ClArgs::match` (lines 474-503).  Returns `(arg_idx, spec_idx)` as
they are when the loop is left, by its condition or by `break`. -/
def ClArgs.match_loop (self : ClArgs) (arg_spec : List Char) :
    Nat → Nat → Nat → Option (Nat × Nat)
  | 0, _, _ => none
  | fuel + 1, arg_idx, spec_idx =>
    if arg_idx < self.arg_count ∧ spec_idx < strlen arg_spec then
      if cstr_at arg_spec spec_idx ≠ '?' then
        if cstr_at arg_spec spec_idx ≠ ' ' then
          match ClArgs.match_cmp (self.arg_values.getD arg_idx []) arg_spec (fuel + 1)
              spec_idx 0 with
          | none => none
          | some (spec_idx1, cmp_idx) =>
            if cstr_at (self.arg_values.getD arg_idx []) cmp_idx = NUL ∧
                (cstr_at arg_spec spec_idx1 = NUL ∨ cstr_at arg_spec spec_idx1 = ' ') then
              ClArgs.match_loop self arg_spec fuel (arg_idx + 1) (spec_idx1 + 1)
            else
              some (arg_idx, spec_idx1)
        else
          ClArgs.match_loop self arg_spec fuel arg_idx (spec_idx + 1)
      else
        ClArgs.match_loop self arg_spec fuel (arg_idx + 1) (spec_idx + 1)
    else
      some (arg_idx, spec_idx)

/-- The method `ClArgs::match` (lines 469-505); `none` when the fuel does not suffice. -/
def ClArgs.match_ (self : ClArgs) (fuel : Nat) (arg_spec : List Char) : Option Bool :=
  match ClArgs.match_loop self arg_spec fuel 1 0 with
  | none => none
  | some (arg_idx, spec_idx) =>
    some (decide (arg_idx = self.arg_count) && decide (strlen arg_spec ≤ spec_idx))

/-- The method `ClArgs::get_arg` (lines 508-515). -/
def ClArgs.get_arg (self : ClArgs) (idx : Nat) : Except Exn (List Char) :=
  if idx ≥ self.arg_count then .error .ArgsException
  else .ok (self.arg_values.getD idx [])

/-- The method `ClArgs::last_arg` (lines 518-524). -/
def ClArgs.last_arg (self : ClArgs) (idx : Nat) : Except Exn Unit :=
  if idx + 1 ≠ self.arg_count then .error .ArgsException
  else .ok ()

/-! ## std::string -/

/-- The value `std::string::npos`, the largest `size_t` (64 bit). -/
def npos : Nat := 2 ^ 64 - 1

/-- The constant `SIZE_MAX` of the platform (64 bit). -/
def SIZE_MAX : Nat := 2 ^ 64 - 1

/-- The function `std::string::find(part)`: the lowest position at which `part` occurs in
`text`, `none` for `npos`. -/
def find : List Char → List Char → Option Nat
  | [], part => if part = [] then some 0 else none
  | c :: cs, part =>
    if part <+: c :: cs then some 0
    else match find cs part with
      | some i => some (i + 1)
      | none => none

/-- The function `std::string::rfind(part)`: the highest position at which `part` occurs in
`text`, `none` for `npos`. -/
def rfind : List Char → List Char → Option Nat
  | [], part => if part = [] then some 0 else none
  | c :: cs, part =>
    match rfind cs part with
    | some i => some (i + 1)
    | none => if part <+: c :: cs then some 0 else none

/-- The function `std::string::substr(pos, count)`, `count = none` for `npos`: throws
`std::out_of_range` when `pos` is behind the end. -/
def substr (s : List Char) (pos : Nat) (count : Option Nat) : Except Exn (List Char) :=
  if pos > s.length then .error .out_of_range
  else match count with
    | none => .ok (s.drop pos)
    | some n => .ok ((s.drop pos).take n)

/-- The output of `std::cout << n` for an unsigned number. -/
def show_size (n : Nat) : List Char := Nat.toDigits 10 n

/-! ## The operations -/

/-- The function `to_size` (lines 411-434).  The parser
`dsaext::parse_unsigned_int64_c_str` of the library header `integerparse.h` is the parameter
`parse`, `none` standing for its `NumberFormatException`. -/
def to_size (parse : List Char → Option Nat) (executable_name size_spec : List Char)
    (io : Streams) : Streams × Except Exn Nat :=
  match parse size_spec with
  | none =>
    (cerr io (executable_name ++ "Input string \"".toList ++ size_spec ++
      "\" cannot be parsed as a number\n".toList), .error .ArgsException)
  | some parsed_value =>
    if parsed_value > SIZE_MAX ∨ parsed_value ≥ npos then
      (cerr io (executable_name ++ "Value ".toList ++ show_size parsed_value ++
        " is out of range\n\n".toList), .error .ArgsException)
    else
      (io, .ok parsed_value)

/-- Modelled from the spec: the decimal parser `dsaext::parse_unsigned_int64_c_str`, whose
source is not part of the repository: "Numeric arguments must be non-negative decimal integers
representable in the platform's unsigned size type". -/
def parse_unsigned_int64_c_str (s : List Char) : Option Nat :=
  if s = [] ∨ s.any (fun c => !c.isDigit) then none
  else
    let v := s.foldl (fun acc c => 10 * acc + (c.toNat - 48)) 0
    if v < 2 ^ 64 then some v else none

/-- Write the result of a `substr` call to `std::cout`, or pass its exception on. -/
def cout_substr (io : Streams) (r : Except Exn (List Char)) : Streams × Except Exn Unit :=
  match r with
  | .error e => (io, .error e)
  | .ok s => (cout io s, .ok ())

/-- The function `length` (lines 207-210). -/
def length (text : List Char) (io : Streams) : Streams × Except Exn Unit :=
  (cout io (show_size (strlen text)), .ok ())

/-- The function `prepend` (lines 212-215). -/
def prepend (pfx text : List Char) (io : Streams) : Streams × Except Exn Unit :=
  (cout (cout io pfx) text, .ok ())

/-- The function `append` (lines 217-220). -/
def append (suffix text : List Char) (io : Streams) : Streams × Except Exn Unit :=
  (cout (cout io text) suffix, .ok ())

/-- The function `index` (lines 222-234). -/
def index (part text : List Char) (io : Streams) : Streams × Except Exn Unit :=
  match find text part with
  | some idx => (cout io (show_size idx), .ok ())
  | none => (cout io "-1".toList, .ok ())

/-- The function `last_index` (lines 236-248). -/
def last_index (part text : List Char) (io : Streams) : Streams × Except Exn Unit :=
  match rfind text part with
  | some idx => (cout io (show_size idx), .ok ())
  | none => (cout io "-1".toList, .ok ())

/-- The function `first_part` (lines 251-256). -/
def first_part (parse : List Char → Option Nat) (executable_name length_spec text : List Char)
    (io : Streams) : Streams × Except Exn Unit :=
  match to_size parse executable_name length_spec io with
  | (io, .error e) => (io, .error e)
  | (io, .ok split_idx) =>
    cout_substr io (substr text 0 (some (min split_idx text.length)))

/-- The function `last_part` (lines 259-265). -/
def last_part (parse : List Char → Option Nat) (executable_name length_spec text : List Char)
    (io : Streams) : Streams × Except Exn Unit :=
  match to_size parse executable_name length_spec io with
  | (io, .error e) => (io, .error e)
  | (io, .ok split_idx) =>
    let text_length := text.length
    cout_substr io (substr text (text_length - min split_idx text_length) none)

/-- The function `char_at` (lines 268-275). -/
def char_at (parse : List Char → Option Nat) (executable_name offset_spec text : List Char)
    (io : Streams) : Streams × Except Exn Unit :=
  match to_size parse executable_name offset_spec io with
  | (io, .error e) => (io, .error e)
  | (io, .ok char_idx) =>
    if char_idx < strlen text then (cout io [cstr_at text char_idx], .ok ())
    else (io, .ok ())

/-- The function `substring` (lines 278-290). -/
def substring (parse : List Char → Option Nat) (executable_name start_spec end_spec
    text : List Char) (io : Streams) : Streams × Except Exn Unit :=
  let text_length := text.length
  match to_size parse executable_name start_spec io with
  | (io, .error e) => (io, .error e)
  | (io, .ok start_val) =>
    let start_idx := min start_val text_length
    let use_max_end_idx := strcmp_eq "end".toList end_spec
    match (if use_max_end_idx then (io, Except.ok text_length)
        else match to_size parse executable_name end_spec io with
          | (io, .error e) => (io, .error e)
          | (io, .ok end_val) => (io, .ok (min end_val text_length))) with
    | (io, .error e) => (io, .error e)
    | (io, .ok end_idx) =>
      if start_idx ≤ end_idx then
        let length := end_idx - start_idx
        cout_substr io (substr text start_idx (some length))
      else (io, .ok ())

/-- The function `first_token` (lines 292-304). -/
def first_token (text separator : List Char) (io : Streams) : Streams × Except Exn Unit :=
  match find text separator with
  | some split_idx => cout_substr io (substr text 0 (some split_idx))
  | none => (cout io text, .ok ())

/-- The function `last_token` (lines 306-319). -/
def last_token (text separator : List Char) (io : Streams) : Streams × Except Exn Unit :=
  match rfind text separator with
  | some split_idx => cout_substr io (substr text (split_idx + separator.length) none)
  | none => (cout io text, .ok ())

/-- The function `remove_first_token` (lines 321-330). -/
def remove_first_token (text separator : List Char) (io : Streams) :
    Streams × Except Exn Unit :=
  match find text separator with
  | some split_idx => cout_substr io (substr text (split_idx + separator.length) none)
  | none => (io, .ok ())

/-- The function `remove_last_token` (lines 332-341). -/
def remove_last_token (text separator : List Char) (io : Streams) :
    Streams × Except Exn Unit :=
  match rfind text separator with
  | some split_idx => cout_substr io (substr text 0 (some split_idx))
  | none => (io, .ok ())

/-- The `for` loop of `tokenize` (lines 347-353); returns the streams and the last value of
`text_str`, `none` when the fuel does not suffice. -/
def tokenize_loop (separator_str : List Char) :
    Nat → List Char → Streams → Option (Streams × Except Exn (List Char))
  | 0, _, _ => none
  | fuel + 1, text_str, io =>
    match find text_str separator_str with
    | none => some (io, .ok text_str)
    | some split_idx =>
      match substr text_str 0 (some split_idx) with
      | .error e => some (io, .error e)
      | .ok token =>
        let io := cout (cout io token) ['\n']
        match substr text_str (split_idx + separator_str.length) none with
        | .error e => some (io, .error e)
        | .ok rest => tokenize_loop separator_str fuel rest io

/-- The function `tokenize` (lines 343-355). -/
def tokenize (fuel : Nat) (text separator : List Char) (io : Streams) :
    Option (Streams × Except Exn Unit) :=
  match tokenize_loop separator fuel text io with
  | none => none
  | some (io, .error e) => some (io, .error e)
  | some (io, .ok text_str) => some (cout (cout io text_str) ['\n'], .ok ())

/-- The `for` loop of `trim_leading_impl` (lines 384-391) with `n` iterations left,
`n = text_length - idx`. -/
def trim_leading_loop (text_str : List Char) : Nat → Nat → Except Exn (List Char)
  | 0, _ => .ok text_str
  | n + 1, idx =>
    if cstr_at text_str idx ≠ ' ' ∧ cstr_at text_str idx ≠ '\t' then
      substr text_str idx none
    else
      trim_leading_loop text_str n (idx + 1)

/-- The function `trim_leading_impl` (lines 379-392): the new value of `text_str`. -/
def trim_leading_impl (text_str : List Char) : Except Exn (List Char) :=
  trim_leading_loop text_str text_str.length 0

/-- The `while` loop of `trim_trailing_impl` (lines 400-408), entered with the given `idx`. -/
def trim_trailing_loop (text_str : List Char) : Nat → Except Exn (List Char)
  | 0 => .ok text_str
  | idx + 1 =>
    if cstr_at text_str idx ≠ ' ' ∧ cstr_at text_str idx ≠ '\t' then
      substr text_str 0 (some (idx + 1))
    else
      trim_trailing_loop text_str idx

/-- The function `trim_trailing_impl` (lines 394-409): the new value of `text_str`. -/
def trim_trailing_impl (text_str : List Char) : Except Exn (List Char) :=
  trim_trailing_loop text_str text_str.length

/-- The function `trim_leading` (lines 357-362). -/
def trim_leading (text : List Char) (io : Streams) : Streams × Except Exn Unit :=
  cout_substr io (trim_leading_impl text)

/-- The function `trim_trailing` (lines 364-369). -/
def trim_trailing (text : List Char) (io : Streams) : Streams × Except Exn Unit :=
  cout_substr io (trim_trailing_impl text)

/-- The function `trim_all` (lines 371-377). -/
def trim_all (text : List Char) (io : Streams) : Streams × Except Exn Unit :=
  match trim_leading_impl text with
  | .error e => (io, .error e)
  | .ok text_str => cout_substr io (trim_trailing_impl text_str)

/-! ## main -/

/-- The constant `EXIT_SUCCESS` of `<cstdlib>`. -/
def EXIT_SUCCESS : Nat := 0

/-- The constant `EXIT_FAILURE` of `<cstdlib>`. -/
def EXIT_FAILURE : Nat := 1

/-- The constant `EXIT_ERR_MEM_ALLOC` of `stringproc.h`. -/
def EXIT_ERR_MEM_ALLOC : Nat := 2

/-- The function `display_syntax` (lines 436-457). -/
def display_syntax (executable_name : List Char) (io : Streams) : Streams :=
  let line := fun (io : Streams) (s : String) =>
    cerr io ("    ".toList ++ executable_name ++ s.toList)
  let io := cerr io "Syntax:\n".toList
  let io := line io " length of <string>\n"
  let io := line io " prepend <string> to <string>\n"
  let io := line io " append <string> to <string>\n"
  let io := line io " index of <string> in <string>\n"
  let io := line io " last index of <string> in <string>\n"
  let io := line io " char at <offset> in <string>\n"
  let io := line io " substring <offset> to <offset> of <string>\n"
  let io := line io " first token of <string> split by <string>\n"
  let io := line io " last token of <string> split by <string>\n"
  let io := line io " remove first token of <string> split by <string>\n"
  let io := line io " remove last token of <string> split by <string>\n"
  let io := line io " first <count> bytes of <string>\n"
  let io := line io " last <count> bytes of <string>\n"
  let io := line io " tokenize <string> split by <string>\n"
  let io := line io " trim whitespace in <string>\n"
  let io := line io " trim leading whitespace in <string>\n"
  let io := line io " trim trailing whitespace in <string>\n"
  cerr io ['\n']

/-- A call `op(arguments.get_arg(i))`: the argument is fetched, then the operation runs. -/
def call1 (op : List Char → Streams → Streams × Except Exn Unit)
    (a : Except Exn (List Char)) (io : Streams) : Streams × Except Exn Unit :=
  match a with
  | .error e => (io, .error e)
  | .ok x => op x io

/-- A call `op(arguments.get_arg(i), arguments.get_arg(j))`. -/
def call2 (op : List Char → List Char → Streams → Streams × Except Exn Unit)
    (a b : Except Exn (List Char)) (io : Streams) : Streams × Except Exn Unit :=
  match a, b with
  | .error e, _ => (io, .error e)
  | .ok _, .error e => (io, .error e)
  | .ok x, .ok y => op x y io

/-- A call `op(arguments.get_arg(i), arguments.get_arg(j), arguments.get_arg(k))`. -/
def call3 (op : List Char → List Char → List Char → Streams → Streams × Except Exn Unit)
    (a b c : Except Exn (List Char)) (io : Streams) : Streams × Except Exn Unit :=
  match a, b, c with
  | .error e, _, _ => (io, .error e)
  | .ok _, .error e, _ => (io, .error e)
  | .ok _, .ok _, .error e => (io, .error e)
  | .ok x, .ok y, .ok z => op x y z io

/-- The `try` block of `main` (lines 81-187): the streams and the exception it leaves with, if
any; `none` when the fuel does not suffice. -/
def main_try (parse : List Char → Option Nat) (fuel : Nat) (argv : List (List Char))
    (executable_name : List Char) (io : Streams) : Option (Streams × Except Exn Unit) :=
  let argc := argv.length
  let arguments : ClArgs := ⟨argc, argv⟩
  if argc < 2 then some (io, .error .ArgsException)
  else
    match arguments.match_ fuel "length of ?".toList with
    | none => none
    | some true =>
      some (call1 length (arguments.get_arg 3) io)
    | some false =>
    match arguments.match_ fuel "prepend ? to ?".toList with
    | none => none
    | some true =>
      some (call2 prepend (arguments.get_arg 2) (arguments.get_arg 4) io)
    | some false =>
    match arguments.match_ fuel "append ? to ?".toList with
    | none => none
    | some true =>
      some (call2 append (arguments.get_arg 2) (arguments.get_arg 4) io)
    | some false =>
    match arguments.match_ fuel "index of ? in ?".toList with
    | none => none
    | some true =>
      some (call2 index (arguments.get_arg 3) (arguments.get_arg 5) io)
    | some false =>
    match arguments.match_ fuel "last index of ? in ?".toList with
    | none => none
    | some true =>
      some (call2 last_index (arguments.get_arg 4) (arguments.get_arg 6) io)
    | some false =>
    match arguments.match_ fuel "char at ? in ?".toList with
    | none => none
    | some true =>
      some (call2 (char_at parse executable_name) (arguments.get_arg 3)
        (arguments.get_arg 5) io)
    | some false =>
    match arguments.match_ fuel "substring ? to ? of ?".toList with
    | none => none
    | some true =>
      some (call3 (substring parse executable_name) (arguments.get_arg 2)
        (arguments.get_arg 4) (arguments.get_arg 6) io)
    | some false =>
    match arguments.match_ fuel "first token of ? split by ?".toList with
    | none => none
    | some true =>
      some (call2 first_token (arguments.get_arg 4) (arguments.get_arg 7) io)
    | some false =>
    match arguments.match_ fuel "last token of ? split by ?".toList with
    | none => none
    | some true =>
      some (call2 last_token (arguments.get_arg 4) (arguments.get_arg 7) io)
    | some false =>
    match arguments.match_ fuel "remove first token of ? split by ?".toList with
    | none => none
    | some true =>
      some (call2 remove_first_token (arguments.get_arg 5) (arguments.get_arg 8) io)
    | some false =>
    match arguments.match_ fuel "remove last token of ? split by ?".toList with
    | none => none
    | some true =>
      some (call2 remove_last_token (arguments.get_arg 5) (arguments.get_arg 8) io)
    | some false =>
    match arguments.match_ fuel "first ? bytes of ?".toList with
    | none => none
    | some true =>
      some (call2 (first_part parse executable_name) (arguments.get_arg 2)
        (arguments.get_arg 5) io)
    | some false =>
    match arguments.match_ fuel "last ? bytes of ?".toList with
    | none => none
    | some true =>
      some (call2 (last_part parse executable_name) (arguments.get_arg 2)
        (arguments.get_arg 5) io)
    | some false =>
    match arguments.match_ fuel "tokenize ? split by ?".toList with
    | none => none
    | some true =>
      (match arguments.get_arg 2, arguments.get_arg 5 with
      | .error e, _ => some (io, .error e)
      | .ok _, .error e => some (io, .error e)
      | .ok x, .ok y => tokenize fuel x y io)
    | some false =>
    match arguments.match_ fuel "trim whitespace in ?".toList with
    | none => none
    | some true =>
      some (call1 trim_all (arguments.get_arg 4) io)
    | some false =>
    match arguments.match_ fuel "trim leading whitespace in ?".toList with
    | none => none
    | some true =>
      some (call1 trim_leading (arguments.get_arg 5) io)
    | some false =>
    match arguments.match_ fuel "trim trailing whitespace in ?".toList with
    | none => none
    | some true =>
      some (call1 trim_trailing (arguments.get_arg 5) io)
    | some false =>
      some (cerr io (executable_name ++ ": Invalid command\n\n".toList), .error .ArgsException)

/-- How a run of the program ends: `return rc` from `main`, or `std::terminate` on an
exception that `main` does not catch. -/
inductive Status where
  | exited (rc : Nat)
  | terminated
  deriving DecidableEq, Repr

/-- The result of a run: the status and what was written to the two streams. -/
structure Outcome where
  status : Status
  out : List Char
  err : List Char
  deriving DecidableEq, Repr

/-- The value of the global `executable_name` (line 43) once `main` has set it from `argv[0]`
(lines 86-89). -/
def program_name (argv : List (List Char)) : List Char :=
  if argv.length ≥ 1 then argv.getD 0 [] else "stringproc".toList

/-- The function `main` (lines 76-203) on the argument vector `argv`, `argc = argv.length`;
`none` when the fuel does not suffice. -/
def main (parse : List Char → Option Nat) (fuel : Nat) (argv : List (List Char)) :
    Option Outcome :=
  let executable_name := program_name argv
  match main_try parse fuel argv executable_name ⟨[], []⟩ with
  | none => none
  | some (io, .ok ()) => some ⟨.exited EXIT_SUCCESS, io.out, io.err⟩
  | some (io, .error .ArgsException) =>
    let io := ( display_syntax executable_name io)
    some ⟨.exited EXIT_FAILURE, io.out, io.err⟩
  | some (io, .error .bad_alloc) =>
    let io := cerr io (executable_name ++ ": Error: Out of memory\n".toList)
    some ⟨.exited EXIT_ERR_MEM_ALLOC, io.out, io.err⟩
  | some (io, .error .out_of_range) => some ⟨.terminated, io.out, io.err⟩

/-- The templates tried by `main`, in the order of the `if`/`else if` chain (lines 98-178). -/
def templates : List (List Char) :=
  ["length of ?".toList, "prepend ? to ?".toList, "append ? to ?".toList,
   "index of ? in ?".toList, "last index of ? in ?".toList, "char at ? in ?".toList,
   "substring ? to ? of ?".toList, "first token of ? split by ?".toList,
   "last token of ? split by ?".toList, "remove first token of ? split by ?".toList,
   "remove last token of ? split by ?".toList, "first ? bytes of ?".toList,
   "last ? bytes of ?".toList, "tokenize ? split by ?".toList,
   "trim whitespace in ?".toList, "trim leading whitespace in ?".toList,
   "trim trailing whitespace in ?".toList]

/-- The branches of the `if`/`else if` chain of `main` (lines 98-181): each template with the
indices its branch passes to `get_arg`, in the order of the calls. -/
def main_branches : List (List Char × List Nat) :=
  [("length of ?".toList, [3]),
   ("prepend ? to ?".toList, [2, 4]),
   ("append ? to ?".toList, [2, 4]),
   ("index of ? in ?".toList, [3, 5]),
   ("last index of ? in ?".toList, [4, 6]),
   ("char at ? in ?".toList, [3, 5]),
   ("substring ? to ? of ?".toList, [2, 4, 6]),
   ("first token of ? split by ?".toList, [4, 7]),
   ("last token of ? split by ?".toList, [4, 7]),
   ("remove first token of ? split by ?".toList, [5, 8]),
   ("remove last token of ? split by ?".toList, [5, 8]),
   ("first ? bytes of ?".toList, [2, 5]),
   ("last ? bytes of ?".toList, [2, 5]),
   ("tokenize ? split by ?".toList, [2, 5]),
   ("trim whitespace in ?".toList, [4]),
   ("trim leading whitespace in ?".toList, [5]),
   ("trim trailing whitespace in ?".toList, [5])]

/-! ## Reference definitions -/

/-- The word-by-word reference matcher: the template words and the tokens `argv[1..]` are
consumed together; a word matches a token when it is `?` or equal to the whole token. -/
def spec_match_words : List (List Char) → List (List Char) → Bool
  | [], [] => true
  | w :: ws, t :: ts => (decide (w = ['?']) || decide (w = t)) && spec_match_words ws ts
  | _, _ => false

/-- The words of a template joined by single spaces. -/
def join_words : List (List Char) → List Char
  | [] => []
  | [w] => w
  | w :: w1 :: ws => w ++ ' ' :: join_words (w1 :: ws)

/-- A template word of the kind the templates of `main` are made of: not empty, without a
space or a NUL, and either exactly `?` or not beginning with `?`. -/
def valid_word (w : List Char) : Prop :=
  w ≠ [] ∧ ' ' ∉ w ∧ NUL ∉ w ∧ (w = ['?'] ∨ w.head? ≠ some '?')

instance (w : List Char) : Decidable (valid_word w) := by
  unfold valid_word; infer_instance

/-- The number of steps of the inner loop of `ClArgs::match` on what is left of the token and
of the template. -/
def cmp_len : List Char → List Char → Nat
  | a :: as, b :: bs =>
    if a ≠ NUL ∧ b ≠ NUL ∧ b ≠ ' ' ∧ a = b then cmp_len as bs + 1 else 0
  | _, _ => 0

/-- The words of a template: the pieces between its spaces. -/
def split_words : List Char → List (List Char)
  | [] => [[]]
  | c :: cs =>
    if c = ' ' then [] :: split_words cs
    else match split_words cs with
      | [] => [[c]]
      | w :: ws => (c :: w) :: ws

/-- The 1-based positions of the placeholder `?` among the words of a template. -/
def placeholder_positions (arg_spec : List Char) : List Nat :=
  ((List.range (split_words arg_spec).length).filter
    (fun k => decide ((split_words arg_spec).getD k [] = ['?']))).map (· + 1)

/-- Two word lists that can match the same tokens: of the same length, and at every position
one of the two words is `?` or the two words are equal. -/
def compatible : List (List Char) → List (List Char) → Bool
  | [], [] => true
  | a :: as, b :: bs =>
    (decide (a = ['?']) || decide (b = ['?']) || decide (a = b)) && compatible as bs
  | _, _ => false

/-! ## The chain of `main` as a table -/

/-- The operation called in a branch of `main`, by the number of its arguments. -/
inductive Op where
  | op1 (f : List Char → Streams → Streams × Except Exn Unit)
  | op2 (f : List Char → List Char → Streams → Streams × Except Exn Unit)
  | op3 (f : List Char → List Char → List Char → Streams → Streams × Except Exn Unit)
  | looping (f : List Char → List Char → Streams → Option (Streams × Except Exn Unit))

/-- The branches of `main` (lines 98-181) as rows: the template, the indices passed to
`get_arg` and the operation called with the fetched strings. -/
def main_table (parse : List Char → Option Nat) (fuel : Nat) (executable_name : List Char) :
    List (List Char × List Nat × Op) :=
  [("length of ?".toList, [3], .op1 length),
   ("prepend ? to ?".toList, [2, 4], .op2 prepend),
   ("append ? to ?".toList, [2, 4], .op2 append),
   ("index of ? in ?".toList, [3, 5], .op2 index),
   ("last index of ? in ?".toList, [4, 6], .op2 last_index),
   ("char at ? in ?".toList, [3, 5], .op2 (char_at parse executable_name)),
   ("substring ? to ? of ?".toList, [2, 4, 6], .op3 (substring parse executable_name)),
   ("first token of ? split by ?".toList, [4, 7], .op2 first_token),
   ("last token of ? split by ?".toList, [4, 7], .op2 last_token),
   ("remove first token of ? split by ?".toList, [5, 8], .op2 remove_first_token),
   ("remove last token of ? split by ?".toList, [5, 8], .op2 remove_last_token),
   ("first ? bytes of ?".toList, [2, 5], .op2 (first_part parse executable_name)),
   ("last ? bytes of ?".toList, [2, 5], .op2 (last_part parse executable_name)),
   ("tokenize ? split by ?".toList, [2, 5], .looping (tokenize fuel)),
   ("trim whitespace in ?".toList, [4], .op1 trim_all),
   ("trim leading whitespace in ?".toList, [5], .op1 trim_leading),
   ("trim trailing whitespace in ?".toList, [5], .op1 trim_trailing)]

/-- The body of a branch: the strings are fetched with `get_arg` at the indices of the row and
the operation is called with them. -/
def run_row (arguments : ClArgs) (io : Streams) (idxs : List Nat) (op : Op) :
    Option (Streams × Except Exn Unit) :=
  match op, idxs with
  | .op1 f, [i] => some (call1 f (arguments.get_arg i) io)
  | .op2 f, [i, j] => some (call2 f (arguments.get_arg i) (arguments.get_arg j) io)
  | .op3 f, [i, j, k] =>
    some (call3 f (arguments.get_arg i) (arguments.get_arg j) (arguments.get_arg k) io)
  | .looping f, [i, j] =>
    (match arguments.get_arg i, arguments.get_arg j with
      | .error e, _ => some (io, .error e)
      | .ok _, .error e => some (io, .error e)
      | .ok x, .ok y => f x y io)
  | _, _ => none

/-- The first-match-wins chain over a list of rows: the body of the first row whose template
matches, the `else` part when none does. -/
def select (arguments : ClArgs) (fuel : Nat) (io : Streams) :
    List (List Char × List Nat × Op) → Option (Streams × Except Exn Unit) →
    Option (Streams × Except Exn Unit)
  | [], e => e
  | (arg_spec, idxs, op) :: rows, e =>
    match arguments.match_ fuel arg_spec with
    | none => none
    | some true => run_row arguments io idxs op
    | some false => select arguments fuel io rows e

/-- A numeric argument that `to_size` rejects: the parser fails on it, or its value is at
least the not-found sentinel `2^64 - 1`. -/
def rejected (parse : List Char → Option Nat) (size_spec : List Char) : Bool :=
  match parse size_spec with
  | none => true
  | some v => decide (2 ^ 64 - 1 ≤ v)

/-- A space or a tab, the bytes that the trim operations remove. -/
def blank (c : Char) : Bool := c == ' ' || c == '\t'

/-- What `trim_leading_impl` leaves of a string: the string without its leading blanks, but
the string itself when it consists of blanks only. -/
def trim_leading_result (s : List Char) : List Char :=
  if s.dropWhile blank = [] then s else s.dropWhile blank

/-- What `trim_trailing_impl` leaves of a string: the string without its trailing blanks, but
the string itself when it consists of blanks only. -/
def trim_trailing_result (s : List Char) : List Char :=
  if s.rdropWhile blank = [] then s else s.rdropWhile blank

/-- The bytes written for a list of tokens, each followed by a newline. -/
def lines : List (List Char) → List Char
  | [] => []
  | t :: ts => t ++ '\n' :: lines ts

/-! ## Operations with checked arithmetic and reads -/

/-- The difference `a - b` of two `size_t` values; `none` when it would underflow. -/
def size_sub (a b : Nat) : Option Nat :=
  if b ≤ a then some (a - b) else none

/-- The read `text[i]` of a byte of the string itself; `none` at the terminator and behind
it. -/
def byte_at (text : List Char) (i : Nat) : Option Char := text[i]?

/-- The function `last_part` (lines 259-265) with its subtraction checked: `none` when the
subtraction underflows. -/
def last_part_checked (parse : List Char → Option Nat)
    (executable_name length_spec text : List Char) (io : Streams) :
    Option (Streams × Except Exn Unit) :=
  match to_size parse executable_name length_spec io with
  | (io, .error e) => some (io, .error e)
  | (io, .ok split_idx) =>
    let text_length := text.length
    match size_sub text_length (min split_idx text_length) with
    | none => none
    | some pos => some (cout_substr io (substr text pos none))

/-- The function `substring` (lines 278-290) with its subtraction checked: `none` when the
subtraction underflows. -/
def substring_checked (parse : List Char → Option Nat) (executable_name start_spec end_spec
    text : List Char) (io : Streams) : Option (Streams × Except Exn Unit) :=
  let text_length := text.length
  match to_size parse executable_name start_spec io with
  | (io, .error e) => some (io, .error e)
  | (io, .ok start_val) =>
    let start_idx := min start_val text_length
    let use_max_end_idx := strcmp_eq "end".toList end_spec
    match (if use_max_end_idx then (io, Except.ok text_length)
        else match to_size parse executable_name end_spec io with
          | (io, .error e) => (io, .error e)
          | (io, .ok end_val) => (io, .ok (min end_val text_length))) with
    | (io, .error e) => some (io, .error e)
    | (io, .ok end_idx) =>
      if start_idx ≤ end_idx then
        match size_sub end_idx start_idx with
        | none => none
        | some length => some (cout_substr io (substr text start_idx (some length)))
      else some (io, .ok ())

/-- The function `char_at` (lines 268-275) with its read checked: `none` when the offset read
is not an offset of the string. -/
def char_at_checked (parse : List Char → Option Nat)
    (executable_name offset_spec text : List Char) (io : Streams) :
    Option (Streams × Except Exn Unit) :=
  match to_size parse executable_name offset_spec io with
  | (io, .error e) => some (io, .error e)
  | (io, .ok char_idx) =>
    if char_idx < strlen text then
      match byte_at text char_idx with
      | none => none
      | some c => some (cout io [c], .ok ())
    else some (io, .ok ())

/-! ## The matcher on what is left, and with checked reads -/

/-- The result of `ClArgs::match` as a function of what is left of the template behind
`spec_idx` and of the tokens from `arg_idx` on: one step of the outer loop for each case of
its body, the result of the `return` when the loop is left. -/
def match_rest : List Char → List (List Char) → Bool
  | [], toks => toks.isEmpty
  | _ :: _, [] => false
  | c :: r, t :: ts =>
    if c = '?' then match_rest r ts
    else if c = ' ' then match_rest r (t :: ts)
    else if cstr_at t (cmp_len t (c :: r)) = NUL ∧
        (cstr_at (c :: r) (cmp_len t (c :: r)) = NUL ∨
          cstr_at (c :: r) (cmp_len t (c :: r)) = ' ') then
      match_rest (r.drop (cmp_len t (c :: r))) ts
    else false
termination_by spec _ => spec.length
decreasing_by
  all_goals simp_wf
  all_goals omega

/-- The outcome of a loop whose reads are checked. -/
inductive Checked (α : Type) where
  | done (a : α)
  | fault
  | out_of_fuel
  deriving DecidableEq, Repr

/-- A checked read `s[i]` of a C string: its bytes and its terminator can be read, nothing
behind the terminator. -/
def read_cstr (s : List Char) (i : Nat) : Option Char :=
  if i ≤ s.length then some (cstr_at s i) else none

/-- A checked read `arg_values[i]`: only the indices `1 .. arg_count - 1` can be read. -/
def ClArgs.read_arg (self : ClArgs) (i : Nat) : Option (List Char) :=
  if 1 ≤ i ∧ i < self.arg_count then self.arg_values[i]? else none

/-- The inner `while` of `ClArgs::match` (lines 481-486) with checked reads. -/
def ClArgs.match_cmp_checked (arg arg_spec : List Char) :
    Nat → Nat → Nat → Checked (Nat × Nat)
  | 0, _, _ => .out_of_fuel
  | fuel + 1, spec_idx, cmp_idx =>
    match read_cstr arg cmp_idx, read_cstr arg_spec spec_idx with
    | some a, some b =>
      if a ≠ NUL ∧ b ≠ NUL ∧ b ≠ ' ' ∧ a = b then
        ClArgs.match_cmp_checked arg arg_spec fuel (spec_idx + 1) (cmp_idx + 1)
      else
        .done (spec_idx, cmp_idx)
    | _, _ => .fault

/-- The outer `while` of `ClArgs::match` (lines 474-503) with checked reads. -/
def ClArgs.match_loop_checked (self : ClArgs) (arg_spec : List Char) :
    Nat → Nat → Nat → Checked (Nat × Nat)
  | 0, _, _ => .out_of_fuel
  | fuel + 1, arg_idx, spec_idx =>
    if arg_idx < self.arg_count ∧ spec_idx < strlen arg_spec then
      match read_cstr arg_spec spec_idx with
      | none => .fault
      | some c =>
        if c ≠ '?' then
          if c ≠ ' ' then
            match self.read_arg arg_idx with
            | none => .fault
            | some arg =>
              match ClArgs.match_cmp_checked arg arg_spec (fuel + 1) spec_idx 0 with
              | .fault => .fault
              | .out_of_fuel => .out_of_fuel
              | .done (spec_idx1, cmp_idx) =>
                match read_cstr arg cmp_idx, read_cstr arg_spec spec_idx1 with
                | some a, some b =>
                  if a = NUL ∧ (b = NUL ∨ b = ' ') then
                    ClArgs.match_loop_checked self arg_spec fuel (arg_idx + 1) (spec_idx1 + 1)
                  else
                    .done (arg_idx, spec_idx1)
                | _, _ => .fault
          else
            ClArgs.match_loop_checked self arg_spec fuel arg_idx (spec_idx + 1)
        else
          ClArgs.match_loop_checked self arg_spec fuel (arg_idx + 1) (spec_idx + 1)
    else
      .done (arg_idx, spec_idx)

/-- The method `ClArgs::match` (lines 469-505) with checked reads. -/
def ClArgs.match_checked (self : ClArgs) (fuel : Nat) (arg_spec : List Char) : Checked Bool :=
  match ClArgs.match_loop_checked self arg_spec fuel 1 0 with
  | .fault => .fault
  | .out_of_fuel => .out_of_fuel
  | .done (arg_idx, spec_idx) =>
    .done (decide (arg_idx = self.arg_count) && decide (strlen arg_spec ≤ spec_idx))

/-- No two occurrences of `part` in `text` overlap: an occurrence that begins behind another
one begins behind its end. -/
def no_overlap (part text : List Char) : Prop :=
  ∀ j, j ≤ text.length → ∀ i, i < j →
    part <+: text.drop i → part <+: text.drop j → i + part.length ≤ j

instance (part text : List Char) : Decidable (no_overlap part text) := by
  unfold no_overlap; infer_instance

/-! ## Lemmas on the matcher -/

theorem cstr_at_drop (s : List Char) (i k : Nat) :
    cstr_at (s.drop i) k = cstr_at s (i + k) := by
  simp [cstr_at, List.getD_eq_getElem?_getD, List.getElem?_drop]

theorem cstr_at_nil (k : Nat) : cstr_at [] k = NUL := by
  simp [cstr_at]

theorem cstr_at_cons_zero (c : Char) (s : List Char) : cstr_at (c :: s) 0 = c := by
  simp [cstr_at]

theorem cstr_at_cons_succ (c : Char) (s : List Char) (k : Nat) :
    cstr_at (c :: s) (k + 1) = cstr_at s k := by
  simp [cstr_at]

/-- The inner loop computes `cmp_len` of the two rests. -/
theorem match_cmp_eq (arg arg_spec : List Char) :
    ∀ (fuel s c : Nat), cmp_len (arg.drop c) (arg_spec.drop s) < fuel →
      ClArgs.match_cmp arg arg_spec fuel s c =
        some (s + cmp_len (arg.drop c) (arg_spec.drop s),
              c + cmp_len (arg.drop c) (arg_spec.drop s)) := by
  intro fuel
  induction fuel with
  | zero => intro s c h; omega
  | succ fuel ih =>
    intro s c h
    have ha : cstr_at arg c = cstr_at (arg.drop c) 0 := by simp [cstr_at_drop]
    have hs : cstr_at arg_spec s = cstr_at (arg_spec.drop s) 0 := by simp [cstr_at_drop]
    have hda : arg.drop (c + 1) = (arg.drop c).tail := by simp [List.tail_drop]
    have hds : arg_spec.drop (s + 1) = (arg_spec.drop s).tail := by simp [List.tail_drop]
    unfold ClArgs.match_cmp
    rw [ha, hs]
    have ih1 := ih (s + 1) (c + 1)
    rw [hda, hds] at ih1
    revert h ih1
    cases arg.drop c with
    | nil => intro h ih1; simp [cstr_at_nil, cmp_len]
    | cons a as =>
      cases arg_spec.drop s with
      | nil => intro h ih1; simp [cstr_at_nil, cstr_at_cons_zero, cmp_len]
      | cons b bs =>
        intro h ih1
        simp only [cstr_at_cons_zero, cmp_len, List.tail_cons] at h ih1 ⊢
        by_cases hc : a ≠ NUL ∧ b ≠ NUL ∧ b ≠ ' ' ∧ a = b
        · rw [if_pos hc] at h ⊢
          rw [if_pos hc, ih1 (by omega)]
          simp only [Option.some.injEq, Prod.mk.injEq]
          omega
        · rw [if_neg hc] at h ⊢
          rw [if_neg hc]
          simp

theorem drop_add_eq {α : Type} (l : List α) (i k : Nat) :
    l.drop (i + k) = (l.drop i).drop k := by
  simp [List.drop_drop, Nat.add_comm]

theorem drop_cons_info {α : Type} (l : List α) (i : Nat) (a d : α) (r : List α)
    (h : l.drop i = a :: r) : i < l.length ∧ l.getD i d = a ∧ l.drop (i + 1) = r := by
  have hlt : i < l.length := by
    by_contra hge
    rw [List.drop_eq_nil_of_le (by omega)] at h
    exact List.noConfusion h
  refine ⟨hlt, ?_, ?_⟩
  · rw [List.drop_eq_getElem_cons hlt] at h
    simp only [List.cons.injEq] at h
    simp [List.getD_eq_getElem?_getD, List.getElem?_eq_getElem hlt, h.1]
  · rw [drop_add_eq, h]; rfl

theorem join_words_cons (w : List Char) (ws : List (List Char)) :
    ∃ tl, join_words (w :: ws) = w ++ tl ∧
      ((ws = [] ∧ tl = []) ∨ (ws ≠ [] ∧ tl = ' ' :: join_words ws)) := by
  cases ws with
  | nil => exact ⟨[], by simp [join_words], Or.inl ⟨rfl, rfl⟩⟩
  | cons w1 ws => exact ⟨' ' :: join_words (w1 :: ws), by simp [join_words], Or.inr ⟨by simp, rfl⟩⟩

/-- On a token without NUL and a template word without NUL or space that is followed by the
end of the template or by a space, the test behind the inner loop holds exactly when the token
is the word. -/
theorem cmp_len_word : ∀ (t w tl : List Char), NUL ∉ t → NUL ∉ w → ' ' ∉ w →
    (tl = [] ∨ ∃ r, tl = ' ' :: r) →
    cmp_len t (w ++ tl) ≤ w.length ∧
    ((cstr_at t (cmp_len t (w ++ tl)) = NUL ∧
        (cstr_at (w ++ tl) (cmp_len t (w ++ tl)) = NUL ∨
         cstr_at (w ++ tl) (cmp_len t (w ++ tl)) = ' ')) ↔ t = w) ∧
    (t = w → cmp_len t (w ++ tl) = w.length) := by
  intro t
  induction t with
  | nil =>
    intro w tl _ hw hs htl
    cases w with
    | nil =>
      rcases htl with rfl | ⟨r, rfl⟩ <;> simp [cmp_len, cstr_at_nil, cstr_at_cons_zero]
    | cons b w =>
      simp only [List.mem_cons, not_or] at hw hs
      have h1 : b ≠ NUL := fun h => hw.1 h.symm
      have h2 : b ≠ ' ' := fun h => hs.1 h.symm
      simp [cmp_len, cstr_at_nil, cstr_at_cons_zero, h1, h2]
  | cons a t ih =>
    intro w tl ht hw hs htl
    simp only [List.mem_cons, not_or] at ht
    have ha : a ≠ NUL := fun h => ht.1 h.symm
    cases w with
    | nil =>
      rcases htl with rfl | ⟨r, rfl⟩ <;> simp [cmp_len, cstr_at_cons_zero, ha]
    | cons b w =>
      simp only [List.mem_cons, not_or] at hw hs
      have h1 : b ≠ NUL := fun h => hw.1 h.symm
      have h2 : b ≠ ' ' := fun h => hs.1 h.symm
      by_cases hab : a = b
      · subst hab
        obtain ⟨i1, i2, i3⟩ := ih w tl ht.2 hw.2 hs.2 htl
        simp only [List.cons_append, cmp_len, ha, h2, ne_eq, not_false_eq_true, and_self,
          if_true, cstr_at_cons_succ, List.length_cons, List.cons.injEq, true_and, List.append_eq]
        exact ⟨by omega, i2, fun h => by rw [i3 h]⟩
      · simp [cmp_len, hab, cstr_at_cons_zero, ha]


theorem spec_match_words_nil_right (ws : List (List Char)) (h : ws ≠ []) :
    spec_match_words ws [] = false := by
  cases ws with
  | nil => exact absurd rfl h
  | cons w ws => rfl

/-- The state of the outer loop behind the last word it has consumed: at the end of the
template, one behind it, or before a space that is followed by further words. -/
theorem match_loop_words : ∀ (ws : List (List Char)), ws ≠ [] → (∀ w ∈ ws, valid_word w) →
    ∀ (fuel : Nat) (argv : List (List Char)) (spec : List Char) (ai si : Nat),
      (∀ t ∈ argv.drop ai, NUL ∉ t) → ai ≤ argv.length →
      spec.drop si = join_words ws → (join_words ws).length < fuel →
      ∃ a s, ClArgs.match_loop ⟨argv.length, argv⟩ spec fuel ai si = some (a, s) ∧
        ((a = argv.length ∧ spec.length ≤ s) ↔ spec_match_words ws (argv.drop ai) = true) := by
  intro ws
  induction ws with
  | nil => intro h; exact absurd rfl h
  | cons w rest ih =>
    intro _ hvalid fuel argv spec ai si hnul hai hdrop hfuel
    obtain ⟨hw_ne, hw_sp, hw_nul, hw_q⟩ := hvalid w (List.mem_cons_self _ _)
    have hvalid_rest : ∀ w1 ∈ rest, valid_word w1 :=
      fun w1 h1 => hvalid w1 (List.mem_cons_of_mem _ h1)
    obtain ⟨tl, hjoin, htl⟩ := join_words_cons w rest
    rw [hjoin] at hdrop hfuel
    obtain ⟨c, w1, rfl⟩ : ∃ c w1, w = c :: w1 := by
      cases w with
      | nil => exact absurd rfl hw_ne
      | cons c w1 => exact ⟨c, w1, rfl⟩
    obtain ⟨hsi, hc, -⟩ := drop_cons_info spec si c NUL (w1 ++ tl) hdrop
    have hlen : spec.length = si + ((c :: w1).length + tl.length) := by
      have := congrArg List.length hdrop
      simp only [List.length_drop, List.length_append] at this
      omega
    have hdrop_tl : spec.drop (si + (c :: w1).length) = tl := by
      rw [drop_add_eq, hdrop]; simp
    obtain ⟨f, rfl⟩ : ∃ f, fuel = f + 1 := ⟨fuel - 1, by omega⟩
    simp only [List.length_append] at hfuel
    -- the loop behind the word: `ai1` tokens consumed, `si1` at or behind the end of the word
    have after : ∀ (f1 si1 : Nat) (ts : List (List Char)), argv.drop (ai + 1) = ts →
        (∀ t ∈ ts, NUL ∉ t) → ai + 1 ≤ argv.length →
        ((rest = [] ∧ spec.length ≤ si1) ∨
         (rest ≠ [] ∧ spec.drop si1 = join_words rest ∧ (join_words rest).length < f1)) →
        0 < f1 →
        ∃ a s, ClArgs.match_loop ⟨argv.length, argv⟩ spec f1 (ai + 1) si1 = some (a, s) ∧
          ((a = argv.length ∧ spec.length ≤ s) ↔ spec_match_words rest ts = true) := by
      intro f1 si1 ts hts hnul1 hai1 hcase hf1
      rcases hcase with ⟨hr, hs1⟩ | ⟨hr, hd1, hfl⟩
      · obtain ⟨f2, rfl⟩ : ∃ f2, f1 = f2 + 1 := ⟨f1 - 1, by omega⟩
        refine ⟨ai + 1, si1, ?_, ?_⟩
        · unfold ClArgs.match_loop
          rw [if_neg]
          simp only [strlen]; omega
        · subst hr
          have hl : ts.length = argv.length - (ai + 1) := by rw [← hts]; simp
          cases ts with
          | nil => simp only [List.length_nil] at hl; simp [spec_match_words]; omega
          | cons t ts => simp only [List.length_cons] at hl; simp [spec_match_words]; omega
      · have := ih hr hvalid_rest f1 argv spec (ai + 1) si1 (by rw [hts]; exact hnul1) hai1 hd1 hfl
        rw [hts] at this
        exact this
    cases hts : argv.drop ai with
    | nil =>
      have hge : argv.length ≤ ai := by
        have := congrArg List.length hts
        simp only [List.length_drop, List.length_nil] at this
        omega
      refine ⟨ai, si, ?_, ?_⟩
      · unfold ClArgs.match_loop
        rw [if_neg]
        simp only; omega
      · simp [spec_match_words]; omega
    | cons t ts =>
      obtain ⟨hai_lt, ht, hts1⟩ := drop_cons_info argv ai t [] ts hts
      have hnul_t : NUL ∉ t := hnul t (by rw [hts]; exact List.mem_cons_self _ _)
      have hnul_ts : ∀ t1 ∈ ts, NUL ∉ t1 :=
        fun t1 h1 => hnul t1 (by rw [hts]; exact List.mem_cons_of_mem _ h1)
      have hcond : ai < argv.length ∧ si < strlen spec := ⟨hai_lt, hsi⟩
      have hc1 : cstr_at spec si = c := hc
      have htl_cases : tl = [] ∨ ∃ r, tl = ' ' :: r := by
        rcases htl with ⟨-, h⟩ | ⟨-, h⟩
        · exact Or.inl h
        · exact Or.inr ⟨_, h⟩
      by_cases hq : c :: w1 = ['?']
      · -- the placeholder: one token is consumed whatever it is
        simp only [List.cons.injEq] at hq
        obtain ⟨rfl, rfl⟩ := hq
        simp only [List.length_cons, List.length_nil] at hfuel hlen hdrop_tl
        have hstep : ClArgs.match_loop ⟨argv.length, argv⟩ spec (f + 1) ai si =
            ClArgs.match_loop ⟨argv.length, argv⟩ spec f (ai + 1) (si + 1) := by
          rw [ClArgs.match_loop, if_pos hcond, hc1, if_neg (by simp)]
        rw [hstep]
        have hsm : spec_match_words (['?'] :: rest) (t :: ts) = spec_match_words rest ts := by
          simp [spec_match_words]
        rw [hsm]
        rcases htl with ⟨hr, htl0⟩ | ⟨hr, htl1⟩
        · subst htl0
          simp only [List.length_nil] at hfuel hlen
          exact after f (si + 1) ts hts1 hnul_ts (by omega) (Or.inl ⟨hr, by omega⟩) (by omega)
        · subst htl1
          simp only [List.length_cons] at hfuel hlen
          obtain ⟨hsi1, hc2, hd2⟩ := drop_cons_info spec (si + 1) ' ' NUL (join_words rest)
            (by simpa using hdrop_tl)
          obtain ⟨f1, rfl⟩ : ∃ f1, f = f1 + 1 := ⟨f - 1, by omega⟩
          have hc3 : cstr_at spec (si + 1) = ' ' := hc2
          by_cases hmore : ai + 1 < argv.length
          · have hstep2 : ClArgs.match_loop ⟨argv.length, argv⟩ spec (f1 + 1) (ai + 1) (si + 1) =
                ClArgs.match_loop ⟨argv.length, argv⟩ spec f1 (ai + 1) (si + 1 + 1) := by
              rw [ClArgs.match_loop, if_pos ⟨hmore, hsi1⟩, hc3, if_pos (by decide),
                if_neg (by simp)]
            rw [hstep2]
            exact after f1 (si + 1 + 1) ts hts1 hnul_ts (by omega)
              (Or.inr ⟨hr, hd2, by omega⟩) (by omega)
          · refine ⟨ai + 1, si + 1, ?_, ?_⟩
            · rw [ClArgs.match_loop, if_neg]
              simp only [not_and]; intro h; exact absurd h hmore
            · have hts_nil : ts = [] := by
                have := congrArg List.length hts1
                simp only [List.length_drop] at this
                exact List.eq_nil_of_length_eq_zero (by omega)
              rw [hts_nil, spec_match_words_nil_right rest hr]
              simp only [Bool.false_eq_true, iff_false, not_and, not_le]
              intro _; omega
      · -- a literal word: the token has to be the word
        have hcq : c ≠ '?' := by
          rcases hw_q with h | h
          · exact absurd h hq
          · intro hc'; apply h; rw [hc']; rfl
        have hcs : c ≠ ' ' := by
          intro hc'; apply hw_sp; rw [hc']; exact List.mem_cons_self _ _
        obtain ⟨hle, hiff, heq⟩ := cmp_len_word t (c :: w1) tl hnul_t hw_nul hw_sp htl_cases
        have hcmp : ClArgs.match_cmp (argv.getD ai []) spec (f + 1) si 0 =
            some (si + cmp_len t ((c :: w1) ++ tl), 0 + cmp_len t ((c :: w1) ++ tl)) := by
          have hlt : cmp_len t ((c :: w1) ++ tl) < f + 1 := by omega
          have := match_cmp_eq (argv.getD ai []) spec (f + 1) si 0
          rw [ht, hdrop, List.drop_zero] at this
          rw [ht]
          exact this hlt
        have hat : cstr_at spec (si + cmp_len t ((c :: w1) ++ tl)) =
            cstr_at ((c :: w1) ++ tl) (cmp_len t ((c :: w1) ++ tl)) := by
          rw [← cstr_at_drop, hdrop]
        have hsm : spec_match_words ((c :: w1) :: rest) (t :: ts) =
            (decide (c :: w1 = t) && spec_match_words rest ts) := by
          simp [spec_match_words, hq]
        rw [hsm]
        by_cases htw : t = c :: w1
        · have hn := heq htw
          have hstep : ClArgs.match_loop ⟨argv.length, argv⟩ spec (f + 1) ai si =
              ClArgs.match_loop ⟨argv.length, argv⟩ spec f (ai + 1)
                (si + (c :: w1).length + 1) := by
            rw [ClArgs.match_loop, if_pos hcond, hc1, if_pos hcq, if_pos hcs, hcmp]
            simp only [Nat.zero_add]
            rw [ht, hat, if_pos (hiff.mpr htw), hn, Nat.add_assoc]
          rw [hstep]
          have hdec : decide (c :: w1 = t) = true := by simp [htw]
          rw [hdec, Bool.true_and]
          rcases htl with ⟨hr, htl0⟩ | ⟨hr, htl1⟩
          · subst htl0
            simp only [List.length_nil] at hfuel hlen
            simp only [List.length_cons] at hfuel hlen ⊢
            exact after f _ ts hts1 hnul_ts (by omega) (Or.inl ⟨hr, by omega⟩) (by omega)
          · subst htl1
            obtain ⟨-, -, hd2⟩ := drop_cons_info spec (si + (c :: w1).length) ' ' NUL
              (join_words rest) hdrop_tl
            simp only [List.length_cons] at hfuel hlen hd2 ⊢
            exact after f _ ts hts1 hnul_ts (by omega) (Or.inr ⟨hr, hd2, by omega⟩) (by omega)
        · refine ⟨ai, si + cmp_len t ((c :: w1) ++ tl), ?_, ?_⟩
          · rw [ClArgs.match_loop, if_pos hcond, hc1, if_pos hcq, if_pos hcs, hcmp]
            simp only [Nat.zero_add]
            rw [ht, hat, if_neg (fun h => htw (hiff.mp h))]
          · have hdec : decide (c :: w1 = t) = false := by
              simp only [decide_eq_false_iff_not]; exact fun h => htw h.symm
            rw [hdec, Bool.false_and]
            simp only [Bool.false_eq_true, iff_false, not_and]
            intro h; omega
theorem main_try_eq_select (parse : List Char → Option Nat) (fuel : Nat)
    (argv : List (List Char)) (executable_name : List Char) (io : Streams)
    (h : 2 ≤ argv.length) :
    main_try parse fuel argv executable_name io =
      select ⟨argv.length, argv⟩ fuel io (main_table parse fuel executable_name)
        (some (cerr io (executable_name ++ ": Invalid command\n\n".toList),
          .error .ArgsException)) := by
  unfold main_try
  simp only []
  rw [if_neg (by omega)]
  rfl

theorem main_branches_eq (parse : List Char → Option Nat) (fuel : Nat) (exe : List Char) :
    (main_table parse fuel exe).map (fun r => (r.1, r.2.1)) = main_branches := rfl

theorem templates_eq (parse : List Char → Option Nat) (fuel : Nat) (exe : List Char) :
    (main_table parse fuel exe).map (fun r => r.1) = templates := rfl

set_option maxRecDepth 100000 in
theorem templates_words : ∀ T ∈ templates,
    join_words (split_words T) = T ∧ split_words T ≠ [] ∧
      ∀ w ∈ split_words T, valid_word w := by
  decide

set_option maxRecDepth 100000 in
theorem templates_length : ∀ T ∈ templates, T.length ≤ 34 := by
  decide

set_option maxRecDepth 100000 in
theorem branches_positions : ∀ br ∈ main_branches, br.2 = placeholder_positions br.1 := by
  decide

theorem join_words_eq_intercalate (ws : List (List Char)) :
    join_words ws = List.intercalate [' '] ws := by
  induction ws with
  | nil => rfl
  | cons w ws ih =>
    cases ws with
    | nil => simp [join_words, List.intercalate]
    | cons w1 ws =>
      rw [join_words, ih]
      simp [List.intercalate, List.intersperse]

/-- The method `ClArgs::match` on a template of valid words: it returns, and its result is
that of the word-by-word reference matcher. -/
theorem match_words_eq (ws : List (List Char)) (hne : ws ≠ [])
    (hvalid : ∀ w ∈ ws, valid_word w) (fuel : Nat) (argv : List (List Char))
    (hargc : 1 ≤ argv.length) (hnul : ∀ t ∈ argv.tail, NUL ∉ t)
    (hfuel : (join_words ws).length < fuel) :
    ClArgs.match_ ⟨argv.length, argv⟩ fuel (join_words ws) =
      some (spec_match_words ws argv.tail) := by
  obtain ⟨a, s, hloop, hiff⟩ := match_loop_words ws hne hvalid fuel argv (join_words ws) 1 0
    (by simpa using hnul) hargc (by simp) hfuel
  rw [List.drop_one] at hiff
  unfold ClArgs.match_
  rw [hloop]
  simp only [strlen, Option.some.injEq]
  cases hb : spec_match_words ws argv.tail with
  | true =>
    obtain ⟨h1, h2⟩ := hiff.mpr hb
    simp [h1, h2]
  | false =>
    rw [hb] at hiff
    by_cases h1 : a = argv.length
    · have h2 : ¬ (join_words ws).length ≤ s := fun h2 => by simpa using hiff.mp ⟨h1, h2⟩
      simp [h1, h2]
    · simp [h1]

theorem spec_match_words_iff : ∀ (ws toks : List (List Char)),
    spec_match_words ws toks = true ↔
      toks.length = ws.length ∧
        ∀ k, k < ws.length → (ws.getD k [] = ['?'] ∨ ws.getD k [] = toks.getD k []) := by
  intro ws
  induction ws with
  | nil =>
    intro toks
    cases toks with
    | nil => simp [spec_match_words]
    | cons t ts => simp [spec_match_words]
  | cons w ws ih =>
    intro toks
    cases toks with
    | nil => simp [spec_match_words]
    | cons t ts =>
      simp only [spec_match_words, Bool.and_eq_true, Bool.or_eq_true, decide_eq_true_eq, ih ts,
        List.length_cons, Nat.add_right_cancel_iff]
      constructor
      · rintro ⟨h0, hl, hk⟩
        refine ⟨hl, fun k hk1 => ?_⟩
        cases k with
        | zero => simpa using h0
        | succ k => simpa using hk k (by omega)
      · rintro ⟨hl, hk⟩
        refine ⟨by simpa using hk 0 (by omega), hl, fun k hk1 => ?_⟩
        simpa using hk (k + 1) (by omega)

theorem compatible_of_match : ∀ (ws1 ws2 toks : List (List Char)),
    spec_match_words ws1 toks = true → spec_match_words ws2 toks = true →
    compatible ws1 ws2 = true := by
  intro ws1
  induction ws1 with
  | nil =>
    intro ws2 toks h1 h2
    cases toks with
    | nil =>
      cases ws2 with
      | nil => rfl
      | cons b bs => simp [spec_match_words] at h2
    | cons t ts => simp [spec_match_words] at h1
  | cons a as ih =>
    intro ws2 toks h1 h2
    cases toks with
    | nil => simp [spec_match_words] at h1
    | cons t ts =>
      cases ws2 with
      | nil => simp [spec_match_words] at h2
      | cons b bs =>
        simp only [spec_match_words, Bool.and_eq_true, Bool.or_eq_true, decide_eq_true_eq]
          at h1 h2
        simp only [compatible, Bool.and_eq_true, Bool.or_eq_true, decide_eq_true_eq]
        refine ⟨?_, ih bs ts h1.2 h2.2⟩
        rcases h1.1 with h | h
        · exact Or.inl (Or.inl h)
        · rcases h2.1 with h' | h'
          · exact Or.inl (Or.inr h')
          · exact Or.inr (h.trans h'.symm)

/-- Each template of `main` is matched as the word-by-word reference matcher says. -/
theorem match_template (T : List Char) (hT : T ∈ templates) (fuel : Nat)
    (argv : List (List Char)) (hargc : 1 ≤ argv.length) (hnul : ∀ t ∈ argv.tail, NUL ∉ t)
    (hfuel : 34 < fuel) :
    ClArgs.match_ ⟨argv.length, argv⟩ fuel T =
      some (spec_match_words (split_words T) argv.tail) := by
  obtain ⟨hj, hne, hv⟩ := templates_words T hT
  have hlen := templates_length T hT
  have := match_words_eq (split_words T) hne hv fuel argv hargc hnul (by rw [hj]; omega)
  rw [hj] at this
  exact this

theorem templates_nodup : templates.Nodup := by
  decide

set_option maxRecDepth 100000 in
theorem templates_incompatible_all : ∀ a ∈ templates, ∀ b ∈ templates,
    a ≠ b → compatible (split_words a) (split_words b) = false := by
  decide

/-- No two templates of `main` match the same argument vector. -/
theorem templates_exclusive (T1 T2 : List Char) (h1 : T1 ∈ templates) (h2 : T2 ∈ templates)
    (toks : List (List Char)) (hm1 : spec_match_words (split_words T1) toks = true)
    (hm2 : spec_match_words (split_words T2) toks = true) : T1 = T2 := by
  by_contra hne
  have hc := compatible_of_match _ _ toks hm1 hm2
  rw [templates_incompatible_all T1 h1 T2 h2 hne] at hc
  exact Bool.false_ne_true hc

/-- When a template of `main` matches, the matcher answers for every template whether it is
that one. -/
theorem match_selects (Tk : List Char) (hk : Tk ∈ templates) (fuel : Nat)
    (argv : List (List Char)) (hargc : 1 ≤ argv.length) (hnul : ∀ t ∈ argv.tail, NUL ∉ t)
    (hfuel : 34 < fuel) (hm : ClArgs.match_ ⟨argv.length, argv⟩ fuel Tk = some true) :
    ∀ T ∈ templates, ClArgs.match_ ⟨argv.length, argv⟩ fuel T = some (decide (T = Tk)) := by
  intro T hT
  rw [match_template Tk hk fuel argv hargc hnul hfuel] at hm
  rw [match_template T hT fuel argv hargc hnul hfuel]
  simp only [Option.some.injEq] at hm ⊢
  by_cases h : T = Tk
  · subst h; simp [hm]
  · cases hb : spec_match_words (split_words T) argv.tail with
    | false => simp [h]
    | true => exact absurd (templates_exclusive T Tk hT hk _ hb hm) h

theorem select_none (arguments : ClArgs) (fuel : Nat) (io : Streams)
    (e : Option (Streams × Except Exn Unit)) :
    ∀ rows : List (List Char × List Nat × Op),
      (∀ r ∈ rows, arguments.match_ fuel r.1 = some false) →
      select arguments fuel io rows e = e := by
  intro rows
  induction rows with
  | nil => intro _; rfl
  | cons r rows ih =>
    intro h
    obtain ⟨T, idxs, op⟩ := r
    have h0 := h (T, idxs, op) (List.mem_cons_self _ _)
    simp only at h0
    rw [select, h0]
    exact ih (fun r hr => h r (List.mem_cons_of_mem _ hr))

theorem select_unique (arguments : ClArgs) (fuel : Nat) (io : Streams)
    (e : Option (Streams × Except Exn Unit)) (Tk : List Char) (idxs : List Nat) (op : Op) :
    ∀ rows : List (List Char × List Nat × Op),
      (rows.map (fun r => r.1)).Nodup → (Tk, idxs, op) ∈ rows →
      (∀ r ∈ rows, arguments.match_ fuel r.1 = some (decide (r.1 = Tk))) →
      select arguments fuel io rows e = run_row arguments io idxs op := by
  intro rows
  induction rows with
  | nil => intro _ hmem; simp at hmem
  | cons r rows ih =>
    intro hnd hmem h
    obtain ⟨T, idxs1, op1⟩ := r
    have h0 := h (T, idxs1, op1) (List.mem_cons_self _ _)
    simp only [List.map_cons, List.nodup_cons] at hnd
    simp only at h0
    by_cases hT : T = Tk
    · subst hT
      rw [select, h0]
      simp only [decide_True]
      rcases List.mem_cons.mp hmem with heq | hin
      · simp only [Prod.mk.injEq] at heq
        rw [heq.2.1, heq.2.2]
      · exact absurd (List.mem_map_of_mem (fun r => r.1) hin) hnd.1
    · rw [select, h0]
      simp only [hT, decide_False]
      rcases List.mem_cons.mp hmem with heq | hin
      · simp only [Prod.mk.injEq] at heq
        exact absurd heq.1.symm hT
      · exact ih hnd.2 hin (fun r hr => h r (List.mem_cons_of_mem _ hr))

/-- When the template of a row of `main` matches, the `try` block of `main` is the body of
that row. -/
theorem main_try_of_match (parse : List Char → Option Nat) (fuel : Nat)
    (argv : List (List Char)) (exe : List Char) (io : Streams)
    (hnul : ∀ t ∈ argv.tail, NUL ∉ t) (hfuel : 34 < fuel)
    (Tk : List Char) (idxs : List Nat) (op : Op)
    (hrow : (Tk, idxs, op) ∈ main_table parse fuel exe)
    (hargc : 2 ≤ argv.length)
    (hm : ClArgs.match_ ⟨argv.length, argv⟩ fuel Tk = some true) :
    main_try parse fuel argv exe io = run_row ⟨argv.length, argv⟩ io idxs op := by
  rw [main_try_eq_select parse fuel argv exe io hargc]
  have hk : Tk ∈ templates := by
    rw [← templates_eq parse fuel exe]
    exact List.mem_map_of_mem (fun r => r.1) hrow
  apply select_unique _ _ _ _ Tk idxs op _ _ hrow
  · intro r hr
    apply match_selects Tk hk fuel argv (by omega) hnul hfuel hm
    rw [← templates_eq parse fuel exe]
    exact List.mem_map_of_mem (fun r => r.1) hr
  · rw [templates_eq parse fuel exe]
    exact templates_nodup

theorem getD_tail {α : Type} (l : List α) (k : Nat) (d : α) :
    l.tail.getD k d = l.getD (k + 1) d := by
  cases l with
  | nil => simp
  | cons a l => simp

theorem tail_nul_free (argv : List (List Char)) (h : ∀ t ∈ argv, NUL ∉ t) :
    ∀ t ∈ argv.tail, NUL ∉ t :=
  fun t ht => h t (List.mem_of_mem_tail ht)

theorem branches_nodup : ∀ br ∈ main_branches, br.2.Nodup := by
  decide

theorem branch_template_mem (br : List Char × List Nat) (h : br ∈ main_branches) :
    br.1 ∈ templates := by
  have : templates = main_branches.map (fun r => r.1) := rfl
  rw [this]
  exact List.mem_map_of_mem (fun r => r.1) h

/-- When a template of `main` matches, the argument vector has one token for each word. -/
theorem argc_of_match (T : List Char) (hT : T ∈ templates) (fuel : Nat)
    (argv : List (List Char)) (hargc : 1 ≤ argv.length) (hnul : ∀ t ∈ argv.tail, NUL ∉ t)
    (hfuel : 34 < fuel) (hm : ClArgs.match_ ⟨argv.length, argv⟩ fuel T = some true) :
    argv.length = (split_words T).length + 1 := by
  rw [match_template T hT fuel argv hargc hnul hfuel] at hm
  have := ((spec_match_words_iff _ _).mp (Option.some.inj hm)).1
  rw [List.length_tail] at this
  omega


theorem cerr_out (io : Streams) (s : List Char) : (cerr io s).out = io.out := rfl

theorem display_syntax_out (exe : List Char) (io : Streams) :
    ( display_syntax exe io).out = io.out := by
  simp only [ display_syntax, cerr_out]

theorem main_of_args_exception (parse : List Char → Option Nat) (fuel : Nat)
    (argv : List (List Char)) (io : Streams)
    (h : main_try parse fuel argv (program_name argv) ⟨[], []⟩ =
      some (io, .error .ArgsException)) (hout : io.out = []) :
    ∃ o, main parse fuel argv = some o ∧ o.status = .exited EXIT_FAILURE ∧ o.out = [] := by
  unfold main
  simp only []
  rw [h]
  exact ⟨_, rfl, rfl, by rw [display_syntax_out]; exact hout⟩

theorem main_of_ok (parse : List Char → Option Nat) (fuel : Nat)
    (argv : List (List Char)) (io : Streams)
    (h : main_try parse fuel argv (program_name argv) ⟨[], []⟩ = some (io, .ok ())) :
    main parse fuel argv = some ⟨.exited EXIT_SUCCESS, io.out, io.err⟩ := by
  unfold main
  simp only []
  rw [h]


theorem to_size_rejected (parse : List Char → Option Nat) (exe s : List Char) (io : Streams)
    (h : rejected parse s = true) :
    ∃ io1, to_size parse exe s io = (io1, .error .ArgsException) ∧ io1.out = io.out := by
  unfold rejected at h
  unfold to_size
  cases hp : parse s with
  | none => exact ⟨_, rfl, rfl⟩
  | some v =>
    rw [hp] at h
    simp only [decide_eq_true_eq] at h
    simp only []
    rw [if_pos (Or.inr (by simp only [npos]; omega))]
    exact ⟨_, rfl, rfl⟩

theorem to_size_accepted (parse : List Char → Option Nat) (exe s : List Char) (io : Streams)
    (v : Nat) (h : parse s = some v) (hv : v < 2 ^ 64 - 1) :
    to_size parse exe s io = (io, .ok v) := by
  unfold to_size
  rw [h]
  simp only []
  rw [if_neg (by simp only [npos, SIZE_MAX]; omega)]

theorem to_size_cases (parse : List Char → Option Nat) (exe s : List Char) (io : Streams) :
    (∃ v, to_size parse exe s io = (io, .ok v)) ∨
    (∃ io1, to_size parse exe s io = (io1, .error .ArgsException) ∧ io1.out = io.out) := by
  unfold to_size
  cases parse s with
  | none => exact Or.inr ⟨_, rfl, rfl⟩
  | some v =>
    simp only []
    by_cases hc : v > SIZE_MAX ∨ v ≥ npos
    · rw [if_pos hc]; exact Or.inr ⟨_, rfl, rfl⟩
    · rw [if_neg hc]; exact Or.inl ⟨_, rfl⟩

theorem first_part_rejected (parse : List Char → Option Nat) (exe s text : List Char)
    (io : Streams) (h : rejected parse s = true) :
    ∃ io1, first_part parse exe s text io = (io1, .error .ArgsException) ∧ io1.out = io.out := by
  obtain ⟨io1, h1, h2⟩ := to_size_rejected parse exe s io h
  exact ⟨io1, by unfold first_part; rw [h1], h2⟩

theorem last_part_rejected (parse : List Char → Option Nat) (exe s text : List Char)
    (io : Streams) (h : rejected parse s = true) :
    ∃ io1, last_part parse exe s text io = (io1, .error .ArgsException) ∧ io1.out = io.out := by
  obtain ⟨io1, h1, h2⟩ := to_size_rejected parse exe s io h
  exact ⟨io1, by unfold last_part; rw [h1], h2⟩

theorem char_at_rejected (parse : List Char → Option Nat) (exe s text : List Char)
    (io : Streams) (h : rejected parse s = true) :
    ∃ io1, char_at parse exe s text io = (io1, .error .ArgsException) ∧ io1.out = io.out := by
  obtain ⟨io1, h1, h2⟩ := to_size_rejected parse exe s io h
  exact ⟨io1, by unfold char_at; rw [h1], h2⟩

theorem substring_rejected (parse : List Char → Option Nat) (exe s e text : List Char)
    (io : Streams)
    (h : rejected parse s = true ∨ (e ≠ "end".toList ∧ rejected parse e = true)) :
    ∃ io1, substring parse exe s e text io = (io1, .error .ArgsException) ∧
      io1.out = io.out := by
  rcases to_size_cases parse exe s io with ⟨v, hv⟩ | ⟨io1, h1, h2⟩
  · rcases h with h | ⟨hne, h⟩
    · obtain ⟨io1, h1, -⟩ := to_size_rejected parse exe s io h
      rw [hv] at h1
      simp at h1
    · obtain ⟨io1, h1, h2⟩ := to_size_rejected parse exe e io h
      refine ⟨io1, ?_, h2⟩
      have hcmp : strcmp_eq "end".toList e = false := by
        simp only [strcmp_eq, beq_eq_false_iff_ne, ne_eq]
        exact fun h => hne h.symm
      unfold substring
      simp only []
      rw [hv]
      simp only [hcmp, h1, Bool.false_eq_true, if_false]
  · exact ⟨io1, by unfold substring; simp only []; rw [h1], h2⟩

theorem get_arg_ok (argv : List (List Char)) (i : Nat) (h : i < argv.length) :
    ClArgs.get_arg ⟨argv.length, argv⟩ i = .ok (argv.getD i []) := by
  simp only [ClArgs.get_arg, ge_iff_le]
  rw [if_neg (by omega)]

theorem match_of_words (T : List Char) (hT : T ∈ templates) (fuel : Nat)
    (argv : List (List Char)) (hargc : 1 ≤ argv.length) (hnul : ∀ t ∈ argv.tail, NUL ∉ t)
    (hfuel : 34 < fuel) (h : spec_match_words (split_words T) argv.tail = true) :
    ClArgs.match_ ⟨argv.length, argv⟩ fuel T = some true := by
  rw [match_template T hT fuel argv hargc hnul hfuel, h]

theorem substr_ok (s : List Char) (pos : Nat) (h : pos ≤ s.length) (count : Option Nat) :
    substr s pos count =
      .ok (match count with
        | none => s.drop pos
        | some n => (s.drop pos).take n) := by
  unfold substr
  rw [if_neg (by omega)]
  cases count <;> rfl


/-! ## Lemmas on the operations -/

theorem main_of_row (parse : List Char → Option Nat) (fuel : Nat) (argv : List (List Char))
    (hnul : ∀ t ∈ argv.tail, NUL ∉ t) (hfuel : 34 < fuel)
    (Tk : List Char) (idxs : List Nat) (op : Op)
    (hrow : (Tk, idxs, op) ∈ main_table parse fuel (program_name argv))
    (hargc : 2 ≤ argv.length)
    (hm : ClArgs.match_ ⟨argv.length, argv⟩ fuel Tk = some true) (io : Streams)
    (hrun : run_row ⟨argv.length, argv⟩ ⟨[], []⟩ idxs op = some (io, .ok ())) :
    main parse fuel argv = some ⟨.exited EXIT_SUCCESS, io.out, io.err⟩ := by
  have htry := main_try_of_match parse fuel argv (program_name argv) ⟨[], []⟩ hnul hfuel
    Tk idxs op hrow hargc hm
  rw [hrun] at htry
  exact main_of_ok parse fuel argv io htry

theorem substring_ok (parse : List Char → Option Nat) (exe a_spec b_spec S : List Char)
    (io : Streams) (A b : Nat) (hA : parse a_spec = some A) (hA1 : A < 2 ^ 64 - 1)
    (hB : (b_spec = "end".toList ∧ b = S.length) ∨
      (b_spec ≠ "end".toList ∧ ∃ B, parse b_spec = some B ∧ B < 2 ^ 64 - 1 ∧
        b = min B S.length)) :
    substring parse exe a_spec b_spec S io =
      (cout io (if min A S.length ≤ b then (S.take b).drop (min A S.length) else []),
        .ok ()) := by
  have hcout : cout io [] = io := by simp [cout]
  have hsub : ∀ e, min A S.length ≤ e →
      cout_substr io (substr S (min A S.length) (some (e - min A S.length))) =
        (cout io ((S.take e).drop (min A S.length)), .ok ()) := by
    intro e _
    rw [substr_ok S _ (Nat.min_le_right _ _)]
    simp only [cout_substr, List.drop_take]
  unfold substring
  simp only []
  rw [to_size_accepted parse exe a_spec io A hA hA1]
  simp only []
  rcases hB with ⟨rfl, rfl⟩ | ⟨hne, B, hB, hB1, rfl⟩
  · have hcmp : strcmp_eq "end".toList "end".toList = true := by decide
    simp only [hcmp, if_true]
    rw [if_pos (Nat.min_le_right _ _), if_pos (Nat.min_le_right _ _)]
    exact hsub _ (Nat.min_le_right _ _)
  · have hcmp : strcmp_eq "end".toList b_spec = false := by
      simp only [strcmp_eq, beq_eq_false_iff_ne, ne_eq]
      exact fun h => hne h.symm
    simp only [hcmp, Bool.false_eq_true, if_false]
    rw [to_size_accepted parse exe b_spec io B hB hB1]
    simp only []
    by_cases hle : min A S.length ≤ min B S.length
    · rw [if_pos hle, if_pos hle]
      exact hsub _ hle
    · rw [if_neg hle, if_neg hle, hcout]


theorem first_part_ok (parse : List Char → Option Nat) (exe n_spec S : List Char)
    (io : Streams) (N : Nat) (hN : parse n_spec = some N) (hN1 : N < 2 ^ 64 - 1) :
    first_part parse exe n_spec S io = (cout io (S.take N), .ok ()) := by
  unfold first_part
  rw [to_size_accepted parse exe n_spec io N hN hN1]
  simp only []
  rw [substr_ok S 0 (Nat.zero_le _)]
  have htake : (S.drop 0).take (min N S.length) = S.take N := by
    rw [List.drop_zero]
    by_cases h : N ≤ S.length
    · rw [Nat.min_eq_left h]
    · rw [Nat.min_eq_right (by omega), List.take_of_length_le (Nat.le_refl _),
        List.take_of_length_le (by omega)]
  simp only [cout_substr, htake]

theorem last_part_ok (parse : List Char → Option Nat) (exe n_spec S : List Char)
    (io : Streams) (N : Nat) (hN : parse n_spec = some N) (hN1 : N < 2 ^ 64 - 1) :
    last_part parse exe n_spec S io = (cout io (S.drop (S.length - min N S.length)), .ok ()) := by
  unfold last_part
  rw [to_size_accepted parse exe n_spec io N hN hN1]
  simp only []
  rw [substr_ok S _ (Nat.sub_le _ _)]
  rfl

theorem blank_iff (c : Char) : blank c = true ↔ ¬ (c ≠ ' ' ∧ c ≠ '\t') := by
  simp only [blank, Bool.or_eq_true, beq_iff_eq, ne_eq, not_and_or, not_not]

theorem trim_leading_loop_eq (S : List Char) : ∀ (n idx : Nat), idx + n = S.length →
    trim_leading_loop S n idx =
      .ok (if (S.drop idx).dropWhile blank = [] then S else (S.drop idx).dropWhile blank) := by
  intro n
  induction n with
  | zero =>
    intro idx h
    rw [List.drop_eq_nil_of_le (by omega)]
    rfl
  | succ n ih =>
    intro idx h
    obtain ⟨c, r, hd⟩ : ∃ c r, S.drop idx = c :: r := by
      cases hd : S.drop idx with
      | nil =>
        have := congrArg List.length hd
        simp only [List.length_drop, List.length_nil] at this
        omega
      | cons c r => exact ⟨c, r, rfl⟩
    obtain ⟨hlt, hc, hr⟩ := drop_cons_info S idx c NUL r hd
    have hc1 : cstr_at S idx = c := hc
    rw [trim_leading_loop, hc1, hd]
    by_cases hb : c ≠ ' ' ∧ c ≠ '\t'
    · have hbl : blank c = false := by
        cases h1 : blank c with
        | false => rfl
        | true => exact absurd hb ((blank_iff c).mp h1)
      rw [if_pos hb, substr_ok S idx (by omega), List.dropWhile_cons_of_neg (by simp [hbl])]
      simp [hd]
    · have hbl : blank c = true := (blank_iff c).mpr hb
      rw [if_neg hb, ih (idx + 1) (by omega), hr, List.dropWhile_cons_of_pos hbl]

theorem trim_leading_impl_eq (S : List Char) :
    trim_leading_impl S = .ok (trim_leading_result S) := by
  unfold trim_leading_impl trim_leading_result
  rw [trim_leading_loop_eq S S.length 0 (by omega), List.drop_zero]

theorem trim_trailing_loop_eq (S : List Char) : ∀ (idx : Nat), idx ≤ S.length →
    trim_trailing_loop S idx =
      .ok (if (S.take idx).rdropWhile blank = [] then S else (S.take idx).rdropWhile blank) := by
  intro idx
  induction idx with
  | zero => intro _; rfl
  | succ idx ih =>
    intro h
    have hlt : idx < S.length := by omega
    have hc : cstr_at S idx = S[idx] := by
      simp [cstr_at, List.getD_eq_getElem?_getD, List.getElem?_eq_getElem hlt]
    have htake : S.take (idx + 1) = S.take idx ++ [S[idx]] := by
      rw [List.take_succ, List.getElem?_eq_getElem hlt]; rfl
    rw [trim_trailing_loop, hc, htake]
    by_cases hb : S[idx] ≠ ' ' ∧ S[idx] ≠ '\t'
    · have hbl : blank S[idx] = false := by
        cases h1 : blank S[idx] with
        | false => rfl
        | true => exact absurd hb ((blank_iff _).mp h1)
      rw [if_pos hb, substr_ok S 0 (by omega), List.rdropWhile_concat_neg _ _ _ (by simp [hbl])]
      simp only [List.drop_zero]
      rw [htake, if_neg (List.append_ne_nil_of_right_ne_nil _ (List.cons_ne_nil _ _))]
    · have hbl : blank S[idx] = true := (blank_iff _).mpr hb
      rw [if_neg hb, ih (by omega), List.rdropWhile_concat_pos _ _ _ hbl]

theorem trim_trailing_impl_eq (S : List Char) :
    trim_trailing_impl S = .ok (trim_trailing_result S) := by
  unfold trim_trailing_impl trim_trailing_result
  rw [trim_trailing_loop_eq S S.length (Nat.le_refl _), List.take_length]

theorem trim_all_eq (S : List Char) (io : Streams) :
    trim_all S io = (cout io (trim_trailing_result (trim_leading_result S)), .ok ()) := by
  unfold trim_all
  rw [trim_leading_impl_eq]
  simp only []
  rw [trim_trailing_impl_eq]
  rfl

theorem trim_leading_result_idem (S : List Char) :
    trim_leading_result (trim_leading_result S) = trim_leading_result S := by
  unfold trim_leading_result
  by_cases h : S.dropWhile blank = []
  · simp [h]
  · simp [h, List.dropWhile_idempotent]

theorem trim_trailing_result_idem (S : List Char) :
    trim_trailing_result (trim_trailing_result S) = trim_trailing_result S := by
  unfold trim_trailing_result
  by_cases h : S.rdropWhile blank = []
  · simp [h]
  · simp [h, List.rdropWhile_idempotent]

theorem trim_leading_trailing (X : List Char) (hX : trim_leading_result X = X) :
    trim_leading_result (trim_trailing_result X) = trim_trailing_result X := by
  unfold trim_trailing_result
  by_cases hr : X.rdropWhile blank = []
  · rw [if_pos hr]; exact hX
  · rw [if_neg hr]
    unfold trim_leading_result at hX ⊢
    by_cases hd : X.dropWhile blank = []
    · have hall : ∀ x ∈ X, blank x = true := List.dropWhile_eq_nil_iff.mp hd
      exact absurd (List.rdropWhile_eq_nil_iff.mpr hall) hr
    · rw [if_neg hd] at hX
      -- the first byte of `X` is not a blank, and it is the first byte of the result
      obtain ⟨c, r, hc⟩ : ∃ c r, X.rdropWhile blank = c :: r := by
        cases hc : X.rdropWhile blank with
        | nil => exact absurd hc hr
        | cons c r => exact ⟨c, r, rfl⟩
      have hpre : X.rdropWhile blank <+: X := List.rdropWhile_prefix _ _
      rw [hc] at hpre ⊢
      obtain ⟨t, ht⟩ := hpre
      have hcb : blank c = false := by
        cases hb : blank c with
        | false => rfl
        | true =>
          rw [← ht] at hX
          simp only [List.cons_append] at hX
          rw [List.dropWhile_cons_of_pos hb] at hX
          have hl := congrArg List.length hX
          have hle := (List.dropWhile_suffix (p := blank) (l := r ++ t)).length_le
          simp only [List.length_cons] at hl
          omega
      rw [List.dropWhile_cons_of_neg (by simp [hcb])]
      simp
theorem trim_leading_result_mem (S : List Char) (c : Char) (h : c ∈ trim_leading_result S) :
    c ∈ S := by
  unfold trim_leading_result at h
  by_cases hd : S.dropWhile blank = []
  · rwa [if_pos hd] at h
  · rw [if_neg hd] at h
    exact (List.dropWhile_suffix blank).subset h

theorem trim_trailing_result_mem (S : List Char) (c : Char) (h : c ∈ trim_trailing_result S) :
    c ∈ S := by
  unfold trim_trailing_result at h
  by_cases hd : S.rdropWhile blank = []
  · rwa [if_pos hd] at h
  · rw [if_neg hd] at h
    exact (List.rdropWhile_prefix blank S).subset h

/-- The run on `trim whitespace in S` succeeds and writes what the two trim loops leave. -/
theorem main_trim_all (parse : List Char → Option Nat) (fuel : Nat) (prog S : List Char)
    (hfuel : 34 < fuel) (hS : NUL ∉ S) :
    main parse fuel [prog, "trim".toList, "whitespace".toList, "in".toList, S] =
      some ⟨.exited EXIT_SUCCESS, trim_trailing_result (trim_leading_result S), []⟩ := by
  have h1 : NUL ∉ "trim".toList := by decide
  have h2 : NUL ∉ "whitespace".toList := by decide
  have h3 : NUL ∉ "in".toList := by decide
  have hnul : ∀ t ∈ [prog, "trim".toList, "whitespace".toList, "in".toList, S].tail,
      NUL ∉ t := by
    intro t ht
    simp only [List.tail_cons, List.mem_cons, List.mem_singleton, List.not_mem_nil,
      or_false] at ht
    rcases ht with rfl | rfl | rfl | rfl <;> assumption
  have hw : split_words "trim whitespace in ?".toList =
      ["trim".toList, "whitespace".toList, "in".toList, ['?']] := by decide
  have hmt := match_of_words "trim whitespace in ?".toList (by decide) fuel
    [prog, "trim".toList, "whitespace".toList, "in".toList, S] (by simp) hnul
    hfuel (by rw [hw]; simp [spec_match_words])
  have hmain := main_of_row parse fuel
    [prog, "trim".toList, "whitespace".toList, "in".toList, S] hnul hfuel
    "trim whitespace in ?".toList [4] (.op1 trim_all)
    (by simp [main_table]) (by simp) hmt
    (cout ⟨[], []⟩ (trim_trailing_result (trim_leading_result S)))
    (by
      simp only [run_row, ClArgs.get_arg, call1, List.length_cons, List.length_nil]
      simp [trim_all_eq])
  rw [hmain]; simp [cout]


/-! ## The properties of the specification -/

/-- C1: on a template of `n ≥ 1` non-empty words joined by single spaces, each word exactly
`?` or not beginning with `?`, and an argument vector with `arg_count ≥ 1`, `ClArgs::match`
returns, and it returns true exactly when `arg_count - 1 = n` and for every `i` in `1..n`
the `i`-th word is `?` or equal to the whole token `argv[i]`. -/
theorem C1_match_is_word_by_word (words argv : List (List Char)) (fuel : Nat)
    (hn : 1 ≤ words.length) (hwords : ∀ w ∈ words, valid_word w)
    (hargc : 1 ≤ argv.length) (hargv : ∀ t ∈ argv, NUL ∉ t)
    (hfuel : (List.intercalate [' '] words).length < fuel) :
    ∃ b, ClArgs.match_ ⟨argv.length, argv⟩ fuel (List.intercalate [' '] words) = some b ∧
      (b = true ↔
        (argv.length - 1 = words.length ∧
          ∀ i, 1 ≤ i → i ≤ words.length →
            (words.getD (i - 1) [] = ['?'] ∨ words.getD (i - 1) [] = argv.getD i []))) := by
  have hne : words ≠ [] := by
    intro h; rw [h] at hn; simp at hn
  rw [← join_words_eq_intercalate] at hfuel ⊢
  refine ⟨_, match_words_eq words hne hwords fuel argv hargc (tail_nul_free argv hargv) hfuel, ?_⟩
  rw [spec_match_words_iff, List.length_tail]
  constructor
  · rintro ⟨hl, hk⟩
    refine ⟨hl, fun i h1 h2 => ?_⟩
    have := hk (i - 1) (by omega)
    rw [getD_tail] at this
    rwa [Nat.sub_add_cancel h1] at this
  · rintro ⟨hl, hk⟩
    refine ⟨hl, fun k hk1 => ?_⟩
    rw [getD_tail]
    simpa using hk (k + 1) (by omega) (by omega)

theorem C1_match_is_word_by_word_witness :
    ∃ b, ClArgs.match_ ⟨4, ["stringproc".toList, "length".toList, "of".toList, "a b".toList]⟩ 12
        (List.intercalate [' '] ["length".toList, "of".toList, "?".toList]) = some b ∧
      (b = true ↔
        (4 - 1 = 3 ∧
          ∀ i, 1 ≤ i → i ≤ 3 →
            (["length".toList, "of".toList, "?".toList].getD (i - 1) [] = ['?'] ∨
             ["length".toList, "of".toList, "?".toList].getD (i - 1) [] =
              ["stringproc".toList, "length".toList, "of".toList, "a b".toList].getD i []))) :=
  C1_match_is_word_by_word ["length".toList, "of".toList, "?".toList]
    ["stringproc".toList, "length".toList, "of".toList, "a b".toList] 12
    (by decide) (by decide) (by decide) (by decide) (by decide)

/-- C2: in each of the 17 branches of `main`, once `match` has returned true for the template
of the branch, every index passed to `get_arg` is below `arg_count`, so that `get_arg` returns
`argv[i]` without throwing, and is the 1-based position of a `?` among the words of the
template; the indices of the branch are exactly the positions of the placeholders, each once;
and the `try` block of `main` runs the operation of the branch on the strings so fetched. -/
theorem C2_dispatch_fetches_placeholders (fuel : Nat) (argv : List (List Char))
    (hfuel : 34 < fuel) (hargc : 1 ≤ argv.length) (hargv : ∀ t ∈ argv, NUL ∉ t)
    (br : List Char × List Nat) (hbr : br ∈ main_branches)
    (hm : ClArgs.match_ ⟨argv.length, argv⟩ fuel br.1 = some true) :
    (∀ i ∈ br.2, i < argv.length ∧
        ClArgs.get_arg ⟨argv.length, argv⟩ i = .ok (argv.getD i []) ∧
        1 ≤ i ∧ (split_words br.1).getD (i - 1) [] = ['?']) ∧
      br.2 = placeholder_positions br.1 ∧ br.2.Nodup ∧
      ∀ (parse : List Char → Option Nat) (exe : List Char) (io : Streams) (op : Op),
        (br.1, br.2, op) ∈ main_table parse fuel exe →
        main_try parse fuel argv exe io = run_row ⟨argv.length, argv⟩ io br.2 op := by
  have hT := branch_template_mem br hbr
  have hlen := argc_of_match br.1 hT fuel argv hargc (tail_nul_free argv hargv) hfuel hm
  have hpos := branches_positions br hbr
  refine ⟨?_, hpos, branches_nodup br hbr, ?_⟩
  · intro i hi
    rw [hpos] at hi
    simp only [placeholder_positions, List.mem_map, List.mem_filter, List.mem_range,
      decide_eq_true_eq] at hi
    obtain ⟨k, ⟨hk, hq⟩, rfl⟩ := hi
    have hlt : k + 1 < argv.length := by omega
    refine ⟨hlt, ?_, by omega, by simpa using hq⟩
    simp only [ClArgs.get_arg, ge_iff_le]
    rw [if_neg (by omega)]
  · intro parse exe io op hrow
    have h2 : 2 ≤ argv.length := by
      have : 1 ≤ (split_words br.1).length := by
        have := (templates_words br.1 hT).2.1
        exact List.length_pos.mpr this
      omega
    exact main_try_of_match parse fuel argv exe io (tail_nul_free argv hargv) hfuel br.1 br.2 op
      hrow h2 hm

theorem C2_dispatch_fetches_placeholders_witness :
    (∀ i ∈ [2, 4], i < 5 ∧
        ClArgs.get_arg ⟨5, ["stringproc".toList, "prepend".toList, "to".toList, "to".toList,
          "?".toList]⟩ i =
          .ok (["stringproc".toList, "prepend".toList, "to".toList, "to".toList,
            "?".toList].getD i []) ∧
        1 ≤ i ∧ (split_words "prepend ? to ?".toList).getD (i - 1) [] = ['?']) ∧
      [2, 4] = placeholder_positions "prepend ? to ?".toList ∧ [2, 4].Nodup ∧
      ∀ (parse : List Char → Option Nat) (exe : List Char) (io : Streams) (op : Op),
        ("prepend ? to ?".toList, [2, 4], op) ∈ main_table parse 40 exe →
        main_try parse 40 ["stringproc".toList, "prepend".toList, "to".toList, "to".toList,
          "?".toList] exe io =
          run_row ⟨5, ["stringproc".toList, "prepend".toList, "to".toList, "to".toList,
            "?".toList]⟩ io [2, 4] op :=
  C2_dispatch_fetches_placeholders 40
    ["stringproc".toList, "prepend".toList, "to".toList, "to".toList, "?".toList]
    (by decide) (by decide) (by decide) ("prepend ? to ?".toList, [2, 4]) (by decide) (by decide)

/-- C3: for every argument vector, at most one of the 17 templates of `main` is matched, and
the first-match-wins chain gives the same result for every ordering of its branches. -/
theorem C3_templates_mutually_exclusive (fuel : Nat) (argv : List (List Char))
    (hfuel : 34 < fuel) (hargc : 1 ≤ argv.length) (hargv : ∀ t ∈ argv, NUL ∉ t) :
    (∀ T1 ∈ templates, ∀ T2 ∈ templates,
        ClArgs.match_ ⟨argv.length, argv⟩ fuel T1 = some true →
        ClArgs.match_ ⟨argv.length, argv⟩ fuel T2 = some true → T1 = T2) ∧
      ∀ (parse : List Char → Option Nat) (exe : List Char) (io : Streams)
        (e : Option (Streams × Except Exn Unit)) (rows : List (List Char × List Nat × Op)),
        rows.Perm (main_table parse fuel exe) →
        select ⟨argv.length, argv⟩ fuel io rows e =
          select ⟨argv.length, argv⟩ fuel io (main_table parse fuel exe) e := by
  have hnul := tail_nul_free argv hargv
  constructor
  · intro T1 h1 T2 h2 hm1 hm2
    have := match_selects T2 h2 fuel argv hargc hnul hfuel hm2 T1 h1
    rw [hm1] at this
    simpa using this
  · intro parse exe io e rows hperm
    have hmem : ∀ r, r ∈ rows ↔ r ∈ main_table parse fuel exe := fun r => hperm.mem_iff
    have htpl : ∀ r ∈ main_table parse fuel exe, r.1 ∈ templates := by
      intro r hr
      rw [← templates_eq parse fuel exe]
      exact List.mem_map_of_mem (fun r => r.1) hr
    have hnd : ((main_table parse fuel exe).map (fun r => r.1)).Nodup := by
      rw [templates_eq parse fuel exe]; exact templates_nodup
    have hnd' : (rows.map (fun r => r.1)).Nodup :=
      (List.Perm.nodup_iff (hperm.map _)).mpr hnd
    by_cases hex : ∃ r ∈ main_table parse fuel exe,
        ClArgs.match_ ⟨argv.length, argv⟩ fuel r.1 = some true
    · obtain ⟨⟨Tk, idxs, op⟩, hr, hm⟩ := hex
      have hsel := match_selects Tk (htpl _ hr) fuel argv hargc hnul hfuel hm
      rw [select_unique _ _ _ _ Tk idxs op rows hnd' ((hmem _).mpr hr)
          (fun r hr' => hsel r.1 (htpl r ((hmem r).mp hr'))),
        select_unique _ _ _ _ Tk idxs op _ hnd hr (fun r hr' => hsel r.1 (htpl r hr'))]
    · have hfalse : ∀ r ∈ main_table parse fuel exe,
          ClArgs.match_ ⟨argv.length, argv⟩ fuel r.1 = some false := by
        intro r hr
        have h1 := match_template r.1 (htpl r hr) fuel argv hargc hnul hfuel
        cases hb : spec_match_words (split_words r.1) argv.tail with
        | false => rw [h1, hb]
        | true => exact absurd ⟨r, hr, by rw [h1, hb]⟩ hex
      rw [select_none _ _ _ _ rows (fun r hr => hfalse r ((hmem r).mp hr)),
        select_none _ _ _ _ _ hfalse]

theorem C3_templates_mutually_exclusive_witness :
    (∀ T1 ∈ templates, ∀ T2 ∈ templates,
        ClArgs.match_ ⟨6, ["stringproc".toList, "trim".toList, "leading".toList,
          "whitespace".toList, "in".toList, " x".toList]⟩ 40 T1 = some true →
        ClArgs.match_ ⟨6, ["stringproc".toList, "trim".toList, "leading".toList,
          "whitespace".toList, "in".toList, " x".toList]⟩ 40 T2 = some true → T1 = T2) ∧
      ∀ (parse : List Char → Option Nat) (exe : List Char) (io : Streams)
        (e : Option (Streams × Except Exn Unit)) (rows : List (List Char × List Nat × Op)),
        rows.Perm (main_table parse 40 exe) →
        select ⟨6, ["stringproc".toList, "trim".toList, "leading".toList,
          "whitespace".toList, "in".toList, " x".toList]⟩ 40 io rows e =
          select ⟨6, ["stringproc".toList, "trim".toList, "leading".toList,
          "whitespace".toList, "in".toList, " x".toList]⟩ 40 io (main_table parse 40 exe) e :=
  C3_templates_mutually_exclusive 40
    ["stringproc".toList, "trim".toList, "leading".toList, "whitespace".toList, "in".toList,
      " x".toList]
    (by decide) (by decide) (by decide)

/-- C4: a run on an argument vector that matches none of the 17 templates, or has fewer than
two entries, ends with the status `EXIT_FAILURE`, which differs from 0 and from the
allocation-failure status, and has written nothing to the standard output. -/
theorem C4_no_match_is_usage_error (parse : List Char → Option Nat) (fuel : Nat)
    (argv : List (List Char))
    (h : argv.length < 2 ∨
      (34 < fuel ∧ (∀ t ∈ argv, NUL ∉ t) ∧
        ∀ T ∈ templates, ClArgs.match_ ⟨argv.length, argv⟩ fuel T ≠ some true)) :
    ∃ o, main parse fuel argv = some o ∧ o.status = .exited EXIT_FAILURE ∧ o.out = [] ∧
      EXIT_FAILURE ≠ 0 ∧ EXIT_FAILURE ≠ EXIT_ERR_MEM_ALLOC := by
  have key : ∃ io, main_try parse fuel argv (program_name argv) ⟨[], []⟩ =
      some (io, .error .ArgsException) ∧ io.out = [] := by
    by_cases hlt : argv.length < 2
    · refine ⟨⟨[], []⟩, ?_, rfl⟩
      unfold main_try
      simp only []
      rw [if_pos hlt]
    · rcases h with h | ⟨hfuel, hargv, hno⟩
      · exact absurd h hlt
      · refine ⟨cerr ⟨[], []⟩ (program_name argv ++ ": Invalid command\n\n".toList), ?_, ?_⟩
        · rw [main_try_eq_select parse fuel argv _ _ (by omega)]
          apply select_none
          intro r hr
          have hT : r.1 ∈ templates := by
            rw [← templates_eq parse fuel (program_name argv)]
            exact List.mem_map_of_mem (fun r => r.1) hr
          have h1 := match_template r.1 hT fuel argv (by omega) (tail_nul_free argv hargv) hfuel
          cases hb : spec_match_words (split_words r.1) argv.tail with
          | false => rw [h1, hb]
          | true => exact absurd (by rw [h1, hb]) (hno r.1 hT)
        · rfl
  obtain ⟨io, htry, hout⟩ := key
  obtain ⟨o, h1, h2, h3⟩ := main_of_args_exception parse fuel argv io htry hout
  exact ⟨o, h1, h2, h3, by decide, by decide⟩

theorem C4_no_match_is_usage_error_witness :
    ∃ o, main parse_unsigned_int64_c_str 40 ["stringproc".toList, "length".toList,
        "of".toList] = some o ∧ o.status = .exited EXIT_FAILURE ∧ o.out = [] ∧
      EXIT_FAILURE ≠ 0 ∧ EXIT_FAILURE ≠ EXIT_ERR_MEM_ALLOC :=
  C4_no_match_is_usage_error parse_unsigned_int64_c_str 40
    ["stringproc".toList, "length".toList, "of".toList]
    (Or.inr ⟨by decide, by decide, by decide⟩)

/-- C5: when the argument vector matches `first ? bytes of ?`, `last ? bytes of ?`,
`char at ? in ?` or `substring ? to ? of ?` and a numeric argument is rejected by `to_size`
(for `substring` the start, or the end when it is not the literal `end`), the run ends with
the status `EXIT_FAILURE` and the standard output is empty. -/
theorem C5_bad_number_is_usage_error (parse : List Char → Option Nat) (fuel : Nat)
    (argv : List (List Char)) (hfuel : 34 < fuel) (hargv : ∀ t ∈ argv, NUL ∉ t)
    (h : (ClArgs.match_ ⟨argv.length, argv⟩ fuel "first ? bytes of ?".toList = some true ∧
          rejected parse (argv.getD 2 []) = true) ∨
        (ClArgs.match_ ⟨argv.length, argv⟩ fuel "last ? bytes of ?".toList = some true ∧
          rejected parse (argv.getD 2 []) = true) ∨
        (ClArgs.match_ ⟨argv.length, argv⟩ fuel "char at ? in ?".toList = some true ∧
          rejected parse (argv.getD 3 []) = true) ∨
        (ClArgs.match_ ⟨argv.length, argv⟩ fuel "substring ? to ? of ?".toList = some true ∧
          (rejected parse (argv.getD 2 []) = true ∨
            (argv.getD 4 [] ≠ "end".toList ∧ rejected parse (argv.getD 4 []) = true)))) :
    ∃ o, main parse fuel argv = some o ∧ o.status = .exited EXIT_FAILURE ∧ o.out = [] := by
  have hnul := tail_nul_free argv hargv
  have hargc : 1 ≤ argv.length := by
    rcases h with h | h | h | h <;>
    · by_contra hc
      have h0 : argv = [] := List.eq_nil_of_length_eq_zero (by omega)
      subst h0
      obtain ⟨f, rfl⟩ : ∃ f, fuel = f + 1 := ⟨fuel - 1, by omega⟩
      simp [ClArgs.match_, ClArgs.match_loop, strlen] at h
  have key : ∃ io, main_try parse fuel argv (program_name argv) ⟨[], []⟩ =
      some (io, .error .ArgsException) ∧ io.out = [] := by
    rcases h with ⟨hm, hr⟩ | ⟨hm, hr⟩ | ⟨hm, hr⟩ | ⟨hm, hr⟩
    · have hlen := argc_of_match _ (by decide) fuel argv hargc hnul hfuel hm
      have hw : (split_words "first ? bytes of ?".toList).length = 5 := by decide
      rw [hw] at hlen
      obtain ⟨io1, h1, h2⟩ := first_part_rejected parse (program_name argv)
        (argv.getD 2 []) (argv.getD 5 []) ⟨[], []⟩ hr
      refine ⟨io1, ?_, h2⟩
      rw [main_try_of_match parse fuel argv _ _ hnul hfuel "first ? bytes of ?".toList [2, 5]
        (.op2 (first_part parse (program_name argv))) (by simp [main_table]) (by omega) hm]
      simp only [run_row, get_arg_ok argv 2 (by omega), get_arg_ok argv 5 (by omega), call2, h1]
    · have hlen := argc_of_match _ (by decide) fuel argv hargc hnul hfuel hm
      have hw : (split_words "last ? bytes of ?".toList).length = 5 := by decide
      rw [hw] at hlen
      obtain ⟨io1, h1, h2⟩ := last_part_rejected parse (program_name argv)
        (argv.getD 2 []) (argv.getD 5 []) ⟨[], []⟩ hr
      refine ⟨io1, ?_, h2⟩
      rw [main_try_of_match parse fuel argv _ _ hnul hfuel "last ? bytes of ?".toList [2, 5]
        (.op2 (last_part parse (program_name argv))) (by simp [main_table]) (by omega) hm]
      simp only [run_row, get_arg_ok argv 2 (by omega), get_arg_ok argv 5 (by omega), call2, h1]
    · have hlen := argc_of_match _ (by decide) fuel argv hargc hnul hfuel hm
      have hw : (split_words "char at ? in ?".toList).length = 5 := by decide
      rw [hw] at hlen
      obtain ⟨io1, h1, h2⟩ := char_at_rejected parse (program_name argv)
        (argv.getD 3 []) (argv.getD 5 []) ⟨[], []⟩ hr
      refine ⟨io1, ?_, h2⟩
      rw [main_try_of_match parse fuel argv _ _ hnul hfuel "char at ? in ?".toList [3, 5]
        (.op2 (char_at parse (program_name argv))) (by simp [main_table]) (by omega) hm]
      simp only [run_row, get_arg_ok argv 3 (by omega), get_arg_ok argv 5 (by omega), call2, h1]
    · have hlen := argc_of_match _ (by decide) fuel argv hargc hnul hfuel hm
      have hw : (split_words "substring ? to ? of ?".toList).length = 6 := by decide
      rw [hw] at hlen
      obtain ⟨io1, h1, h2⟩ := substring_rejected parse (program_name argv)
        (argv.getD 2 []) (argv.getD 4 []) (argv.getD 6 []) ⟨[], []⟩ hr
      refine ⟨io1, ?_, h2⟩
      rw [main_try_of_match parse fuel argv _ _ hnul hfuel "substring ? to ? of ?".toList
        [2, 4, 6] (.op3 (substring parse (program_name argv))) (by simp [main_table])
        (by omega) hm]
      simp only [run_row, get_arg_ok argv 2 (by omega), get_arg_ok argv 4 (by omega),
        get_arg_ok argv 6 (by omega), call3, h1]
  obtain ⟨io, htry, hout⟩ := key
  exact main_of_args_exception parse fuel argv io htry hout

theorem C5_bad_number_is_usage_error_witness :
    ∃ o, main parse_unsigned_int64_c_str 40 ["stringproc".toList, "first".toList, "abc".toList,
        "bytes".toList, "of".toList, "hello".toList] = some o ∧
      o.status = .exited EXIT_FAILURE ∧ o.out = [] :=
  C5_bad_number_is_usage_error parse_unsigned_int64_c_str 40
    ["stringproc".toList, "first".toList, "abc".toList, "bytes".toList, "of".toList,
      "hello".toList]
    (by decide) (by decide) (Or.inl ⟨by decide, by decide⟩)

/-- C6: the run on `prepend A to B` succeeds and writes `A ++ B`; the run on `append A to B`
succeeds and writes `B ++ A`. -/
theorem C6_prepend_append_order (parse : List Char → Option Nat) (fuel : Nat)
    (prog A B : List Char) (hfuel : 34 < fuel) (hA : NUL ∉ A) (hB : NUL ∉ B) :
    main parse fuel [prog, "prepend".toList, A, "to".toList, B] =
        some ⟨.exited EXIT_SUCCESS, A ++ B, []⟩ ∧
      main parse fuel [prog, "append".toList, A, "to".toList, B] =
        some ⟨.exited EXIT_SUCCESS, B ++ A, []⟩ := by
  have hto : NUL ∉ "to".toList := by decide
  constructor
  · have hnul : ∀ t ∈ [prog, "prepend".toList, A, "to".toList, B].tail, NUL ∉ t := by
      have hp : NUL ∉ "prepend".toList := by decide
      intro t ht
      simp only [List.tail_cons, List.mem_cons, List.mem_singleton, List.not_mem_nil,
        or_false] at ht
      rcases ht with rfl | rfl | rfl | rfl <;> assumption
    have hw : split_words "prepend ? to ?".toList =
        ["prepend".toList, ['?'], "to".toList, ['?']] := by decide
    have hm := match_of_words "prepend ? to ?".toList (by decide) fuel
      [prog, "prepend".toList, A, "to".toList, B] (by simp) hnul hfuel
      (by rw [hw]; simp [spec_match_words])
    have htry := main_try_of_match parse fuel [prog, "prepend".toList, A, "to".toList, B]
      (program_name [prog, "prepend".toList, A, "to".toList, B]) ⟨[], []⟩ hnul hfuel
      "prepend ? to ?".toList [2, 4] (.op2 prepend) (by simp [main_table]) (by simp) hm
    have hrun : run_row ⟨[prog, "prepend".toList, A, "to".toList, B].length,
        [prog, "prepend".toList, A, "to".toList, B]⟩ ⟨[], []⟩ [2, 4] (.op2 prepend) =
        some (⟨A ++ B, []⟩, .ok ()) := by
      simp [run_row, ClArgs.get_arg, call2, prepend, cout]
    rw [hrun] at htry
    exact main_of_ok parse fuel _ _ htry
  · have hnul : ∀ t ∈ [prog, "append".toList, A, "to".toList, B].tail, NUL ∉ t := by
      have hp : NUL ∉ "append".toList := by decide
      intro t ht
      simp only [List.tail_cons, List.mem_cons, List.mem_singleton, List.not_mem_nil,
        or_false] at ht
      rcases ht with rfl | rfl | rfl | rfl <;> assumption
    have hw : split_words "append ? to ?".toList =
        ["append".toList, ['?'], "to".toList, ['?']] := by decide
    have hm := match_of_words "append ? to ?".toList (by decide) fuel
      [prog, "append".toList, A, "to".toList, B] (by simp) hnul hfuel
      (by rw [hw]; simp [spec_match_words])
    have htry := main_try_of_match parse fuel [prog, "append".toList, A, "to".toList, B]
      (program_name [prog, "append".toList, A, "to".toList, B]) ⟨[], []⟩ hnul hfuel
      "append ? to ?".toList [2, 4] (.op2 append) (by simp [main_table]) (by simp) hm
    have hrun : run_row ⟨[prog, "append".toList, A, "to".toList, B].length,
        [prog, "append".toList, A, "to".toList, B]⟩ ⟨[], []⟩ [2, 4] (.op2 append) =
        some (⟨B ++ A, []⟩, .ok ()) := by
      simp [run_row, ClArgs.get_arg, call2, append, cout]
    rw [hrun] at htry
    exact main_of_ok parse fuel _ _ htry

theorem C6_prepend_append_order_witness :
    main parse_unsigned_int64_c_str 40
        ["stringproc".toList, "prepend".toList, "to".toList, "to".toList, "? x".toList] =
        some ⟨.exited EXIT_SUCCESS, "to".toList ++ "? x".toList, []⟩ ∧
      main parse_unsigned_int64_c_str 40
        ["stringproc".toList, "append".toList, "to".toList, "to".toList, "? x".toList] =
        some ⟨.exited EXIT_SUCCESS, "? x".toList ++ "to".toList, []⟩ :=
  C6_prepend_append_order parse_unsigned_int64_c_str 40 "stringproc".toList "to".toList
    "? x".toList (by decide) (by decide) (by decide)

/-- C7: `substring A to B of S` writes the bytes of `S` at the offsets `a..b-1` when `a ≤ b`
and nothing otherwise, where `a = min A len` and `b = min B len`, or `b = len` when the end
argument is the literal `end`; so `substring 0 to end of S` writes `S`, and every `A > B`
gives an empty output. -/
theorem C7_substring_clamped_range (parse : List Char → Option Nat) (fuel : Nat)
    (prog a_spec b_spec S : List Char) (A b : Nat) (hfuel : 34 < fuel)
    (ha : NUL ∉ a_spec) (hb : NUL ∉ b_spec) (hS : NUL ∉ S)
    (hA : parse a_spec = some A) (hA1 : A < 2 ^ 64 - 1)
    (hB : (b_spec = "end".toList ∧ b = S.length) ∨
      (b_spec ≠ "end".toList ∧ ∃ B, parse b_spec = some B ∧ B < 2 ^ 64 - 1 ∧
        b = min B S.length)) :
    ∃ out, main parse fuel [prog, "substring".toList, a_spec, "to".toList, b_spec,
        "of".toList, S] = some ⟨.exited EXIT_SUCCESS, out, []⟩ ∧
      out = (if min A S.length ≤ b then (S.take b).drop (min A S.length) else []) ∧
      (A = 0 → b_spec = "end".toList → out = S) ∧
      (∀ B, b_spec ≠ "end".toList → parse b_spec = some B → B < A → out = []) := by
  have h1 : NUL ∉ "substring".toList := by decide
  have h2 : NUL ∉ "to".toList := by decide
  have h3 : NUL ∉ "of".toList := by decide
  have hnul : ∀ t ∈ [prog, "substring".toList, a_spec, "to".toList, b_spec, "of".toList,
      S].tail, NUL ∉ t := by
    intro t ht
    simp only [List.tail_cons, List.mem_cons, List.mem_singleton, List.not_mem_nil,
      or_false] at ht
    rcases ht with rfl | rfl | rfl | rfl | rfl | rfl <;> assumption
  have hw : split_words "substring ? to ? of ?".toList =
      ["substring".toList, ['?'], "to".toList, ['?'], "of".toList, ['?']] := by decide
  have hm := match_of_words "substring ? to ? of ?".toList (by decide) fuel
    [prog, "substring".toList, a_spec, "to".toList, b_spec, "of".toList, S] (by simp) hnul
    hfuel (by rw [hw]; simp [spec_match_words])
  have hmain := main_of_row parse fuel
    [prog, "substring".toList, a_spec, "to".toList, b_spec, "of".toList, S] hnul hfuel
    "substring ? to ? of ?".toList [2, 4, 6] (.op3 (substring parse
      (program_name [prog, "substring".toList, a_spec, "to".toList, b_spec, "of".toList, S])))
    (by simp [main_table]) (by simp) hm
    (cout ⟨[], []⟩ (if min A S.length ≤ b then (S.take b).drop (min A S.length) else []))
    (by
      simp only [run_row, ClArgs.get_arg, call3, List.length_cons, List.length_nil]
      simp [substring_ok parse _ a_spec b_spec S ⟨[], []⟩ A b hA hA1 hB])
  refine ⟨_, ?_, rfl, ?_, ?_⟩
  · rw [hmain]; simp [cout]
  · intro hA0 hend
    rcases hB with ⟨-, rfl⟩ | ⟨hne, -⟩
    · subst hA0; simp
    · exact absurd hend hne
  · intro B hne hpB hlt
    rcases hB with ⟨he, -⟩ | ⟨-, B1, hB1, -, rfl⟩
    · exact absurd he hne
    · rw [hpB] at hB1
      obtain rfl := Option.some.inj hB1
      by_cases hle : min A S.length ≤ min B S.length
      · rw [if_pos hle]
        apply List.drop_eq_nil_of_le
        simp only [List.length_take]
        omega
      · rw [if_neg hle]

theorem C7_substring_clamped_range_witness :
    ∃ out, main parse_unsigned_int64_c_str 40 ["stringproc".toList, "substring".toList,
        "1".toList, "to".toList, "3".toList, "of".toList, "hello".toList] =
        some ⟨.exited EXIT_SUCCESS, out, []⟩ ∧
      out = (if min 1 "hello".toList.length ≤ 3 then
        ("hello".toList.take 3).drop (min 1 "hello".toList.length) else []) ∧
      (1 = 0 → "3".toList = "end".toList → out = "hello".toList) ∧
      (∀ B, "3".toList ≠ "end".toList → parse_unsigned_int64_c_str "3".toList = some B →
        B < 1 → out = []) :=
  C7_substring_clamped_range parse_unsigned_int64_c_str 40 "stringproc".toList "1".toList
    "3".toList "hello".toList 1 3 (by decide) (by decide) (by decide) (by decide) (by decide)
    (by decide) (Or.inr ⟨by decide, 3, by decide, by decide, by decide⟩)

/-- C8: for `N ≤ len(S)`, the output of `first N bytes of S` followed by the output of
`last (len(S) - N) bytes of S` is `S`; both runs succeed. -/
theorem C8_first_last_round_trip (parse : List Char → Option Nat) (fuel : Nat)
    (prog n_spec m_spec S : List Char) (N : Nat) (hfuel : 34 < fuel)
    (hn : NUL ∉ n_spec) (hm : NUL ∉ m_spec) (hS : NUL ∉ S)
    (hlen : S.length < 2 ^ 64 - 1) (hN : parse n_spec = some N) (hle : N ≤ S.length)
    (hM : parse m_spec = some (S.length - N)) :
    ∃ o1 o2,
      main parse fuel [prog, "first".toList, n_spec, "bytes".toList, "of".toList, S] =
        some o1 ∧
      main parse fuel [prog, "last".toList, m_spec, "bytes".toList, "of".toList, S] =
        some o2 ∧
      o1.status = .exited EXIT_SUCCESS ∧ o2.status = .exited EXIT_SUCCESS ∧
      o1.out ++ o2.out = S := by
  have h2 : NUL ∉ "bytes".toList := by decide
  have h3 : NUL ∉ "of".toList := by decide
  have hfirst : main parse fuel [prog, "first".toList, n_spec, "bytes".toList, "of".toList, S] =
      some ⟨.exited EXIT_SUCCESS, S.take N, []⟩ := by
    have h1 : NUL ∉ "first".toList := by decide
    have hnul : ∀ t ∈ [prog, "first".toList, n_spec, "bytes".toList, "of".toList, S].tail,
        NUL ∉ t := by
      intro t ht
      simp only [List.tail_cons, List.mem_cons, List.mem_singleton, List.not_mem_nil,
        or_false] at ht
      rcases ht with rfl | rfl | rfl | rfl | rfl <;> assumption
    have hw : split_words "first ? bytes of ?".toList =
        ["first".toList, ['?'], "bytes".toList, "of".toList, ['?']] := by decide
    have hmt := match_of_words "first ? bytes of ?".toList (by decide) fuel
      [prog, "first".toList, n_spec, "bytes".toList, "of".toList, S] (by simp) hnul
      hfuel (by rw [hw]; simp [spec_match_words])
    have hmain := main_of_row parse fuel
      [prog, "first".toList, n_spec, "bytes".toList, "of".toList, S] hnul hfuel
      "first ? bytes of ?".toList [2, 5] (.op2 (first_part parse
        (program_name [prog, "first".toList, n_spec, "bytes".toList, "of".toList, S])))
      (by simp [main_table]) (by simp) hmt (cout ⟨[], []⟩ (S.take N))
      (by
        simp only [run_row, ClArgs.get_arg, call2, List.length_cons, List.length_nil]
        simp [first_part_ok parse _ n_spec S ⟨[], []⟩ N hN (by omega)])
    rw [hmain]; simp [cout]
  have hlast : main parse fuel [prog, "last".toList, m_spec, "bytes".toList, "of".toList, S] =
      some ⟨.exited EXIT_SUCCESS, S.drop N, []⟩ := by
    have h1 : NUL ∉ "last".toList := by decide
    have hnul : ∀ t ∈ [prog, "last".toList, m_spec, "bytes".toList, "of".toList, S].tail,
        NUL ∉ t := by
      intro t ht
      simp only [List.tail_cons, List.mem_cons, List.mem_singleton, List.not_mem_nil,
        or_false] at ht
      rcases ht with rfl | rfl | rfl | rfl | rfl <;> assumption
    have hw : split_words "last ? bytes of ?".toList =
        ["last".toList, ['?'], "bytes".toList, "of".toList, ['?']] := by decide
    have hmt := match_of_words "last ? bytes of ?".toList (by decide) fuel
      [prog, "last".toList, m_spec, "bytes".toList, "of".toList, S] (by simp) hnul
      hfuel (by rw [hw]; simp [spec_match_words])
    have hidx2 : S.length - (S.length - N) = N := by omega
    have hmain := main_of_row parse fuel
      [prog, "last".toList, m_spec, "bytes".toList, "of".toList, S] hnul hfuel
      "last ? bytes of ?".toList [2, 5] (.op2 (last_part parse
        (program_name [prog, "last".toList, m_spec, "bytes".toList, "of".toList, S])))
      (by simp [main_table]) (by simp) hmt (cout ⟨[], []⟩ (S.drop N))
      (by
        simp only [run_row, ClArgs.get_arg, call2, List.length_cons, List.length_nil]
        simp [last_part_ok parse _ m_spec S ⟨[], []⟩ (S.length - N) hM (by omega), hidx2])
    rw [hmain]; simp [cout]
  exact ⟨_, _, hfirst, hlast, rfl, rfl, List.take_append_drop N S⟩

theorem C8_first_last_round_trip_witness :
    ∃ o1 o2,
      main parse_unsigned_int64_c_str 40 ["stringproc".toList, "first".toList, "2".toList,
        "bytes".toList, "of".toList, "hello".toList] = some o1 ∧
      main parse_unsigned_int64_c_str 40 ["stringproc".toList, "last".toList, "3".toList,
        "bytes".toList, "of".toList, "hello".toList] = some o2 ∧
      o1.status = .exited EXIT_SUCCESS ∧ o2.status = .exited EXIT_SUCCESS ∧
      o1.out ++ o2.out = "hello".toList :=
  C8_first_last_round_trip parse_unsigned_int64_c_str 40 "stringproc".toList "2".toList
    "3".toList "hello".toList 2 (by decide) (by decide) (by decide) (by decide) (by decide)
    (by decide) (by decide) (by decide)

/-- C9: the run on `trim whitespace in " "` succeeds and writes the space back: a string of
blanks only is left as it is, although its leading and trailing run of blanks is the whole
string. -/
theorem C9_trim_keeps_blank_string (parse : List Char → Option Nat) (fuel : Nat)
    (prog : List Char) :
    main parse (fuel + 35) [prog, "trim".toList, "whitespace".toList, "in".toList, [' ']] =
      some ⟨.exited EXIT_SUCCESS, [' '], []⟩ := by
  rw [main_trim_all parse (fuel + 35) prog [' '] (by omega) (by decide)]
  have : trim_trailing_result (trim_leading_result [' ']) = [' '] := by decide
  rw [this]

/-- C10: the run on `trim whitespace in S` succeeds, and the run on `trim whitespace in` its
output succeeds with the same output. -/
theorem C10_trim_idempotent (parse : List Char → Option Nat) (fuel : Nat)
    (prog S : List Char) (hfuel : 34 < fuel) (hS : NUL ∉ S) :
    ∃ out,
      main parse fuel [prog, "trim".toList, "whitespace".toList, "in".toList, S] =
        some ⟨.exited EXIT_SUCCESS, out, []⟩ ∧
      main parse fuel [prog, "trim".toList, "whitespace".toList, "in".toList, out] =
        some ⟨.exited EXIT_SUCCESS, out, []⟩ := by
  refine ⟨trim_trailing_result (trim_leading_result S),
    main_trim_all parse fuel prog S hfuel hS, ?_⟩
  have hout : NUL ∉ trim_trailing_result (trim_leading_result S) :=
    fun h => hS (trim_leading_result_mem S _ (trim_trailing_result_mem _ _ h))
  rw [main_trim_all parse fuel prog _ hfuel hout,
    trim_leading_trailing _ (trim_leading_result_idem S), trim_trailing_result_idem]

theorem C10_trim_idempotent_witness :
    ∃ out,
      main parse_unsigned_int64_c_str 40 ["stringproc".toList, "trim".toList,
        "whitespace".toList, "in".toList, " \t a b\t ".toList] =
        some ⟨.exited EXIT_SUCCESS, out, []⟩ ∧
      main parse_unsigned_int64_c_str 40 ["stringproc".toList, "trim".toList,
        "whitespace".toList, "in".toList, out] =
        some ⟨.exited EXIT_SUCCESS, out, []⟩ :=
  C10_trim_idempotent parse_unsigned_int64_c_str 40 "stringproc".toList " \t a b\t ".toList
    (by decide) (by decide)

/-- What `find` returns when it finds: the lowest position at which `part` begins. -/
theorem find_some : ∀ (text part : List Char) (i : Nat), find text part = some i →
    i ≤ text.length ∧ part <+: text.drop i ∧ ∀ j, j < i → ¬ part <+: text.drop j := by
  intro text
  induction text with
  | nil =>
    intro part i h
    simp only [find] at h
    by_cases hp : part = []
    · rw [if_pos hp] at h
      obtain rfl := Option.some.inj h
      subst hp
      exact ⟨Nat.le_refl _, List.nil_prefix, fun j hj => absurd hj (Nat.not_lt_zero _)⟩
    · rw [if_neg hp] at h
      exact Option.noConfusion h
  | cons c cs ih =>
    intro part i h
    simp only [find] at h
    by_cases hp : part <+: c :: cs
    · rw [if_pos hp] at h
      obtain rfl := Option.some.inj h
      exact ⟨Nat.zero_le _, hp, fun j hj => absurd hj (Nat.not_lt_zero _)⟩
    · rw [if_neg hp] at h
      cases hf : find cs part with
      | none => rw [hf] at h; exact Option.noConfusion h
      | some k =>
        rw [hf] at h
        obtain rfl := Option.some.inj h
        obtain ⟨h1, h2, h3⟩ := ih part k hf
        refine ⟨by simpa using h1, by simpa using h2, fun j hj => ?_⟩
        cases j with
        | zero => simpa using hp
        | succ j => simpa using h3 j (by omega)

/-- When `find` does not find, `part` begins at no position. -/
theorem find_none : ∀ (text part : List Char), find text part = none →
    ∀ j, ¬ part <+: text.drop j := by
  intro text
  induction text with
  | nil =>
    intro part h j
    simp only [find] at h
    by_cases hp : part = []
    · rw [if_pos hp] at h; exact Option.noConfusion h
    · simpa using hp
  | cons c cs ih =>
    intro part h j
    simp only [find] at h
    by_cases hp : part <+: c :: cs
    · rw [if_pos hp] at h; exact Option.noConfusion h
    · rw [if_neg hp] at h
      cases hf : find cs part with
      | some k => rw [hf] at h; exact Option.noConfusion h
      | none =>
        cases j with
        | zero => simpa using hp
        | succ j => simpa using ih part hf j

/-- When `rfind` does not find, `part` begins at no position. -/
theorem rfind_none : ∀ (text part : List Char), rfind text part = none →
    ∀ j, ¬ part <+: text.drop j := by
  intro text
  induction text with
  | nil =>
    intro part h j
    simp only [rfind] at h
    by_cases hp : part = []
    · rw [if_pos hp] at h; exact Option.noConfusion h
    · simpa using hp
  | cons c cs ih =>
    intro part h j
    simp only [rfind] at h
    cases hf : rfind cs part with
    | some k => rw [hf] at h; exact Option.noConfusion h
    | none =>
      rw [hf] at h
      by_cases hp : part <+: c :: cs
      · rw [if_pos hp] at h; exact Option.noConfusion h
      · cases j with
        | zero => simpa using hp
        | succ j => simpa using ih part hf j

/-- What `rfind` returns when it finds: the highest position at which `part` begins. -/
theorem rfind_some : ∀ (text part : List Char) (i : Nat), rfind text part = some i →
    i ≤ text.length ∧ part <+: text.drop i ∧
      ∀ j, i < j → j ≤ text.length → ¬ part <+: text.drop j := by
  intro text
  induction text with
  | nil =>
    intro part i h
    simp only [rfind] at h
    by_cases hp : part = []
    · rw [if_pos hp] at h
      obtain rfl := Option.some.inj h
      subst hp
      exact ⟨Nat.le_refl _, List.nil_prefix, fun j hj hl => by simp at hl; omega⟩
    · rw [if_neg hp] at h
      exact Option.noConfusion h
  | cons c cs ih =>
    intro part i h
    simp only [rfind] at h
    cases hf : rfind cs part with
    | some k =>
      rw [hf] at h
      obtain rfl := Option.some.inj h
      obtain ⟨h1, h2, h3⟩ := ih part k hf
      refine ⟨by simpa using h1, by simpa using h2, fun j hj hl => ?_⟩
      cases j with
      | zero => omega
      | succ j => simpa using h3 j (by omega) (by simpa using hl)
    | none =>
      rw [hf] at h
      by_cases hp : part <+: c :: cs
      · rw [if_pos hp] at h
        obtain rfl := Option.some.inj h
        refine ⟨Nat.zero_le _, hp, fun j hj _ => ?_⟩
        cases j with
        | zero => omega
        | succ j => simpa using rfind_none cs part hf j
      · rw [if_neg hp] at h
        exact Option.noConfusion h

/-- A string in which `part` begins at position `i` splits into what stands before `i`, `part`
and what stands behind `part`. -/
theorem split_at_occurrence (text part : List Char) (i : Nat) (h : part <+: text.drop i) :
    text = text.take i ++ part ++ text.drop (i + part.length) ∧
      (i ≤ text.length → i + part.length ≤ text.length) := by
  obtain ⟨t, ht⟩ := h
  have hd : text.drop (i + part.length) = t := by
    rw [drop_add_eq, ← ht]; simp
  refine ⟨?_, fun hi => ?_⟩
  · rw [hd, List.append_assoc, ht, List.take_append_drop]
  · have := congrArg List.length ht
    simp only [List.length_append, List.length_drop] at this
    omega

/-- To occur in a string is to begin at one of its positions. -/
theorem infix_iff_prefix_drop (text part : List Char) :
    part <:+: text ↔ ∃ j, part <+: text.drop j := by
  constructor
  · rintro ⟨s, t, rfl⟩
    exact ⟨s.length, ⟨t, by simp⟩⟩
  · rintro ⟨j, hj⟩
    obtain ⟨h1, -⟩ := split_at_occurrence text part j hj
    exact ⟨text.take j, text.drop (j + part.length), h1.symm⟩

theorem find_eq_none_iff (text part : List Char) :
    find text part = none ↔ ¬ part <:+: text := by
  rw [infix_iff_prefix_drop]
  constructor
  · intro h ⟨j, hj⟩
    exact find_none text part h j hj
  · intro h
    cases hf : find text part with
    | none => rfl
    | some i => exact absurd ⟨i, (find_some text part i hf).2.1⟩ h

theorem rfind_eq_none_iff (text part : List Char) :
    rfind text part = none ↔ ¬ part <:+: text := by
  rw [infix_iff_prefix_drop]
  constructor
  · intro h ⟨j, hj⟩
    exact rfind_none text part h j hj
  · intro h
    cases hf : rfind text part with
    | none => rfl
    | some i => exact absurd ⟨i, (rfind_some text part i hf).2.1⟩ h

/-- Before its first occurrence a non-empty `part` does not occur. -/
theorem no_infix_before_first (text part : List Char) (i : Nat) (hp : part ≠ [])
    (h : ∀ j, j < i → ¬ part <+: text.drop j) : ¬ part <:+: text.take i := by
  rintro ⟨s, t, hst⟩
  have hlen := congrArg List.length hst
  simp only [List.length_append, List.length_take] at hlen
  have hpl : 0 < part.length := List.length_pos.mpr hp
  apply h s.length (by omega)
  have htext : text = s ++ part ++ (t ++ text.drop i) := by
    rw [← List.append_assoc, hst, List.take_append_drop]
  rw [htext]
  exact ⟨t ++ text.drop i, by simp⟩

/-- Behind its last occurrence a non-empty `part` does not occur. -/
theorem no_infix_behind_last (text part : List Char) (i : Nat) (hp : part ≠ [])
    (h : ∀ j, i < j → j ≤ text.length → ¬ part <+: text.drop j) :
    ¬ part <:+: text.drop (i + part.length) := by
  rw [infix_iff_prefix_drop]
  rintro ⟨k, hk⟩
  have hpl : 0 < part.length := List.length_pos.mpr hp
  rw [← drop_add_eq] at hk
  by_cases hle : i + part.length + k ≤ text.length
  · exact h _ (by omega) hle hk
  · rw [List.drop_eq_nil_of_le (by omega)] at hk
    exact hp (List.prefix_nil.mp hk)

theorem cout_nil (io : Streams) : cout io [] = io := by
  simp [cout]

theorem cout_cout (io : Streams) (a b : List Char) : cout (cout io a) b = cout io (a ++ b) := by
  simp [cout]

theorem lines_append (ts us : List (List Char)) : lines (ts ++ us) = lines ts ++ lines us := by
  induction ts with
  | nil => rfl
  | cons t ts ih => simp [lines, ih]

theorem intercalate_cons_cons (sep a b : List Char) (l : List (List Char)) :
    List.intercalate sep (a :: b :: l) = a ++ sep ++ List.intercalate sep (b :: l) := by
  simp [List.intercalate, List.intersperse]

/-- The loop of `tokenize` with a non-empty separator: it ends, having written one line for
each token before the last one; the tokens and the rest joined by the separator are the text,
and the separator occurs in none of them. -/
theorem tokenize_loop_spec (sep : List Char) (hsep : sep ≠ []) :
    ∀ (fuel : Nat) (text : List Char) (io : Streams), text.length < fuel →
      ∃ tokens rest, tokenize_loop sep fuel text io = some (cout io (lines tokens), .ok rest) ∧
        List.intercalate sep (tokens ++ [rest]) = text ∧
        ∀ t ∈ tokens ++ [rest], ¬ sep <:+: t := by
  intro fuel
  induction fuel with
  | zero => intro text io h; omega
  | succ f ih =>
    intro text io hlen
    have hpl : 0 < sep.length := List.length_pos.mpr hsep
    rw [tokenize_loop]
    cases hf : find text sep with
    | none =>
      refine ⟨[], text, by simp [lines, cout_nil], by simp [List.intercalate], ?_⟩
      intro t ht
      simp only [List.nil_append, List.mem_singleton] at ht
      rw [ht]
      exact (find_eq_none_iff text sep).mp hf
    | some i =>
      obtain ⟨hi, hpre, hmin⟩ := find_some text sep i hf
      obtain ⟨hsplit, hbound⟩ := split_at_occurrence text sep i hpre
      have hb := hbound hi
      simp only []
      rw [substr_ok text 0 (Nat.zero_le _), substr_ok text _ hb]
      simp only [List.drop_zero]
      obtain ⟨tokens, rest, h1, h2, h3⟩ := ih (text.drop (i + sep.length))
        (cout (cout io (text.take i)) ['\n']) (by simp only [List.length_drop]; omega)
      refine ⟨text.take i :: tokens, rest, ?_, ?_, ?_⟩
      · rw [h1, cout_cout, cout_cout]
        simp [lines]
      · obtain ⟨b, l, hbl⟩ : ∃ b l, tokens ++ [rest] = b :: l := by
          cases tokens with
          | nil => exact ⟨rest, [], rfl⟩
          | cons b l => exact ⟨b, l ++ [rest], rfl⟩
        rw [List.cons_append, hbl, intercalate_cons_cons, ← hbl, h2]
        exact hsplit.symm
      · intro t ht
        simp only [List.cons_append, List.mem_cons] at ht
        rcases ht with rfl | ht
        · exact no_infix_before_first text sep i hsep hmin
        · exact h3 t ht

theorem tokenize_spec (sep : List Char) (hsep : sep ≠ []) (fuel : Nat) (text : List Char)
    (io : Streams) (hlen : text.length < fuel) :
    ∃ tokens, tokenize fuel text sep io = some (cout io (lines tokens), .ok ()) ∧
      1 ≤ tokens.length ∧ List.intercalate sep tokens = text ∧
      ∀ t ∈ tokens, ¬ sep <:+: t := by
  obtain ⟨tokens, rest, h1, h2, h3⟩ := tokenize_loop_spec sep hsep fuel text io hlen
  refine ⟨tokens ++ [rest], ?_, by simp, h2, h3⟩
  rw [tokenize, h1]
  simp only []
  rw [cout_cout, cout_cout, lines_append]
  simp [lines]

/-- C11: for a non-empty separator `P`, the run on `tokenize S split by P` succeeds and writes
the lines of tokens `t1..tk`, `k ≥ 1`, each followed by a newline, such that
`t1 ++ P ++ t2 ++ ... ++ P ++ tk = S` and `P` occurs in no token. -/
theorem C11_tokenize_splits_everywhere (parse : List Char → Option Nat) (fuel : Nat)
    (prog S P : List Char) (hfuel : 34 < fuel) (hlen : S.length < fuel)
    (hS : NUL ∉ S) (hP : NUL ∉ P) (hne : P ≠ []) :
    ∃ tokens,
      main parse fuel [prog, "tokenize".toList, S, "split".toList, "by".toList, P] =
        some ⟨.exited EXIT_SUCCESS, lines tokens, []⟩ ∧
      1 ≤ tokens.length ∧ List.intercalate P tokens = S ∧ ∀ t ∈ tokens, ¬ P <:+: t := by
  have h1 : NUL ∉ "tokenize".toList := by decide
  have h2 : NUL ∉ "split".toList := by decide
  have h3 : NUL ∉ "by".toList := by decide
  have hnul : ∀ t ∈ [prog, "tokenize".toList, S, "split".toList, "by".toList, P].tail,
      NUL ∉ t := by
    intro t ht
    simp only [List.tail_cons, List.mem_cons, List.mem_singleton, List.not_mem_nil,
      or_false] at ht
    rcases ht with rfl | rfl | rfl | rfl | rfl <;> assumption
  have hw : split_words "tokenize ? split by ?".toList =
      ["tokenize".toList, ['?'], "split".toList, "by".toList, ['?']] := by decide
  have hmt := match_of_words "tokenize ? split by ?".toList (by decide) fuel
    [prog, "tokenize".toList, S, "split".toList, "by".toList, P] (by simp) hnul
    hfuel (by rw [hw]; simp [spec_match_words])
  obtain ⟨tokens, ht1, ht2, ht3, ht4⟩ := tokenize_spec P hne fuel S ⟨[], []⟩ hlen
  have hmain := main_of_row parse fuel
    [prog, "tokenize".toList, S, "split".toList, "by".toList, P] hnul hfuel
    "tokenize ? split by ?".toList [2, 5] (.looping (tokenize fuel))
    (by simp [main_table]) (by simp) hmt (cout ⟨[], []⟩ (lines tokens))
    (by
      simp only [run_row, ClArgs.get_arg, List.length_cons, List.length_nil]
      simp [ht1])
  refine ⟨tokens, ?_, ht2, ht3, ht4⟩
  rw [hmain]; simp [cout]

theorem C11_tokenize_splits_everywhere_witness :
    (∃ tokens,
      main parse_unsigned_int64_c_str 40 ["stringproc".toList, "tokenize".toList,
        "a,b,,c".toList, "split".toList, "by".toList, ",".toList] =
        some ⟨.exited EXIT_SUCCESS, lines tokens, []⟩ ∧
      1 ≤ tokens.length ∧ List.intercalate ",".toList tokens = "a,b,,c".toList ∧
      ∀ t ∈ tokens, ¬ ",".toList <:+: t) ∧
    main parse_unsigned_int64_c_str 40 ["stringproc".toList, "tokenize".toList,
        "a,b,,c".toList, "split".toList, "by".toList, ",".toList] =
      some ⟨.exited EXIT_SUCCESS, lines ["a".toList, "b".toList, [], "c".toList], []⟩ :=
  ⟨C11_tokenize_splits_everywhere parse_unsigned_int64_c_str 40 "stringproc".toList
    "a,b,,c".toList ",".toList (by decide) (by decide) (by decide) (by decide) (by decide),
    by decide⟩

/-- A run in which the template of a two-argument branch matches and the operation writes
`out` and returns normally. -/
theorem main_op2 (parse : List Char → Option Nat) (fuel : Nat) (argv : List (List Char))
    (hnul : ∀ t ∈ argv.tail, NUL ∉ t) (hfuel : 34 < fuel)
    (T : List Char) (i j : Nat)
    (f : List Char → List Char → Streams → Streams × Except Exn Unit)
    (hrow : (T, [i, j], Op.op2 f) ∈ main_table parse fuel (program_name argv))
    (hT : T ∈ templates) (hsm : spec_match_words (split_words T) argv.tail = true)
    (hargc : 2 ≤ argv.length) (hi : i < argv.length) (hj : j < argv.length)
    (out : List Char)
    (hf : f (argv.getD i []) (argv.getD j []) ⟨[], []⟩ = (cout ⟨[], []⟩ out, .ok ())) :
    main parse fuel argv = some ⟨.exited EXIT_SUCCESS, out, []⟩ := by
  have hm := match_of_words T hT fuel argv (by omega) hnul hfuel hsm
  have hmain := main_of_row parse fuel argv hnul hfuel T [i, j] (.op2 f) hrow hargc hm
    (cout ⟨[], []⟩ out)
    (by simp only [run_row, get_arg_ok argv i hi, get_arg_ok argv j hj, call2, hf])
  rw [hmain]; simp [cout]

theorem first_token_eq (S P : List Char) (io : Streams) :
    first_token S P io =
      (cout io (match find S P with
        | some i => S.take i
        | none => S), .ok ()) := by
  unfold first_token
  cases find S P with
  | none => rfl
  | some i =>
    simp only []
    rw [substr_ok S 0 (Nat.zero_le _)]
    simp [cout_substr]

theorem remove_first_token_eq (S P : List Char) (io : Streams) :
    remove_first_token S P io =
      (cout io (match find S P with
        | some i => S.drop (i + P.length)
        | none => []), .ok ()) := by
  unfold remove_first_token
  cases hf : find S P with
  | none => simp [cout_nil]
  | some i =>
    obtain ⟨hi, hpre, -⟩ := find_some S P i hf
    simp only []
    rw [substr_ok S _ ((split_at_occurrence S P i hpre).2 hi)]
    simp [cout_substr]

theorem last_token_eq (S P : List Char) (io : Streams) :
    last_token S P io =
      (cout io (match rfind S P with
        | some i => S.drop (i + P.length)
        | none => S), .ok ()) := by
  unfold last_token
  cases hf : rfind S P with
  | none => rfl
  | some i =>
    obtain ⟨hi, hpre, -⟩ := rfind_some S P i hf
    simp only []
    rw [substr_ok S _ ((split_at_occurrence S P i hpre).2 hi)]
    simp [cout_substr]

theorem remove_last_token_eq (S P : List Char) (io : Streams) :
    remove_last_token S P io =
      (cout io (match rfind S P with
        | some i => S.take i
        | none => []), .ok ()) := by
  unfold remove_last_token
  cases rfind S P with
  | none => simp [cout_nil]
  | some i =>
    simp only []
    rw [substr_ok S 0 (Nat.zero_le _)]
    simp [cout_substr]

/-- C12: the run on `last token of S split by P` and the run on `remove last token of S split
by P` succeed; when `P` occurs in `S`, the second output, `P` and the first output make up `S`,
the first output is what stands behind that occurrence, and a non-empty `P` does not occur in
it; when `P` does not occur in `S`, the first output is `S` and the second is empty. -/
theorem C12_last_token_splits_at_last (parse : List Char → Option Nat) (fuel : Nat)
    (prog S P : List Char) (hfuel : 34 < fuel) (hS : NUL ∉ S) (hP : NUL ∉ P) :
    ∃ last removed,
      main parse fuel [prog, "last".toList, "token".toList, "of".toList, S, "split".toList,
        "by".toList, P] = some ⟨.exited EXIT_SUCCESS, last, []⟩ ∧
      main parse fuel [prog, "remove".toList, "last".toList, "token".toList, "of".toList, S,
        "split".toList, "by".toList, P] = some ⟨.exited EXIT_SUCCESS, removed, []⟩ ∧
      (P <:+: S → removed ++ P ++ last = S ∧ last = S.drop (removed.length + P.length) ∧
        (P ≠ [] → ¬ P <:+: last)) ∧
      (¬ P <:+: S → last = S ∧ removed = []) := by
  have h1 : NUL ∉ "last".toList := by decide
  have h2 : NUL ∉ "token".toList := by decide
  have h3 : NUL ∉ "of".toList := by decide
  have h4 : NUL ∉ "split".toList := by decide
  have h5 : NUL ∉ "by".toList := by decide
  have h6 : NUL ∉ "remove".toList := by decide
  have hrun1 := main_op2 parse fuel
    [prog, "last".toList, "token".toList, "of".toList, S, "split".toList, "by".toList, P]
    (by
      intro t ht
      simp only [List.tail_cons, List.mem_cons, List.mem_singleton, List.not_mem_nil,
        or_false] at ht
      rcases ht with rfl | rfl | rfl | rfl | rfl | rfl | rfl <;> assumption)
    hfuel "last token of ? split by ?".toList 4 7 last_token (by simp [main_table])
    (by decide)
    (by
      have hw : split_words "last token of ? split by ?".toList =
          ["last".toList, "token".toList, "of".toList, ['?'], "split".toList, "by".toList,
            ['?']] := by decide
      rw [hw]; simp [spec_match_words])
    (by simp) (by simp) (by simp) _ (last_token_eq _ _ _)
  have hrun2 := main_op2 parse fuel
    [prog, "remove".toList, "last".toList, "token".toList, "of".toList, S, "split".toList,
      "by".toList, P]
    (by
      intro t ht
      simp only [List.tail_cons, List.mem_cons, List.mem_singleton, List.not_mem_nil,
        or_false] at ht
      rcases ht with rfl | rfl | rfl | rfl | rfl | rfl | rfl | rfl <;> assumption)
    hfuel "remove last token of ? split by ?".toList 5 8 remove_last_token
    (by simp [main_table]) (by decide)
    (by
      have hw : split_words "remove last token of ? split by ?".toList =
          ["remove".toList, "last".toList, "token".toList, "of".toList, ['?'],
            "split".toList, "by".toList, ['?']] := by decide
      rw [hw]; simp [spec_match_words])
    (by simp) (by simp) (by simp) _ (remove_last_token_eq _ _ _)
  simp only [List.getD_cons_succ, List.getD_cons_zero] at hrun1 hrun2
  refine ⟨_, _, hrun1, hrun2, ?_, ?_⟩
  · intro hin
    cases hf : rfind S P with
    | none => exact absurd hin ((rfind_eq_none_iff S P).mp hf)
    | some i =>
      obtain ⟨hi, hpre, hmax⟩ := rfind_some S P i hf
      simp only []
      have hlen : (S.take i).length = i := by simp only [List.length_take]; omega
      refine ⟨(split_at_occurrence S P i hpre).1.symm, by rw [hlen], fun hne => ?_⟩
      exact no_infix_behind_last S P i hne hmax
  · intro hnot
    rw [(rfind_eq_none_iff S P).mpr hnot]
    exact ⟨rfl, rfl⟩

theorem C12_last_token_splits_at_last_witness :
    (∃ last removed,
      main parse_unsigned_int64_c_str 40 ["stringproc".toList, "last".toList, "token".toList,
        "of".toList, "a/b/c".toList, "split".toList, "by".toList, "/".toList] =
        some ⟨.exited EXIT_SUCCESS, last, []⟩ ∧
      main parse_unsigned_int64_c_str 40 ["stringproc".toList, "remove".toList, "last".toList,
        "token".toList, "of".toList, "a/b/c".toList, "split".toList, "by".toList,
        "/".toList] = some ⟨.exited EXIT_SUCCESS, removed, []⟩ ∧
      ("/".toList <:+: "a/b/c".toList →
        removed ++ "/".toList ++ last = "a/b/c".toList ∧
        last = "a/b/c".toList.drop (removed.length + "/".toList.length) ∧
        ("/".toList ≠ [] → ¬ "/".toList <:+: last)) ∧
      (¬ "/".toList <:+: "a/b/c".toList → last = "a/b/c".toList ∧ removed = [])) ∧
    main parse_unsigned_int64_c_str 40 ["stringproc".toList, "last".toList, "token".toList,
        "of".toList, "a/b/c".toList, "split".toList, "by".toList, "/".toList] =
      some ⟨.exited EXIT_SUCCESS, "c".toList, []⟩ ∧
    main parse_unsigned_int64_c_str 40 ["stringproc".toList, "remove".toList, "last".toList,
        "token".toList, "of".toList, "a/b/c".toList, "split".toList, "by".toList,
        "/".toList] = some ⟨.exited EXIT_SUCCESS, "a/b".toList, []⟩ :=
  ⟨C12_last_token_splits_at_last parse_unsigned_int64_c_str 40 "stringproc".toList
    "a/b/c".toList "/".toList (by decide) (by decide) (by decide), by decide, by decide⟩

/-- C13: the run on `first token of S split by P` and the run on `remove first token of S
split by P` succeed; when `P` occurs in `S`, the first output, `P` and the second output make
up `S`, and a non-empty `P` does not occur in the first output; when `P` does not occur in
`S`, the first output is `S` and the second is empty. -/
theorem C13_first_token_splits_at_first (parse : List Char → Option Nat) (fuel : Nat)
    (prog S P : List Char) (hfuel : 34 < fuel) (hS : NUL ∉ S) (hP : NUL ∉ P) :
    ∃ first removed,
      main parse fuel [prog, "first".toList, "token".toList, "of".toList, S, "split".toList,
        "by".toList, P] = some ⟨.exited EXIT_SUCCESS, first, []⟩ ∧
      main parse fuel [prog, "remove".toList, "first".toList, "token".toList, "of".toList, S,
        "split".toList, "by".toList, P] = some ⟨.exited EXIT_SUCCESS, removed, []⟩ ∧
      (P <:+: S → first ++ P ++ removed = S ∧ (P ≠ [] → ¬ P <:+: first)) ∧
      (¬ P <:+: S → first = S ∧ removed = []) := by
  have h1 : NUL ∉ "first".toList := by decide
  have h2 : NUL ∉ "token".toList := by decide
  have h3 : NUL ∉ "of".toList := by decide
  have h4 : NUL ∉ "split".toList := by decide
  have h5 : NUL ∉ "by".toList := by decide
  have h6 : NUL ∉ "remove".toList := by decide
  have hrun1 := main_op2 parse fuel
    [prog, "first".toList, "token".toList, "of".toList, S, "split".toList, "by".toList, P]
    (by
      intro t ht
      simp only [List.tail_cons, List.mem_cons, List.mem_singleton, List.not_mem_nil,
        or_false] at ht
      rcases ht with rfl | rfl | rfl | rfl | rfl | rfl | rfl <;> assumption)
    hfuel "first token of ? split by ?".toList 4 7 first_token (by simp [main_table])
    (by decide)
    (by
      have hw : split_words "first token of ? split by ?".toList =
          ["first".toList, "token".toList, "of".toList, ['?'], "split".toList, "by".toList,
            ['?']] := by decide
      rw [hw]; simp [spec_match_words])
    (by simp) (by simp) (by simp) _ (first_token_eq _ _ _)
  have hrun2 := main_op2 parse fuel
    [prog, "remove".toList, "first".toList, "token".toList, "of".toList, S, "split".toList,
      "by".toList, P]
    (by
      intro t ht
      simp only [List.tail_cons, List.mem_cons, List.mem_singleton, List.not_mem_nil,
        or_false] at ht
      rcases ht with rfl | rfl | rfl | rfl | rfl | rfl | rfl | rfl <;> assumption)
    hfuel "remove first token of ? split by ?".toList 5 8 remove_first_token
    (by simp [main_table]) (by decide)
    (by
      have hw : split_words "remove first token of ? split by ?".toList =
          ["remove".toList, "first".toList, "token".toList, "of".toList, ['?'],
            "split".toList, "by".toList, ['?']] := by decide
      rw [hw]; simp [spec_match_words])
    (by simp) (by simp) (by simp) _ (remove_first_token_eq _ _ _)
  simp only [List.getD_cons_succ, List.getD_cons_zero] at hrun1 hrun2
  refine ⟨_, _, hrun1, hrun2, ?_, ?_⟩
  · intro hin
    cases hf : find S P with
    | none => exact absurd hin ((find_eq_none_iff S P).mp hf)
    | some i =>
      obtain ⟨hi, hpre, hmin⟩ := find_some S P i hf
      simp only []
      exact ⟨(split_at_occurrence S P i hpre).1.symm,
        fun hne => no_infix_before_first S P i hne hmin⟩
  · intro hnot
    rw [(find_eq_none_iff S P).mpr hnot]
    exact ⟨rfl, rfl⟩

theorem C13_first_token_splits_at_first_witness :
    ∃ first removed,
      main parse_unsigned_int64_c_str 40 ["stringproc".toList, "first".toList,
        "token".toList, "of".toList, "a/b/c".toList, "split".toList, "by".toList,
        "/".toList] = some ⟨.exited EXIT_SUCCESS, first, []⟩ ∧
      main parse_unsigned_int64_c_str 40 ["stringproc".toList, "remove".toList,
        "first".toList, "token".toList, "of".toList, "a/b/c".toList, "split".toList,
        "by".toList, "/".toList] = some ⟨.exited EXIT_SUCCESS, removed, []⟩ ∧
      ("/".toList <:+: "a/b/c".toList →
        first ++ "/".toList ++ removed = "a/b/c".toList ∧
        ("/".toList ≠ [] → ¬ "/".toList <:+: first)) ∧
      (¬ "/".toList <:+: "a/b/c".toList → first = "a/b/c".toList ∧ removed = []) :=
  C13_first_token_splits_at_first parse_unsigned_int64_c_str 40 "stringproc".toList
    "a/b/c".toList "/".toList (by decide) (by decide) (by decide)

theorem char_at_ok (parse : List Char → Option Nat) (exe n_spec S : List Char)
    (io : Streams) (N : Nat) (hN : parse n_spec = some N) (hN1 : N < 2 ^ 64 - 1) :
    char_at parse exe n_spec S io =
      (cout io (if h : N < S.length then [S[N]] else []), .ok ()) := by
  unfold char_at
  rw [to_size_accepted parse exe n_spec io N hN hN1]
  simp only [strlen]
  by_cases h : N < S.length
  · rw [if_pos h, dif_pos h]
    simp [cstr_at, List.getD_eq_getElem?_getD, List.getElem?_eq_getElem h]
  · rw [if_neg h, dif_neg h, cout_nil]

/-- C14: for a valid number `N`, the run on `char at N in S` succeeds; it writes the byte of
`S` at the offset `N` when `N < len(S)` and nothing otherwise. -/
theorem C14_char_at_bounds_checked (parse : List Char → Option Nat) (fuel : Nat)
    (prog n_spec S : List Char) (N : Nat) (hfuel : 34 < fuel)
    (hn : NUL ∉ n_spec) (hS : NUL ∉ S)
    (hN : parse n_spec = some N) (hN1 : N < 2 ^ 64 - 1) :
    main parse fuel [prog, "char".toList, "at".toList, n_spec, "in".toList, S] =
      some ⟨.exited EXIT_SUCCESS, if h : N < S.length then [S[N]] else [], []⟩ := by
  have h1 : NUL ∉ "char".toList := by decide
  have h2 : NUL ∉ "at".toList := by decide
  have h3 : NUL ∉ "in".toList := by decide
  exact main_op2 parse fuel [prog, "char".toList, "at".toList, n_spec, "in".toList, S]
    (by
      intro t ht
      simp only [List.tail_cons, List.mem_cons, List.mem_singleton, List.not_mem_nil,
        or_false] at ht
      rcases ht with rfl | rfl | rfl | rfl | rfl <;> assumption)
    hfuel "char at ? in ?".toList 3 5
    (char_at parse (program_name [prog, "char".toList, "at".toList, n_spec, "in".toList, S]))
    (by simp [main_table]) (by decide)
    (by
      have hw : split_words "char at ? in ?".toList =
          ["char".toList, "at".toList, ['?'], "in".toList, ['?']] := by decide
      rw [hw]; simp [spec_match_words])
    (by simp) (by simp) (by simp) _ (char_at_ok parse _ n_spec S _ N hN hN1)

theorem C14_char_at_bounds_checked_witness :
    main parse_unsigned_int64_c_str 40 ["stringproc".toList, "char".toList, "at".toList,
        "1".toList, "in".toList, "abc".toList] =
      some ⟨.exited EXIT_SUCCESS,
        if h : 1 < "abc".toList.length then ["abc".toList[1]] else [], []⟩ :=
  C14_char_at_bounds_checked parse_unsigned_int64_c_str 40 "stringproc".toList "1".toList
    "abc".toList 1 (by decide) (by decide) (by decide) (by decide) (by decide)

theorem index_eq (P S : List Char) (io : Streams) :
    index P S io =
      (cout io (match find S P with
        | some i => show_size i
        | none => "-1".toList), .ok ()) := by
  unfold index
  cases find S P <;> rfl

theorem show_size_eq_repr (n : Nat) : show_size n = (Nat.repr n).toList := rfl

/-- C15: the run on `index of P in S` succeeds; when `P` occurs in `S` it writes the decimal
form of the least `i` with `S[i .. i+len(P)) = P`, and when `P` does not occur it writes
`-1`. -/
theorem C15_index_is_first_offset (parse : List Char → Option Nat) (fuel : Nat)
    (prog P S : List Char) (hfuel : 34 < fuel) (hP : NUL ∉ P) (hS : NUL ∉ S) :
    ∃ out,
      main parse fuel [prog, "index".toList, "of".toList, P, "in".toList, S] =
        some ⟨.exited EXIT_SUCCESS, out, []⟩ ∧
      (P <:+: S → ∃ i, out = (Nat.repr i).toList ∧ i + P.length ≤ S.length ∧
        (S.drop i).take P.length = P ∧ ∀ j, j < i → (S.drop j).take P.length ≠ P) ∧
      (¬ P <:+: S → out = "-1".toList) := by
  have h1 : NUL ∉ "index".toList := by decide
  have h2 : NUL ∉ "of".toList := by decide
  have h3 : NUL ∉ "in".toList := by decide
  have hrun := main_op2 parse fuel [prog, "index".toList, "of".toList, P, "in".toList, S]
    (by
      intro t ht
      simp only [List.tail_cons, List.mem_cons, List.mem_singleton, List.not_mem_nil,
        or_false] at ht
      rcases ht with rfl | rfl | rfl | rfl | rfl <;> assumption)
    hfuel "index of ? in ?".toList 3 5 index (by simp [main_table]) (by decide)
    (by
      have hw : split_words "index of ? in ?".toList =
          ["index".toList, "of".toList, ['?'], "in".toList, ['?']] := by decide
      rw [hw]; simp [spec_match_words])
    (by simp) (by simp) (by simp) _ (index_eq _ _ _)
  simp only [List.getD_cons_succ, List.getD_cons_zero] at hrun
  refine ⟨_, hrun, ?_, ?_⟩
  · intro hin
    cases hf : find S P with
    | none => exact absurd hin ((find_eq_none_iff S P).mp hf)
    | some i =>
      obtain ⟨hi, hpre, hmin⟩ := find_some S P i hf
      refine ⟨i, show_size_eq_repr i, (split_at_occurrence S P i hpre).2 hi,
        (List.prefix_iff_eq_take.mp hpre).symm, fun j hj heq => ?_⟩
      exact hmin j hj (List.prefix_iff_eq_take.mpr heq.symm)
  · intro hnot
    rw [(find_eq_none_iff S P).mpr hnot]

theorem C15_index_is_first_offset_witness :
    (∃ out,
      main parse_unsigned_int64_c_str 40 ["stringproc".toList, "index".toList, "of".toList,
        "xy".toList, "in".toList, "abcxydef".toList] = some ⟨.exited EXIT_SUCCESS, out, []⟩ ∧
      ("xy".toList <:+: "abcxydef".toList →
        ∃ i, out = (Nat.repr i).toList ∧ i + "xy".toList.length ≤ "abcxydef".toList.length ∧
        ("abcxydef".toList.drop i).take "xy".toList.length = "xy".toList ∧
        ∀ j, j < i → ("abcxydef".toList.drop j).take "xy".toList.length ≠ "xy".toList) ∧
      (¬ "xy".toList <:+: "abcxydef".toList → out = "-1".toList)) ∧
    main parse_unsigned_int64_c_str 40 ["stringproc".toList, "index".toList, "of".toList,
        "xy".toList, "in".toList, "abcxydef".toList] =
      some ⟨.exited EXIT_SUCCESS, "3".toList, []⟩ ∧
    main parse_unsigned_int64_c_str 40 ["stringproc".toList, "index".toList, "of".toList,
        "zz".toList, "in".toList, "abc".toList] =
      some ⟨.exited EXIT_SUCCESS, "-1".toList, []⟩ :=
  ⟨C15_index_is_first_offset parse_unsigned_int64_c_str 40 "stringproc".toList "xy".toList
    "abcxydef".toList (by decide) (by decide) (by decide), by decide, by decide⟩

theorem cout_substr_in_range (io : Streams) (s : List Char) (pos : Nat) (count : Option Nat)
    (h : pos ≤ s.length) : (cout_substr io (substr s pos count)).2 = .ok () := by
  rw [substr_ok s pos h]; rfl

theorem first_part_no_fault (parse : List Char → Option Nat) (exe spec text : List Char)
    (io : Streams) : (first_part parse exe spec text io).2 ≠ .error .out_of_range := by
  unfold first_part
  rcases to_size_cases parse exe spec io with ⟨v, hv⟩ | ⟨io1, h1, -⟩
  · rw [hv]; simp only []
    rw [cout_substr_in_range io text 0 _ (Nat.zero_le _)]
    exact fun h => Except.noConfusion h
  · rw [h1]; simp

theorem last_part_no_fault (parse : List Char → Option Nat) (exe spec text : List Char)
    (io : Streams) : (last_part parse exe spec text io).2 ≠ .error .out_of_range := by
  unfold last_part
  rcases to_size_cases parse exe spec io with ⟨v, hv⟩ | ⟨io1, h1, -⟩
  · rw [hv]; simp only []
    rw [cout_substr_in_range io text _ _ (Nat.sub_le _ _)]
    exact fun h => Except.noConfusion h
  · rw [h1]; simp

theorem last_part_checked_eq (parse : List Char → Option Nat) (exe spec text : List Char)
    (io : Streams) :
    last_part_checked parse exe spec text io = some (last_part parse exe spec text io) := by
  unfold last_part_checked last_part
  rcases to_size_cases parse exe spec io with ⟨v, hv⟩ | ⟨io1, h1, -⟩
  · rw [hv]; simp only [size_sub]
    rw [if_pos (Nat.min_le_right _ _)]
  · rw [h1]

theorem substring_checked_eq (parse : List Char → Option Nat)
    (exe start_spec end_spec text : List Char) (io : Streams) :
    substring_checked parse exe start_spec end_spec text io =
      some (substring parse exe start_spec end_spec text io) := by
  unfold substring_checked substring
  simp only []
  rcases to_size_cases parse exe start_spec io with ⟨v, hv⟩ | ⟨io1, h1, -⟩
  · rw [hv]; simp only []
    cases hc : strcmp_eq "end".toList end_spec with
    | true =>
      simp only [if_true]
      rw [if_pos (Nat.min_le_right _ _), if_pos (Nat.min_le_right _ _)]
      simp only [size_sub]
      rw [if_pos (Nat.min_le_right _ _)]
    | false =>
      simp only [Bool.false_eq_true, if_false]
      rcases to_size_cases parse exe end_spec io with ⟨w, hw⟩ | ⟨io2, h2, -⟩
      · rw [hw]; simp only []
        by_cases hle : min v text.length ≤ min w text.length
        · rw [if_pos hle, if_pos hle]
          simp only [size_sub]
          rw [if_pos hle]
        · rw [if_neg hle, if_neg hle]
      · rw [h2]
  · rw [h1]

theorem substring_no_fault (parse : List Char → Option Nat)
    (exe start_spec end_spec text : List Char) (io : Streams) :
    (substring parse exe start_spec end_spec text io).2 ≠ .error .out_of_range := by
  unfold substring
  simp only []
  rcases to_size_cases parse exe start_spec io with ⟨v, hv⟩ | ⟨io1, h1, -⟩
  · rw [hv]; simp only []
    cases hc : strcmp_eq "end".toList end_spec with
    | true =>
      simp only [if_true]
      rw [if_pos (Nat.min_le_right _ _),
        cout_substr_in_range io text _ _ (Nat.min_le_right _ _)]
      exact fun h => Except.noConfusion h
    | false =>
      simp only [Bool.false_eq_true, if_false]
      rcases to_size_cases parse exe end_spec io with ⟨w, hw⟩ | ⟨io2, h2, -⟩
      · rw [hw]; simp only []
        by_cases hle : min v text.length ≤ min w text.length
        · rw [if_pos hle, cout_substr_in_range io text _ _ (Nat.min_le_right _ _)]
          exact fun h => Except.noConfusion h
        · rw [if_neg hle]
          exact fun h => Except.noConfusion h
      · rw [h2]; simp
  · rw [h1]; simp

theorem char_at_checked_eq (parse : List Char → Option Nat) (exe spec text : List Char)
    (io : Streams) :
    char_at_checked parse exe spec text io = some (char_at parse exe spec text io) := by
  unfold char_at_checked char_at
  rcases to_size_cases parse exe spec io with ⟨v, hv⟩ | ⟨io1, h1, -⟩
  · rw [hv]; simp only [strlen]
    by_cases h : v < text.length
    · rw [if_pos h, if_pos h]
      simp [byte_at, cstr_at, List.getD_eq_getElem?_getD, List.getElem?_eq_getElem h]
    · rw [if_neg h, if_neg h]
  · rw [h1]

/-- The loop of `tokenize` never leaves with an exception, whatever the separator. -/
theorem tokenize_loop_no_fault (sep : List Char) :
    ∀ (fuel : Nat) (text : List Char) (io : Streams) (r : Streams × Except Exn (List Char)),
      tokenize_loop sep fuel text io = some r → ∃ rest, r.2 = .ok rest := by
  intro fuel
  induction fuel with
  | zero => intro text io r h; simp [tokenize_loop] at h
  | succ f ih =>
    intro text io r h
    rw [tokenize_loop] at h
    cases hf : find text sep with
    | none =>
      rw [hf] at h
      simp only [Option.some.injEq] at h
      exact ⟨text, by rw [← h]⟩
    | some i =>
      obtain ⟨hi, hpre, -⟩ := find_some text sep i hf
      rw [hf] at h
      simp only [] at h
      rw [substr_ok text 0 (Nat.zero_le _),
        substr_ok text _ ((split_at_occurrence text sep i hpre).2 hi)] at h
      exact ih _ _ r h

theorem tokenize_no_fault (fuel : Nat) (text sep : List Char) (io : Streams)
    (r : Streams × Except Exn Unit) (h : tokenize fuel text sep io = some r) :
    r.2 = .ok () := by
  unfold tokenize at h
  cases hl : tokenize_loop sep fuel text io with
  | none => rw [hl] at h; exact Option.noConfusion h
  | some r1 =>
    obtain ⟨rest, hrest⟩ := tokenize_loop_no_fault sep fuel text io r1 hl
    obtain ⟨io1, e1⟩ := r1
    simp only at hrest
    subst hrest
    rw [hl] at h
    simp only [Option.some.injEq] at h
    rw [← h]

/-- C16: no operation faults on a position out of range.  Whatever the strings, the separator
and the numeric arguments are: `first_part`, `last_part`, `substring`, the four token
operations, `tokenize` and the trim functions never leave with `std::out_of_range`, that is
every `substr` call has a start position within the string; the subtractions of `last_part`
and `substring` never underflow and `char_at` never reads at an offset that is not one of the
string, that is the checked functions never fail and return what the functions return. -/
theorem C16_no_out_of_range_fault (parse : List Char → Option Nat)
    (exe a b text sep : List Char) (io : Streams) (fuel : Nat) :
    (first_part parse exe a text io).2 ≠ .error .out_of_range ∧
    (last_part parse exe a text io).2 ≠ .error .out_of_range ∧
    (substring parse exe a b text io).2 ≠ .error .out_of_range ∧
    (first_token text sep io).2 = .ok () ∧
    (last_token text sep io).2 = .ok () ∧
    (remove_first_token text sep io).2 = .ok () ∧
    (remove_last_token text sep io).2 = .ok () ∧
    (∀ r, tokenize fuel text sep io = some r → r.2 = .ok ()) ∧
    trim_leading_impl text = .ok (trim_leading_result text) ∧
    trim_trailing_impl text = .ok (trim_trailing_result text) ∧
    (trim_all text io).2 = .ok () ∧
    last_part_checked parse exe a text io = some (last_part parse exe a text io) ∧
    substring_checked parse exe a b text io = some (substring parse exe a b text io) ∧
    char_at_checked parse exe a text io = some (char_at parse exe a text io) := by
  refine ⟨first_part_no_fault parse exe a text io, last_part_no_fault parse exe a text io,
    substring_no_fault parse exe a b text io, ?_, ?_, ?_, ?_,
    fun r h => tokenize_no_fault fuel text sep io r h, trim_leading_impl_eq text,
    trim_trailing_impl_eq text, ?_, last_part_checked_eq parse exe a text io,
    substring_checked_eq parse exe a b text io, char_at_checked_eq parse exe a text io⟩
  · rw [first_token_eq]
  · rw [last_token_eq]
  · rw [remove_first_token_eq]
  · rw [remove_last_token_eq]
  · rw [trim_all_eq]

theorem find_nil_part (text : List Char) : find text [] = some 0 := by
  cases text with
  | nil => simp [find]
  | cons c cs => simp [find]

/-- With the empty separator the loop of `tokenize` uses up any fuel: every iteration finds the
separator at the offset 0 and leaves the text as it is. -/
theorem tokenize_loop_nil_sep : ∀ (fuel : Nat) (text : List Char) (io : Streams),
    tokenize_loop [] fuel text io = none := by
  intro fuel
  induction fuel with
  | zero => intro text io; rfl
  | succ f ih =>
    intro text io
    rw [tokenize_loop, find_nil_part]
    simp only []
    rw [substr_ok text 0 (Nat.zero_le _), substr_ok text _ (by simp)]
    simp only [List.length_nil, Nat.add_zero, List.drop_zero]
    exact ih _ _

theorem main_of_none (parse : List Char → Option Nat) (fuel : Nat) (argv : List (List Char))
    (h : main_try parse fuel argv (program_name argv) ⟨[], []⟩ = none) :
    main parse fuel argv = none := by
  unfold main
  simp only []
  rw [h]

/-- C17: with the empty separator the loop of `tokenize` does not end: no amount of fuel lets
`tokenize` return, and the run on `tokenize abc split by ""` does not return however much fuel
it is given. -/
theorem C17_tokenize_empty_separator_diverges :
    (∀ (fuel : Nat) (text : List Char) (io : Streams), tokenize fuel text [] io = none) ∧
    ∀ (parse : List Char → Option Nat) (fuel : Nat),
      main parse (fuel + 35) ["stringproc".toList, "tokenize".toList, "abc".toList,
        "split".toList, "by".toList, []] = none := by
  have hloop : ∀ (fuel : Nat) (text : List Char) (io : Streams),
      tokenize fuel text [] io = none := by
    intro fuel text io
    unfold tokenize
    rw [tokenize_loop_nil_sep]
  refine ⟨hloop, fun parse fuel => ?_⟩
  apply main_of_none
  have hnul : ∀ t ∈ ["stringproc".toList, "tokenize".toList, "abc".toList, "split".toList,
      "by".toList, []].tail, NUL ∉ t := by decide
  have hm := match_of_words "tokenize ? split by ?".toList (by decide) (fuel + 35)
    ["stringproc".toList, "tokenize".toList, "abc".toList, "split".toList, "by".toList, []]
    (by simp) hnul (by omega) (by decide)
  rw [main_try_of_match parse (fuel + 35) _ _ _ hnul (by omega)
    "tokenize ? split by ?".toList [2, 5] (.looping (tokenize (fuel + 35)))
    (by simp [main_table]) (by simp) hm]
  simp only [run_row, ClArgs.get_arg, List.length_cons, List.length_nil]
  simp [hloop]

theorem cmp_len_le : ∀ (t u : List Char), cmp_len t u ≤ t.length ∧ cmp_len t u ≤ u.length := by
  intro t
  induction t with
  | nil => intro u; simp [cmp_len]
  | cons a t ih =>
    intro u
    cases u with
    | nil => simp [cmp_len]
    | cons b u =>
      simp only [cmp_len, List.length_cons]
      by_cases h : a ≠ NUL ∧ b ≠ NUL ∧ b ≠ ' ' ∧ a = b
      · rw [if_pos h]
        have := ih u
        omega
      · rw [if_neg h]
        omega

theorem match_rest_nil (toks : List (List Char)) : match_rest [] toks = toks.isEmpty := by
  rw [match_rest]

theorem match_rest_cons_nil (c : Char) (r : List Char) : match_rest (c :: r) [] = false := by
  rw [match_rest]

theorem match_rest_cons_cons (c : Char) (r t : List Char) (ts : List (List Char)) :
    match_rest (c :: r) (t :: ts) =
      if c = '?' then match_rest r ts
      else if c = ' ' then match_rest r (t :: ts)
      else if cstr_at t (cmp_len t (c :: r)) = NUL ∧
          (cstr_at (c :: r) (cmp_len t (c :: r)) = NUL ∨
            cstr_at (c :: r) (cmp_len t (c :: r)) = ' ') then
        match_rest (r.drop (cmp_len t (c :: r))) ts
      else false := by
  rw [match_rest]

/-- The outer loop of `ClArgs::match` ends for every template, and its result is that of
`match_rest` on what is left of the template and of the tokens. -/
theorem match_loop_rest (argv : List (List Char)) (spec : List Char) :
    ∀ (fuel ai si : Nat), ai ≤ argv.length → si ≤ spec.length + 1 →
      spec.length + 2 ≤ fuel + si →
      ∃ a s, ClArgs.match_loop ⟨argv.length, argv⟩ spec fuel ai si = some (a, s) ∧
        ((a = argv.length ∧ spec.length ≤ s) ↔
          match_rest (spec.drop si) (argv.drop ai) = true) := by
  intro fuel
  induction fuel with
  | zero => intro ai si _ h1 h2; omega
  | succ f ih =>
    intro ai si hai hsi hfuel
    by_cases hcond : ai < argv.length ∧ si < strlen spec
    · obtain ⟨hai_lt, hsi_lt⟩ := hcond
      simp only [strlen] at hsi_lt
      obtain ⟨c, r, hd⟩ : ∃ c r, spec.drop si = c :: r := by
        cases hd : spec.drop si with
        | nil =>
          have := congrArg List.length hd
          simp only [List.length_drop, List.length_nil] at this
          omega
        | cons c r => exact ⟨c, r, rfl⟩
      obtain ⟨t, ts, hts⟩ : ∃ t ts, argv.drop ai = t :: ts := by
        cases hts : argv.drop ai with
        | nil =>
          have := congrArg List.length hts
          simp only [List.length_drop, List.length_nil] at this
          omega
        | cons t ts => exact ⟨t, ts, rfl⟩
      obtain ⟨-, hc, hr⟩ := drop_cons_info spec si c NUL r hd
      obtain ⟨-, ht, hts1⟩ := drop_cons_info argv ai t [] ts hts
      have hc1 : cstr_at spec si = c := hc
      have hlen : spec.length = si + (r.length + 1) := by
        have := congrArg List.length hd
        simp only [List.length_drop, List.length_cons] at this
        omega
      rw [hd, hts, match_rest_cons_cons]
      by_cases hq : c = '?'
      · have hstep : ClArgs.match_loop ⟨argv.length, argv⟩ spec (f + 1) ai si =
            ClArgs.match_loop ⟨argv.length, argv⟩ spec f (ai + 1) (si + 1) := by
          rw [ClArgs.match_loop, if_pos ⟨hai_lt, hsi_lt⟩, hc1, if_neg (by simp [hq])]
        rw [hstep, if_pos hq]
        have := ih (ai + 1) (si + 1) (by omega) (by omega) (by omega)
        rwa [hr, hts1] at this
      · by_cases hs : c = ' '
        · have hstep : ClArgs.match_loop ⟨argv.length, argv⟩ spec (f + 1) ai si =
              ClArgs.match_loop ⟨argv.length, argv⟩ spec f ai (si + 1) := by
            rw [ClArgs.match_loop, if_pos ⟨hai_lt, hsi_lt⟩, hc1, if_pos hq,
              if_neg (by simp [hs])]
          rw [hstep, if_neg hq, if_pos hs]
          have := ih ai (si + 1) hai (by omega) (by omega)
          rwa [hr, hts] at this
        · have hn := (cmp_len_le t (c :: r)).2
          simp only [List.length_cons] at hn
          have hcmp : ClArgs.match_cmp (argv.getD ai []) spec (f + 1) si 0 =
              some (si + cmp_len t (c :: r), 0 + cmp_len t (c :: r)) := by
            have hlt : cmp_len t (c :: r) < f + 1 := by omega
            have := match_cmp_eq (argv.getD ai []) spec (f + 1) si 0
            rw [ht, hd, List.drop_zero] at this
            rw [ht]
            exact this hlt
          have hat : cstr_at spec (si + cmp_len t (c :: r)) =
              cstr_at (c :: r) (cmp_len t (c :: r)) := by
            rw [← cstr_at_drop, hd]
          rw [if_neg hq, if_neg hs]
          by_cases hok : cstr_at t (cmp_len t (c :: r)) = NUL ∧
              (cstr_at (c :: r) (cmp_len t (c :: r)) = NUL ∨
                cstr_at (c :: r) (cmp_len t (c :: r)) = ' ')
          · have hstep : ClArgs.match_loop ⟨argv.length, argv⟩ spec (f + 1) ai si =
                ClArgs.match_loop ⟨argv.length, argv⟩ spec f (ai + 1)
                  (si + cmp_len t (c :: r) + 1) := by
              rw [ClArgs.match_loop, if_pos ⟨hai_lt, hsi_lt⟩, hc1, if_pos hq, if_pos hs, hcmp]
              simp only [Nat.zero_add]
              rw [ht, hat, if_pos hok]
            rw [hstep, if_pos hok]
            have := ih (ai + 1) (si + cmp_len t (c :: r) + 1) (by omega) (by omega) (by omega)
            have hd2 : spec.drop (si + cmp_len t (c :: r) + 1) =
                r.drop (cmp_len t (c :: r)) := by
              rw [show si + cmp_len t (c :: r) + 1 = si + 1 + cmp_len t (c :: r) by omega,
                drop_add_eq, hr]
            rwa [hd2, hts1] at this
          · refine ⟨ai, si + cmp_len t (c :: r), ?_, ?_⟩
            · rw [ClArgs.match_loop, if_pos ⟨hai_lt, hsi_lt⟩, hc1, if_pos hq, if_pos hs, hcmp]
              simp only [Nat.zero_add]
              rw [ht, hat, if_neg hok]
            · rw [if_neg hok]
              simp only [Bool.false_eq_true, iff_false, not_and]
              intro h; omega
    · refine ⟨ai, si, ?_, ?_⟩
      · rw [ClArgs.match_loop, if_neg hcond]
      · simp only [strlen, not_and, not_lt] at hcond
        by_cases hsl : spec.length ≤ si
        · rw [List.drop_eq_nil_of_le hsl, match_rest_nil]
          have hl : (argv.drop ai).length = argv.length - ai := by simp
          cases hts : argv.drop ai with
          | nil =>
            rw [hts] at hl
            simp only [List.length_nil] at hl
            simp only [List.isEmpty_nil, iff_true]
            exact ⟨by omega, hsl⟩
          | cons t ts =>
            rw [hts] at hl
            simp only [List.length_cons] at hl
            simp only [List.isEmpty_cons, Bool.false_eq_true, iff_false, not_and]
            intro h; omega
        · have hge : argv.length ≤ ai := by
            by_contra hlt
            exact hsl (hcond (by omega))
          rw [List.drop_eq_nil_of_le hge]
          obtain ⟨c, r, hd⟩ : ∃ c r, spec.drop si = c :: r := by
            cases hd : spec.drop si with
            | nil =>
              have := congrArg List.length hd
              simp only [List.length_drop, List.length_nil] at this
              omega
            | cons c r => exact ⟨c, r, rfl⟩
          rw [hd, match_rest_cons_nil]
          simp only [Bool.false_eq_true, iff_false, not_and]
          intro _; exact hsl

/-- The method `ClArgs::match` returns for every template with any fuel above its length
plus 1, and its result is `match_rest` of the template and the tokens `argv[1..]`. -/
theorem match_eq_rest (spec : List Char) (argv : List (List Char)) (fuel : Nat)
    (hargc : 1 ≤ argv.length) (hfuel : spec.length + 1 < fuel) :
    ClArgs.match_ ⟨argv.length, argv⟩ fuel spec = some (match_rest spec argv.tail) := by
  obtain ⟨a, s, hloop, hiff⟩ := match_loop_rest argv spec fuel 1 0 hargc (by omega) (by omega)
  rw [List.drop_zero, List.drop_one] at hiff
  unfold ClArgs.match_
  rw [hloop]
  simp only [strlen, Option.some.injEq]
  cases hb : match_rest spec argv.tail with
  | true =>
    obtain ⟨h1, h2⟩ := hiff.mpr hb
    simp [h1, h2]
  | false =>
    rw [hb] at hiff
    by_cases h1 : a = argv.length
    · have h2 : ¬ spec.length ≤ s := fun h2 => by simpa using hiff.mp ⟨h1, h2⟩
      simp [h1, h2]
    · simp [h1]

theorem read_cstr_ok (s : List Char) (i : Nat) (h : i ≤ s.length) :
    read_cstr s i = some (cstr_at s i) := by
  unfold read_cstr
  rw [if_pos h]

theorem read_arg_ok (argv : List (List Char)) (i : Nat) (h1 : 1 ≤ i) (h2 : i < argv.length) :
    ClArgs.read_arg ⟨argv.length, argv⟩ i = some (argv.getD i []) := by
  unfold ClArgs.read_arg
  rw [if_pos ⟨h1, h2⟩]
  simp [List.getD_eq_getElem?_getD, List.getElem?_eq_getElem h2]

/-- The inner loop with checked reads never faults: it reads the token and the template up to
their terminators only, and computes what the inner loop computes. -/
theorem match_cmp_checked_eq (arg arg_spec : List Char) :
    ∀ (fuel s c : Nat), c ≤ arg.length → s ≤ arg_spec.length →
      cmp_len (arg.drop c) (arg_spec.drop s) < fuel →
      ClArgs.match_cmp_checked arg arg_spec fuel s c =
        .done (s + cmp_len (arg.drop c) (arg_spec.drop s),
               c + cmp_len (arg.drop c) (arg_spec.drop s)) := by
  intro fuel
  induction fuel with
  | zero => intro s c _ _ h; omega
  | succ fuel ih =>
    intro s c hc hs h
    have ha : cstr_at arg c = cstr_at (arg.drop c) 0 := by simp [cstr_at_drop]
    have hsp : cstr_at arg_spec s = cstr_at (arg_spec.drop s) 0 := by simp [cstr_at_drop]
    have hda : arg.drop (c + 1) = (arg.drop c).tail := by simp [List.tail_drop]
    have hds : arg_spec.drop (s + 1) = (arg_spec.drop s).tail := by simp [List.tail_drop]
    have hla : (arg.drop c).length = arg.length - c := by simp
    have hls : (arg_spec.drop s).length = arg_spec.length - s := by simp
    rw [ClArgs.match_cmp_checked, read_cstr_ok arg c hc, read_cstr_ok arg_spec s hs]
    simp only []
    rw [ha, hsp]
    have ih1 := ih (s + 1) (c + 1)
    rw [hda, hds] at ih1
    revert h ih1 hla hls
    cases arg.drop c with
    | nil => intro h _ _ ih1; simp [cstr_at_nil, cmp_len]
    | cons a as =>
      cases arg_spec.drop s with
      | nil => intro h _ _ ih1; simp [cstr_at_nil, cstr_at_cons_zero, cmp_len]
      | cons b bs =>
        intro h hla hls ih1
        simp only [cstr_at_cons_zero, cmp_len, List.tail_cons, List.length_cons] at h ih1 hla hls ⊢
        by_cases hcond : a ≠ NUL ∧ b ≠ NUL ∧ b ≠ ' ' ∧ a = b
        · rw [if_pos hcond] at h ⊢
          rw [if_pos hcond, ih1 (by omega) (by omega) (by omega)]
          simp only [Checked.done.injEq, Prod.mk.injEq]
          omega
        · rw [if_neg hcond] at h ⊢
          rw [if_neg hcond]
          simp

/-- The outer loop with checked reads never faults and ends: every read of `arg_values` is at
an index in `1 .. arg_count - 1`, every read of a token or of the template is at most at its
terminator, and the loop is left in the state in which the outer loop is left. -/
theorem match_loop_checked_eq (argv : List (List Char)) (spec : List Char) :
    ∀ (fuel ai si : Nat), 1 ≤ ai → si ≤ spec.length + 1 → spec.length + 2 ≤ fuel + si →
      ∃ r, ClArgs.match_loop_checked ⟨argv.length, argv⟩ spec fuel ai si = .done r ∧
        ClArgs.match_loop ⟨argv.length, argv⟩ spec fuel ai si = some r := by
  intro fuel
  induction fuel with
  | zero => intro ai si _ h1 h2; omega
  | succ f ih =>
    intro ai si hai hsi hfuel
    by_cases hcond : ai < argv.length ∧ si < strlen spec
    · obtain ⟨hai_lt, hsi_lt⟩ := hcond
      have hsi_lt1 : si < spec.length := hsi_lt
      rw [ClArgs.match_loop_checked, ClArgs.match_loop, if_pos ⟨hai_lt, hsi_lt⟩,
        if_pos ⟨hai_lt, hsi_lt⟩, read_cstr_ok spec si (by omega)]
      simp only []
      by_cases hq : cstr_at spec si ≠ '?'
      · rw [if_pos hq, if_pos hq]
        by_cases hs : cstr_at spec si ≠ ' '
        · rw [if_pos hs, if_pos hs, read_arg_ok argv ai hai hai_lt]
          simp only []
          have hn1 := (cmp_len_le (argv.getD ai []) (spec.drop si)).1
          have hn2 := (cmp_len_le (argv.getD ai []) (spec.drop si)).2
          simp only [List.length_drop] at hn2
          have hlt : cmp_len ((argv.getD ai []).drop 0) (spec.drop si) < f + 1 := by
            rw [List.drop_zero]; omega
          rw [match_cmp_checked_eq (argv.getD ai []) spec (f + 1) si 0 (Nat.zero_le _)
              (by omega) hlt,
            match_cmp_eq (argv.getD ai []) spec (f + 1) si 0 hlt]
          simp only [List.drop_zero, Nat.zero_add]
          rw [read_cstr_ok (argv.getD ai []) _ hn1, read_cstr_ok spec _ (by omega)]
          simp only []
          by_cases hok : cstr_at (argv.getD ai []) (cmp_len (argv.getD ai []) (spec.drop si)) =
              NUL ∧ (cstr_at spec (si + cmp_len (argv.getD ai []) (spec.drop si)) = NUL ∨
                cstr_at spec (si + cmp_len (argv.getD ai []) (spec.drop si)) = ' ')
          · rw [if_pos hok, if_pos hok]
            exact ih (ai + 1) _ (by omega) (by omega) (by omega)
          · rw [if_neg hok, if_neg hok]
            exact ⟨_, rfl, rfl⟩
        · rw [if_neg hs, if_neg hs]
          exact ih ai (si + 1) hai (by omega) (by omega)
      · rw [if_neg hq, if_neg hq]
        exact ih (ai + 1) (si + 1) (by omega) (by omega) (by omega)
    · rw [ClArgs.match_loop_checked, ClArgs.match_loop, if_neg hcond, if_neg hcond]
      exact ⟨_, rfl, rfl⟩

/-- C18: for every template and every argument vector, `ClArgs::match` with checked reads
ends without a fault, with any fuel above the length of the template plus
1, and returns the Boolean that `ClArgs::match` returns: every read of `arg_values` is at an
index in `1 .. arg_count - 1`, every read of a token and of the template is at a position not
behind its terminator. -/
theorem C18_match_never_faults (spec : List Char) (argv : List (List Char)) (fuel : Nat)
    (hfuel : strlen spec + 1 < fuel) :
    ∃ b, ClArgs.match_checked ⟨argv.length, argv⟩ fuel spec = .done b ∧
      ClArgs.match_ ⟨argv.length, argv⟩ fuel spec = some b := by
  simp only [strlen] at hfuel
  obtain ⟨⟨a, s⟩, h1, h2⟩ := match_loop_checked_eq argv spec fuel 1 0 (Nat.le_refl _)
    (by omega) (by omega)
  refine ⟨decide (a = argv.length) && decide (spec.length ≤ s), ?_, ?_⟩
  · unfold ClArgs.match_checked
    rw [h1]
    rfl
  · unfold ClArgs.match_
    rw [h2]
    rfl

theorem C18_match_never_faults_witness :
    ∃ b, ClArgs.match_checked ⟨4, ["stringproc".toList, "a?".toList, "".toList,
        "x y".toList]⟩ 12 " a?  ? ?b".toList = .done b ∧
      ClArgs.match_ ⟨4, ["stringproc".toList, "a?".toList, "".toList, "x y".toList]⟩ 12
        " a?  ? ?b".toList = some b :=
  C18_match_never_faults " a?  ? ?b".toList
    ["stringproc".toList, "a?".toList, "".toList, "x y".toList] 12 (by decide)

theorem match_rest_spaces : ∀ (k : Nat) (toks : List (List Char)),
    match_rest (List.replicate k ' ') toks = (decide (k = 0) && toks.isEmpty) := by
  intro k
  induction k with
  | zero => intro toks; simp [match_rest_nil]
  | succ k ih =>
    intro toks
    cases toks with
    | nil => simp [List.replicate_succ, match_rest_cons_nil]
    | cons t ts =>
      rw [List.replicate_succ, match_rest_cons_cons, if_neg (by decide), if_pos rfl, ih]
      simp

/-- Spaces in front of a non-empty template are skipped. -/
theorem match_rest_leading (s : List Char) (hs : s ≠ []) : ∀ (j : Nat) (toks : List (List Char)),
    match_rest (List.replicate j ' ' ++ s) toks = match_rest s toks := by
  intro j
  induction j with
  | zero => intro toks; simp
  | succ j ih =>
    intro toks
    obtain ⟨c, r, rfl⟩ : ∃ c r, s = c :: r := by
      cases s with
      | nil => exact absurd rfl hs
      | cons c r => exact ⟨c, r, rfl⟩
    cases toks with
    | nil => simp [List.replicate_succ, match_rest_cons_nil]
    | cons t ts =>
      rw [List.replicate_succ, List.cons_append, match_rest_cons_cons, if_neg (by decide),
        if_pos rfl, ih]

/-- A literal word at the head of the template, followed by the end of the template or by a
space, consumes a token that is equal to it, and the space behind it. -/
theorem match_rest_literal (w tl t : List Char) (ts : List (List Char))
    (hw : valid_word w) (hq : w ≠ ['?']) (ht : NUL ∉ t)
    (htl : tl = [] ∨ ∃ r, tl = ' ' :: r) :
    match_rest (w ++ tl) (t :: ts) = (decide (w = t) && match_rest tl.tail ts) := by
  obtain ⟨hne, hsp, hnul, hhead⟩ := hw
  obtain ⟨c, w1, rfl⟩ : ∃ c w1, w = c :: w1 := by
    cases w with
    | nil => exact absurd rfl hne
    | cons c w1 => exact ⟨c, w1, rfl⟩
  have hcq : c ≠ '?' := by
    rcases hhead with h | h
    · exact absurd h hq
    · intro hc; apply h; rw [hc]; rfl
  have hcs : c ≠ ' ' := by
    intro hc; apply hsp; rw [hc]; exact List.mem_cons_self _ _
  obtain ⟨-, hiff, heq⟩ := cmp_len_word t (c :: w1) tl ht hnul hsp htl
  rw [List.cons_append, match_rest_cons_cons, if_neg hcq, if_neg hcs]
  rw [List.cons_append] at hiff heq
  by_cases htw : t = c :: w1
  · rw [if_pos (hiff.mpr htw), heq htw]
    have hd : (w1 ++ tl).drop (c :: w1).length = tl.tail := by
      simp only [List.length_cons]
      rw [← List.tail_drop, List.drop_append_of_le_length (Nat.le_refl _)]
      simp
    rw [hd]
    simp [htw]
  · rw [if_neg (fun h => htw (hiff.mp h))]
    have : decide (c :: w1 = t) = false := by
      simp only [decide_eq_false_iff_not]; exact fun h => htw h.symm
    rw [this, Bool.false_and]

/-- The matcher on a template of valid words followed by `k` spaces: it matches as the
template does when there is no such space, or one behind a last word that is not `?`; it does
not match otherwise. -/
theorem match_rest_words_padded (k : Nat) : ∀ (ws : List (List Char)), ws ≠ [] →
    (∀ w ∈ ws, valid_word w) → ∀ (toks : List (List Char)), (∀ t ∈ toks, NUL ∉ t) →
    match_rest (join_words ws ++ List.replicate k ' ') toks =
      (spec_match_words ws toks &&
        decide (k = 0 ∨ (k = 1 ∧ ws.getLast? ≠ some ['?']))) := by
  have hpad : List.replicate k ' ' = [] ∨ ∃ r, List.replicate k ' ' = ' ' :: r := by
    cases k with
    | zero => exact Or.inl rfl
    | succ k => exact Or.inr ⟨_, List.replicate_succ _ _⟩
  have hpad_tail : (List.replicate k ' ').tail = List.replicate (k - 1) ' ' := by
    cases k with
    | zero => rfl
    | succ k => simp [List.replicate_succ]
  intro ws
  induction ws with
  | nil => intro h; exact absurd rfl h
  | cons w rest ih =>
    intro _ hvalid toks hnul
    have hw := hvalid w (List.mem_cons_self _ _)
    have hvalid_rest : ∀ w1 ∈ rest, valid_word w1 :=
      fun w1 h1 => hvalid w1 (List.mem_cons_of_mem _ h1)
    have hw_ne : w ≠ [] := hw.1
    cases toks with
    | nil =>
      obtain ⟨tl, hjoin, -⟩ := join_words_cons w rest
      obtain ⟨c, w1, rfl⟩ : ∃ c w1, w = c :: w1 := by
        cases w with
        | nil => exact absurd rfl hw_ne
        | cons c w1 => exact ⟨c, w1, rfl⟩
      rw [hjoin]
      simp [match_rest_cons_nil, spec_match_words]
    | cons t ts =>
      have hnul_t : NUL ∉ t := hnul t (List.mem_cons_self _ _)
      have hnul_ts : ∀ t1 ∈ ts, NUL ∉ t1 := fun t1 h1 => hnul t1 (List.mem_cons_of_mem _ h1)
      cases rest with
      | nil =>
        -- the last word
        simp only [join_words, List.getLast?_singleton]
        by_cases hq : w = ['?']
        · subst hq
          rw [List.singleton_append, match_rest_cons_cons, if_pos rfl, match_rest_spaces]
          cases ts with
          | nil => simp [spec_match_words]
          | cons t1 ts1 => simp [spec_match_words]
        · rw [match_rest_literal w _ t ts hw hq hnul_t hpad, hpad_tail, match_rest_spaces]
          have hne : (some w ≠ some ['?']) := fun h => hq (Option.some.inj h)
          cases ts with
          | nil =>
            simp only [spec_match_words, hq, decide_False, Bool.false_or, List.isEmpty_nil,
              Bool.and_true, ne_eq, hne, not_false_eq_true, and_true]
            congr 1
            simp only [decide_eq_decide]
            omega
          | cons t1 ts1 => simp [spec_match_words]
      | cons w2 rest2 =>
        have hlast : (w :: w2 :: rest2).getLast? = (w2 :: rest2).getLast? := by
          simp [List.getLast?_cons_cons]
        have hj : join_words (w :: w2 :: rest2) ++ List.replicate k ' ' =
            w ++ (' ' :: (join_words (w2 :: rest2) ++ List.replicate k ' ')) := by
          simp [join_words]
        rw [hj, hlast]
        by_cases hq : w = ['?']
        · subst hq
          rw [List.singleton_append, match_rest_cons_cons, if_pos rfl]
          cases ts with
          | nil => simp [match_rest_cons_nil, spec_match_words]
          | cons t1 ts1 =>
            rw [match_rest_cons_cons, if_neg (by decide), if_pos rfl,
              ih (by simp) hvalid_rest (t1 :: ts1) hnul_ts]
            simp [spec_match_words]
        · rw [match_rest_literal w _ t ts hw hq hnul_t (Or.inr ⟨_, rfl⟩), List.tail_cons,
            ih (by simp) hvalid_rest ts hnul_ts]
          simp [spec_match_words, hq, Bool.and_assoc]

theorem join_words_ne_nil (ws : List (List Char)) (hne : ws ≠ [])
    (hvalid : ∀ w ∈ ws, valid_word w) : join_words ws ≠ [] := by
  cases ws with
  | nil => exact absurd rfl hne
  | cons w rest =>
    obtain ⟨tl, hjoin, -⟩ := join_words_cons w rest
    rw [hjoin]
    intro h
    exact (hvalid w (List.mem_cons_self _ _)).1 (List.append_eq_nil.mp h).1

/-- C19, counterexample: a trailing space is not ignored behind a final `?`, and two trailing
spaces are not ignored behind a final literal word: `?` matches the token `x` and `? ` does not; `a` matches the
token `a` and `a` followed by two spaces does not. -/
theorem C19_trailing_spaces_counterexample :
    ClArgs.match_ ⟨2, ["stringproc".toList, "x".toList]⟩ 10 "?".toList = some true ∧
    ClArgs.match_ ⟨2, ["stringproc".toList, "x".toList]⟩ 10 "? ".toList = some false ∧
    ClArgs.match_ ⟨2, ["stringproc".toList, "a".toList]⟩ 10 "a".toList = some true ∧
    ClArgs.match_ ⟨2, ["stringproc".toList, "a".toList]⟩ 10 "a  ".toList = some false := by
  decide

/-- C19, as amended: leading spaces in a template do not change what it matches, and neither
does a single trailing space behind a last word that is not `?`: for a template of valid
words joined by single spaces, `j` added leading spaces and `k` added trailing spaces, where
`k = 0`, or `k = 1` and the last word is a literal word, `ClArgs::match` returns on the padded
template what it returns on the template. -/
theorem C19_leading_spaces_ignored (words argv : List (List Char)) (j k fuel : Nat)
    (hn : 1 ≤ words.length) (hwords : ∀ w ∈ words, valid_word w)
    (hargc : 1 ≤ argv.length) (hargv : ∀ t ∈ argv, NUL ∉ t)
    (hk : k = 0 ∨ (k = 1 ∧ words.getLast? ≠ some ['?']))
    (hfuel : j + (List.intercalate [' '] words).length + k + 1 < fuel) :
    ∃ b, ClArgs.match_ ⟨argv.length, argv⟩ fuel (List.intercalate [' '] words) = some b ∧
      ClArgs.match_ ⟨argv.length, argv⟩ fuel
        (List.replicate j ' ' ++ List.intercalate [' '] words ++ List.replicate k ' ') =
        some b := by
  have hne : words ≠ [] := by
    intro h; rw [h] at hn; simp at hn
  have hnul := tail_nul_free argv hargv
  rw [← join_words_eq_intercalate] at hfuel ⊢
  refine ⟨match_rest (join_words words) argv.tail,
    match_eq_rest _ argv fuel hargc (by omega), ?_⟩
  have hlen : (List.replicate j ' ' ++ join_words words ++ List.replicate k ' ').length + 1 <
      fuel := by
    simp only [List.length_append, List.length_replicate]
    omega
  rw [match_eq_rest _ argv fuel hargc hlen]
  have h0 := match_rest_words_padded 0 words hne hwords argv.tail hnul
  have h1 := match_rest_words_padded k words hne hwords argv.tail hnul
  simp only [List.replicate_zero, List.append_nil, true_or, decide_True, Bool.and_true] at h0
  rw [List.append_assoc, match_rest_leading _ (by
    intro h
    exact join_words_ne_nil words hne hwords (List.append_eq_nil.mp h).1), h1, h0]
  simp [hk]

theorem C19_leading_spaces_ignored_witness :
    ∃ b, ClArgs.match_ ⟨4, ["stringproc".toList, "trim".toList, "a b".toList,
        "now".toList]⟩ 20 (List.intercalate [' '] ["trim".toList, ['?'], "now".toList]) =
        some b ∧
      ClArgs.match_ ⟨4, ["stringproc".toList, "trim".toList, "a b".toList, "now".toList]⟩ 20
        (List.replicate 2 ' ' ++ List.intercalate [' '] ["trim".toList, ['?'], "now".toList] ++
          List.replicate 1 ' ') = some b :=
  C19_leading_spaces_ignored ["trim".toList, ['?'], "now".toList]
    ["stringproc".toList, "trim".toList, "a b".toList, "now".toList] 2 1 20
    (by decide) (by decide) (by decide) (by decide) (Or.inr ⟨rfl, by decide⟩) (by decide)

/-- C20, counterexample: the empty template matches the argument vector that holds only the
program name. -/
theorem C20_empty_template_counterexample :
    ClArgs.match_ ⟨1, ["stringproc".toList]⟩ 1 [] = some true := by
  decide

/-- C20, as amended: `ClArgs::match` on the empty template returns false for every argument
vector that holds a user token, and true for the vector that holds only the program name. -/
theorem C20_empty_template_matches_no_token (argv : List (List Char)) (fuel : Nat) :
    ClArgs.match_ ⟨argv.length, argv⟩ (fuel + 1) [] = some (decide (argv.length = 1)) := by
  unfold ClArgs.match_
  rw [ClArgs.match_loop, if_neg (by simp [strlen])]
  simp only [strlen, List.length_nil, Nat.le_refl, decide_True, Bool.and_true,
    Option.some.injEq, decide_eq_decide]
  exact eq_comm

/-- The position that `rfind` returns is determined by being the highest one. -/
theorem rfind_eq_some (text part : List Char) (m : Nat) (hm : m ≤ text.length)
    (hpre : part <+: text.drop m)
    (hmax : ∀ j, m < j → j ≤ text.length → ¬ part <+: text.drop j) :
    rfind text part = some m := by
  cases hf : rfind text part with
  | none => exact absurd hpre (rfind_none text part hf m)
  | some k =>
    obtain ⟨hk, hkpre, hkmax⟩ := rfind_some text part k hf
    have h1 : ¬ m < k := fun h => hmax k h hk hkpre
    have h2 : ¬ k < m := fun h => hkmax m h hm hpre
    have : k = m := by omega
    rw [this]

theorem no_overlap_drop (part text : List Char) (d : Nat) (h : no_overlap part text) :
    no_overlap part (text.drop d) := by
  intro j hj i hij hi hjp
  rw [← drop_add_eq] at hi hjp
  simp only [List.length_drop] at hj
  by_cases hd : d ≤ text.length
  · have := h (d + j) (by omega) (d + i) (by omega) hi hjp
    omega
  · -- behind the end of the text nothing is left
    omega

/-- The loop of `tokenize` with a non-empty separator: the first token it writes, or the rest
when it writes none, is what stands before the first occurrence of the separator; when no two
occurrences of the separator overlap, the rest is what stands behind the last one. -/
theorem tokenize_loop_ends (sep : List Char) (hsep : sep ≠ []) :
    ∀ (fuel : Nat) (text : List Char) (io : Streams), text.length < fuel →
      ∃ tokens rest, tokenize_loop sep fuel text io = some (cout io (lines tokens), .ok rest) ∧
        (tokens ++ [rest]).head? =
          some (match find text sep with
            | some i => text.take i
            | none => text) ∧
        (no_overlap sep text →
          rest = (match rfind text sep with
            | some i => text.drop (i + sep.length)
            | none => text)) := by
  intro fuel
  induction fuel with
  | zero => intro text io h; omega
  | succ f ih =>
    intro text io hlen
    have hpl : 0 < sep.length := List.length_pos.mpr hsep
    rw [tokenize_loop]
    cases hf : find text sep with
    | none =>
      refine ⟨[], text, by simp [lines, cout_nil], rfl, fun _ => ?_⟩
      have hnot := (find_eq_none_iff text sep).mp hf
      rw [(rfind_eq_none_iff text sep).mpr hnot]
    | some i =>
      obtain ⟨hi, hpre, hmin⟩ := find_some text sep i hf
      obtain ⟨hsplit, hbound⟩ := split_at_occurrence text sep i hpre
      have hb := hbound hi
      simp only []
      rw [substr_ok text 0 (Nat.zero_le _), substr_ok text _ hb]
      simp only [List.drop_zero]
      obtain ⟨tokens, rest, h1, -, h3⟩ := ih (text.drop (i + sep.length))
        (cout (cout io (text.take i)) ['\n']) (by simp only [List.length_drop]; omega)
      refine ⟨text.take i :: tokens, rest, ?_, rfl, fun hno => ?_⟩
      · rw [h1, cout_cout, cout_cout]
        simp [lines]
      · rw [h3 (no_overlap_drop sep text _ hno)]
        -- the last occurrence in the text, and what the rest of the text has of it
        cases hr : rfind text sep with
        | none => exact absurd hpre (rfind_none text sep hr i)
        | some m =>
          obtain ⟨hm, hmpre, hmmax⟩ := rfind_some text sep m hr
          have him : i ≤ m := by
            by_contra hlt
            exact hmin m (by omega) hmpre
          have hmb := (split_at_occurrence text sep m hmpre).2 hm
          simp only []
          by_cases heq : m = i
          · subst heq
            have hnone : rfind (text.drop (m + sep.length)) sep = none := by
              cases hr2 : rfind (text.drop (m + sep.length)) sep with
              | none => rfl
              | some k =>
                obtain ⟨hk, hkpre, -⟩ := rfind_some _ sep k hr2
                rw [← drop_add_eq] at hkpre
                simp only [List.length_drop] at hk
                exact absurd hkpre (hmmax _ (by omega) (by omega))
            rw [hnone]
          · have hge : i + sep.length ≤ m := hno m hm i (by omega) hpre hmpre
            have hk : rfind (text.drop (i + sep.length)) sep = some (m - (i + sep.length)) := by
              apply rfind_eq_some
              · simp only [List.length_drop]; omega
              · rw [← drop_add_eq, show i + sep.length + (m - (i + sep.length)) = m by omega]
                exact hmpre
              · intro j hj hjl
                rw [← drop_add_eq]
                simp only [List.length_drop] at hjl
                exact hmmax _ (by omega) (by omega)
            rw [hk]
            simp only []
            rw [← drop_add_eq]
            congr 1
            omega

/-- C21, counterexample: with `P = "aa"` and `S = "aaa"`, whose two occurrences of `P`
overlap, `tokenize` writes the lines `""` and `"a"`, and `last token` writes `""`: the last
line is not the last token. -/
theorem C21_overlap_counterexample :
    main parse_unsigned_int64_c_str 40 ["stringproc".toList, "tokenize".toList, "aaa".toList,
        "split".toList, "by".toList, "aa".toList] =
      some ⟨.exited EXIT_SUCCESS, lines [[], "a".toList], []⟩ ∧
    main parse_unsigned_int64_c_str 40 ["stringproc".toList, "last".toList, "token".toList,
        "of".toList, "aaa".toList, "split".toList, "by".toList, "aa".toList] =
      some ⟨.exited EXIT_SUCCESS, [], []⟩ ∧
    [[], "a".toList].getLast? ≠ some ([] : List Char) ∧
    ¬ no_overlap "aa".toList "aaa".toList := by
  decide

/-- C21, as amended: for a non-empty separator `P`, the runs on `tokenize S split by P`,
`first token of S split by P` and `last token of S split by P` succeed; the first line that
`tokenize` writes is the output of `first token`, and when no two occurrences of `P` in `S`
overlap, the last line that it writes is the output of `last token`. -/
theorem C21_tokenize_agrees_without_overlap (parse : List Char → Option Nat) (fuel : Nat)
    (prog S P : List Char) (hfuel : 34 < fuel) (hlen : S.length < fuel)
    (hS : NUL ∉ S) (hP : NUL ∉ P) (hne : P ≠ []) :
    ∃ tokens first last,
      main parse fuel [prog, "tokenize".toList, S, "split".toList, "by".toList, P] =
        some ⟨.exited EXIT_SUCCESS, lines tokens, []⟩ ∧
      main parse fuel [prog, "first".toList, "token".toList, "of".toList, S, "split".toList,
        "by".toList, P] = some ⟨.exited EXIT_SUCCESS, first, []⟩ ∧
      main parse fuel [prog, "last".toList, "token".toList, "of".toList, S, "split".toList,
        "by".toList, P] = some ⟨.exited EXIT_SUCCESS, last, []⟩ ∧
      tokens.head? = some first ∧
      (no_overlap P S → tokens.getLast? = some last) := by
  have h1 : NUL ∉ "tokenize".toList := by decide
  have h2 : NUL ∉ "split".toList := by decide
  have h3 : NUL ∉ "by".toList := by decide
  have h4 : NUL ∉ "first".toList := by decide
  have h5 : NUL ∉ "last".toList := by decide
  have h6 : NUL ∉ "token".toList := by decide
  have h7 : NUL ∉ "of".toList := by decide
  -- the run of `tokenize`
  obtain ⟨tokens, rest, hloop, hhead, hlast⟩ := tokenize_loop_ends P hne fuel S ⟨[], []⟩ hlen
  have htok : tokenize fuel S P ⟨[], []⟩ =
      some (cout ⟨[], []⟩ (lines (tokens ++ [rest])), .ok ()) := by
    rw [tokenize, hloop]
    simp only []
    rw [cout_cout, cout_cout, lines_append]
    simp [lines]
  have hnul : ∀ t ∈ [prog, "tokenize".toList, S, "split".toList, "by".toList, P].tail,
      NUL ∉ t := by
    intro t ht
    simp only [List.tail_cons, List.mem_cons, List.mem_singleton, List.not_mem_nil,
      or_false] at ht
    rcases ht with rfl | rfl | rfl | rfl | rfl <;> assumption
  have hw : split_words "tokenize ? split by ?".toList =
      ["tokenize".toList, ['?'], "split".toList, "by".toList, ['?']] := by decide
  have hmt := match_of_words "tokenize ? split by ?".toList (by decide) fuel
    [prog, "tokenize".toList, S, "split".toList, "by".toList, P] (by simp) hnul
    hfuel (by rw [hw]; simp [spec_match_words])
  have hrun0 := main_of_row parse fuel
    [prog, "tokenize".toList, S, "split".toList, "by".toList, P] hnul hfuel
    "tokenize ? split by ?".toList [2, 5] (.looping (tokenize fuel))
    (by simp [main_table]) (by simp) hmt (cout ⟨[], []⟩ (lines (tokens ++ [rest])))
    (by
      simp only [run_row, ClArgs.get_arg, List.length_cons, List.length_nil]
      simp [htok])
  -- the runs of `first token` and `last token`
  have hrun1 := main_op2 parse fuel
    [prog, "first".toList, "token".toList, "of".toList, S, "split".toList, "by".toList, P]
    (by
      intro t ht
      simp only [List.tail_cons, List.mem_cons, List.mem_singleton, List.not_mem_nil,
        or_false] at ht
      rcases ht with rfl | rfl | rfl | rfl | rfl | rfl | rfl <;> assumption)
    hfuel "first token of ? split by ?".toList 4 7 first_token (by simp [main_table])
    (by decide)
    (by
      have hw1 : split_words "first token of ? split by ?".toList =
          ["first".toList, "token".toList, "of".toList, ['?'], "split".toList, "by".toList,
            ['?']] := by decide
      rw [hw1]; simp [spec_match_words])
    (by simp) (by simp) (by simp) _ (first_token_eq _ _ _)
  have hrun2 := main_op2 parse fuel
    [prog, "last".toList, "token".toList, "of".toList, S, "split".toList, "by".toList, P]
    (by
      intro t ht
      simp only [List.tail_cons, List.mem_cons, List.mem_singleton, List.not_mem_nil,
        or_false] at ht
      rcases ht with rfl | rfl | rfl | rfl | rfl | rfl | rfl <;> assumption)
    hfuel "last token of ? split by ?".toList 4 7 last_token (by simp [main_table])
    (by decide)
    (by
      have hw2 : split_words "last token of ? split by ?".toList =
          ["last".toList, "token".toList, "of".toList, ['?'], "split".toList, "by".toList,
            ['?']] := by decide
      rw [hw2]; simp [spec_match_words])
    (by simp) (by simp) (by simp) _ (last_token_eq _ _ _)
  simp only [List.getD_cons_succ, List.getD_cons_zero] at hrun1 hrun2
  refine ⟨tokens ++ [rest], _, _, ?_, hrun1, hrun2, hhead, fun hno => ?_⟩
  · rw [hrun0]; simp [cout]
  · rw [List.getLast?_append, List.getLast?_singleton, hlast hno]
    rfl

theorem C21_tokenize_agrees_without_overlap_witness :
    (∃ tokens first last,
      main parse_unsigned_int64_c_str 40 ["stringproc".toList, "tokenize".toList,
        "a,b,,c".toList, "split".toList, "by".toList, ",".toList] =
        some ⟨.exited EXIT_SUCCESS, lines tokens, []⟩ ∧
      main parse_unsigned_int64_c_str 40 ["stringproc".toList, "first".toList,
        "token".toList, "of".toList, "a,b,,c".toList, "split".toList, "by".toList,
        ",".toList] = some ⟨.exited EXIT_SUCCESS, first, []⟩ ∧
      main parse_unsigned_int64_c_str 40 ["stringproc".toList, "last".toList,
        "token".toList, "of".toList, "a,b,,c".toList, "split".toList, "by".toList,
        ",".toList] = some ⟨.exited EXIT_SUCCESS, last, []⟩ ∧
      tokens.head? = some first ∧
      (no_overlap ",".toList "a,b,,c".toList → tokens.getLast? = some last)) ∧
    no_overlap ",".toList "a,b,,c".toList :=
  ⟨C21_tokenize_agrees_without_overlap parse_unsigned_int64_c_str 40 "stringproc".toList
    "a,b,,c".toList ",".toList (by decide) (by decide) (by decide) (by decide) (by decide),
    by decide⟩

end stringproc
